import Mathlib

/-!
Verification development for the heap-dump reader and graph linker
(`package read`, plus the `hview` analyses built on top of it).

The Go source is shallowly embedded below:

* machine `uint64` values become `Nat` (wrap-around is modelled explicitly
  where the source can overflow);
* the mutable `Dump` structure becomes a Lean structure threaded
  explicitly through the functions that update it;
* code paths on which the Go program aborts (`log.Fatal`), panics
  (nil dereference, index out of range, slice out of range, division by
  zero) or fails to terminate are modelled by `Option`/fuel: a `none`
  result means the process does not return normally.

Record kinds that merely accumulate into side lists that no modelled
function reads (finalizer, defer, panic, osthread, memstats) are not
modelled.
-/

namespace read

/-- Field kinds, mirroring the `FieldKind` constants of the source. -/
inductive FieldKind where
  | eol | ptr | str | slice | iface | eface
  | bool | uint8 | sint8 | uint16 | sint16 | uint32 | sint32
  | uint64 | sint64 | float32 | float64 | complex64 | complex128
  | bytes8 | bytes16
deriving DecidableEq, Repr

/-- Type kinds, mirroring the `TypeKind` constants of the source
(Object = 0, Array = 1, Chan = 2, Conservative = 127). -/
inductive TypeKind where
  | object | array | chan | conservative
deriving DecidableEq, Repr

/-- Byte order declared by the params record.  The Go field
`Dump.Order binary.ByteOrder` is nil until params is read; that state is
`Option Endian = none` in the embedding. -/
inductive Endian where
  | le | be
deriving DecidableEq, Repr

/-- A `Field`: a location in an object where there might be a pointer. -/
structure Field where
  kind : FieldKind
  offset : Nat
  name : String
deriving DecidableEq, Repr

/-- `read.Type`: a runtime type record.  (`Type` itself is reserved in
Lean, hence the name `TypeRec`.) -/
structure TypeRec where
  name : String
  size : Nat
  efaceptr : Bool
  fields : List Field
  addr : Nat
deriving DecidableEq, Repr

/-- `read.FullType`.  The Go field `Typ *Type` is a pointer shared with
`Dump.Types`/`Dump.TypeMap` (type records are mutated in place by the
naming passes), so it is modelled by an index into `Dump.types`:
`typ = some i` stands for `&Types[i]` and `typ = none` for nil. -/
structure FullType where
  id : Nat
  typ : Option Nat
  kind : TypeKind
  size : Nat
  name : String
  fields : List Field
deriving DecidableEq, Repr

/-- Object ids: dense indices into the sorted object array, with the
sentinel `ObjNil = -1` modelled as `ObjId.nil`. -/
inductive ObjId where
  | nil
  | id (i : Nat)
deriving DecidableEq, Repr

/-- `read.Edge`: a directed connection between two objects. -/
structure Edge where
  To : ObjId
  FromOffset : Nat
  ToOffset : Nat
  FieldName : String
deriving DecidableEq, Repr

/-- `read.Object`.  The source keeps the file offset of the body and
re-reads it on demand from the (immutable) open dump file; the embedding
stores the bytes that `rawRead` skipped over.  `Ft *FullType` is a
pointer into the dump-owned `FTList` (whose entries `nameFullTypes`
mutates in place), modelled by the list index. -/
structure Object where
  ft : Nat
  addr : Nat
  body : List Nat
deriving DecidableEq, Repr

/-- `read.Data`: a globals segment (data or bss). -/
structure Data where
  addr : Nat
  data : List Nat
  fields : List Field
  edges : List Edge
deriving DecidableEq, Repr

/-- `read.OtherRoot`.  The Go zero value of `E Edge` has `To = ObjId(0)`;
the embedding keeps that quirk. -/
structure OtherRoot where
  description : String
  e : Edge
  toaddr : Nat
deriving DecidableEq, Repr

/-- `read.QFinalizer`. -/
structure QFinalizer where
  obj : Nat
  fn : Nat
  code : Nat
  fint : Nat
  ot : Nat
  edges : List Edge
deriving DecidableEq, Repr

/-- `read.StackFrame`.  `Parent`/`Goroutine` pointers become indices. -/
structure StackFrame where
  name : String
  parent : Option Nat
  goroutine : Option Nat
  depth : Nat
  data : List Nat
  edges : List Edge
  addr : Nat
  childaddr : Nat
  entry : Nat
  pc : Nat
  fields : List Field
deriving DecidableEq, Repr

/-- `read.GoRoutine`.  `Bos *StackFrame` becomes an index.  The Go zero
value of `Ctxt ObjId` is `0`, not `ObjNil`; kept as `.id 0`. -/
structure GoRoutine where
  bos : Option Nat
  ctxt : ObjId
  addr : Nat
  bosaddr : Nat
  goid : Nat
  gopc : Nat
  status : Nat
  isSystem : Bool
  isBackground : Bool
  waitSince : Nat
  waitReason : String
  ctxtaddr : Nat
  maddr : Nat
  deferaddr : Nat
  panicaddr : Nat
deriving DecidableEq, Repr

/-- The `read.Dump` structure (fields the modelled code touches). -/
structure Dump where
  order : Option Endian := none
  ptrSize : Nat := 0
  hchanSize : Nat := 0
  heapStart : Nat := 0
  heapEnd : Nat := 0
  theChar : Nat := 0
  experiment : String := ""
  ncpu : Nat := 0
  types : List TypeRec := []
  objects : List Object := []
  frames : List StackFrame := []
  goroutines : List GoRoutine := []
  otherroots : List OtherRoot := []
  qfinal : List QFinalizer := []
  dataSeg : Option Data := none
  bssSeg : Option Data := none
  buf : List Nat := []
  edges : List Edge := []
  ftList : List FullType := []
  typeMap : List (Nat × Nat) := []
  itabMap : List (Nat × Bool) := []
  idx : List Nat := []
deriving Repr

/-- Association-list lookup modelling a Go map read (front insertion
shadows, so `m[k] = v` is modelled by consing `(k, v)`). -/
def lookupA {κ α : Type} [DecidableEq κ] (k : κ) : List (κ × α) → Option α
  | [] => none
  | (k2, v) :: rest => if k2 = k then some v else lookupA k rest

/-- Dereference the `Typ *Type` pointer held in `TypeMap[a]`:
`TypeMap` maps a type address to an index into the type array. -/
def Dump.typeAt (d : Dump) (a : Nat) : Option TypeRec :=
  match lookupA a d.typeMap with
  | none => none
  | some i => d.types[i]?

/-- `bucketSize`: size of buckets for findObj. -/
def bucketSize : Nat := 256

/-- `readPtr`: reads a pointer-sized little- or big-endian value.
Combinations other than the four supported ones hit `log.Fatal`
(this includes the pre-params state `Order = nil, PtrSize = 0`), and a
slice shorter than the pointer size panics; both are `none`. -/
def readPtr (d : Dump) (b : List Nat) : Option Nat :=
  match d.order, d.ptrSize with
  | some .le, 4 =>
    match b with
    | b0 :: b1 :: b2 :: b3 :: _ =>
      some (b0 + b1 * 2 ^ 8 + b2 * 2 ^ 16 + b3 * 2 ^ 24)
    | _ => none
  | some .be, 4 =>
    match b with
    | b0 :: b1 :: b2 :: b3 :: _ =>
      some (b3 + b2 * 2 ^ 8 + b1 * 2 ^ 16 + b0 * 2 ^ 24)
    | _ => none
  | some .le, 8 =>
    match b with
    | b0 :: b1 :: b2 :: b3 :: b4 :: b5 :: b6 :: b7 :: _ =>
      some (b0 + b1 * 2 ^ 8 + b2 * 2 ^ 16 + b3 * 2 ^ 24 + b4 * 2 ^ 32 +
        b5 * 2 ^ 40 + b6 * 2 ^ 48 + b7 * 2 ^ 56)
    | _ => none
  | some .be, 8 =>
    match b with
    | b0 :: b1 :: b2 :: b3 :: b4 :: b5 :: b6 :: b7 :: _ =>
      some (b7 + b6 * 2 ^ 8 + b5 * 2 ^ 16 + b4 * 2 ^ 24 + b3 * 2 ^ 32 +
        b2 * 2 ^ 40 + b1 * 2 ^ 48 + b0 * 2 ^ 56)
    | _ => none
  | _, _ => none

/-- The size of an object: `x.Ft.Size`, following the `Ft` pointer. -/
def Dump.objSize (d : Dump) (x : Object) : Option Nat :=
  match d.ftList[x.ft]? with
  | none => none
  | some ft => some ft.size

/-- The scan loop of `findObj`: linear search forward from object
index `i`.  Loops are embedded with structural fuel; exhaustion means
the source diverges (it cannot here: the scan advances through the
object array, so `len(objects) + 1` steps always suffice).  `none` from
`objSize` is a dangling `Ft` index, which a well-formed dump never
has. -/
def findObjFrom (d : Dump) (addr : Nat) : Nat → Nat → Option ObjId
  | _, 0 => none
  | i, fuel + 1 =>
    match d.objects[i]? with
    | none => some .nil
    | some x =>
      match d.objSize x with
      | none => none
      | some sz =>
        if addr < x.addr then some .nil
        else if addr < x.addr + sz then some (.id i)
        else findObjFrom d addr (i + 1) fuel

/-- `Dump.findObj`: returns the object id containing `addr`, `ObjNil`
otherwise.  The outer `none` models the index-out-of-range panic when
the bucket of `addr` lies beyond `len(idx)`. -/
def Dump.findObj (d : Dump) (addr : Nat) : Option ObjId :=
  if addr < d.heapStart ∨ d.heapEnd ≤ addr then some .nil
  else
    match d.idx[(addr - d.heapStart) / bucketSize]? with
    | none => none
    | some i => findObjFrom d addr i (d.objects.length + 1)

/-- `Dump.Contents`: re-reads the object body from the dump file.  A
short read is fatal (`none`).  The returned buffer is also stored into
`d.buf` for reuse. -/
def Dump.contents (d : Dump) (i : Nat) : Option (Dump × List Nat) :=
  match d.objects[i]? with
  | none => none
  | some x =>
    match d.objSize x with
    | none => none
    | some sz =>
      if x.body.length = sz then
        some ({ d with buf := x.body }, x.body)
      else
        none

/-- The read-pointer / resolve / append block that the `Edges` switch
performs inline for each pointer-bearing slot: read a pointer at `off`;
if it lands in an object, append one edge. -/
def edgePtrAt (d : Dump) (b : List Nat) (acc : List Edge) (off : Nat)
    (f : Field) : Option (List Edge) :=
  match readPtr d (b.drop off) with
  | none => none
  | some p =>
    match d.findObj p with
    | none => none
    | some .nil => some acc
    | some (.id y) =>
      match d.objects[y]? with
      | none => none
      | some o => some (acc ++ [⟨.id y, off, p - o.addr, f.name⟩])

/-- One step of the field loop in `Dump.Edges`:  the contribution of a
single field to the edge list.  `none` models `log.Fatal` on a missing
eface type or itab, and panics inside `readPtr`. -/
def edgeStep (d : Dump) (b : List Nat) (acc : List Edge) (f : Field) :
    Option (List Edge) :=
  match f.kind with
  | .ptr | .str | .slice => edgePtrAt d b acc f.offset f
  | .eface =>
    match readPtr d (b.drop f.offset) with
    | none => none
    | some taddr =>
      if taddr = 0 then some acc
      else
        match d.typeAt taddr with
        | none => none
        | some t =>
          if t.efaceptr then edgePtrAt d b acc (f.offset + d.ptrSize) f
          else some acc
  | .iface =>
    match readPtr d (b.drop f.offset) with
    | none => none
    | some itabaddr =>
      if itabaddr = 0 then some acc
      else
        match lookupA itabaddr d.itabMap with
        | none => none
        | some ptrBit =>
          if ptrBit then edgePtrAt d b acc (f.offset + d.ptrSize) f
          else some acc
  | _ => some acc

/-- Fold of `edgeStep` over a field list. -/
def edgesLoop (d : Dump) (b : List Nat) (acc : List Edge) :
    List Field → Option (List Edge)
  | [] => some acc
  | f :: fs =>
    match edgeStep d b acc f with
    | none => none
    | some acc2 => edgesLoop d b acc2 fs

/-- Go `uint64` subtraction (wraps modulo `2 ^ 64`); both arguments are
assumed to be below `2 ^ 64`, which all dump-derived values are. -/
def usub64 (a b : Nat) : Nat := if b ≤ a then a - b else a + 2 ^ 64 - b

/-- `for i := range xs` with the index available. -/
def mapWithIndexFrom {α β : Type} (f : Nat → α → β) (i : Nat) :
    List α → List β
  | [] => []
  | a :: as => f i a :: mapWithIndexFrom f (i + 1) as

/-- Rename every element of a list using its position. -/
def mapWithIndex {α β : Type} (f : Nat → α → β) (l : List α) : List β :=
  mapWithIndexFrom f 0 l

/-- `Dump.Edges`: the lazy per-object edge enumeration.  Returns the
updated dump (scratch buffer `buf` and edge vector `edges` are reused
across calls) together with the edge list. -/
def Dump.edgesOf (d : Dump) (i : Nat) : Option (Dump × List Edge) :=
  match d.contents i with
  | none => none
  | some (d1, b) =>
    match d1.objects[i]? with
    | none => none
    | some x =>
      match d1.ftList[x.ft]? with
      | none => none
      | some ft =>
        match edgesLoop d1 b [] ft.fields with
        | none => none
        | some e => some ({ d1 with edges := e }, e)

/-- The name computation of `Dump.makeFullType` (the body of its
`switch kind`).  `none` models `log.Fatal` ("hchansize must be before
objects"), the nil dereference of `t` for array/chan objects without a
type record, and the division-by-zero panic in the array name when
`t.Size == 0`. -/
def makeFullTypeName (d : Dump) (typaddr : Nat) (kind : TypeKind)
    (size : Nat) : Option String :=
  match kind with
  | .object =>
    match d.typeAt typaddr with
    | some t => some t.name
    | none => some ("noptr" ++ toString size)
  | .array =>
    match d.typeAt typaddr with
    | none => none
    | some t =>
      if t.size = 0 then none
      else some ("\x7b" ++ toString (size / t.size) ++ "\x7d" ++ t.name)
  | .chan =>
    if d.hchanSize = 0 then none
    else
      match d.typeAt typaddr with
      | none => none
      | some t =>
        if 0 < t.size then
          some ("chan\x7b" ++ toString (usub64 size d.hchanSize / t.size) ++
            "\x7d" ++ t.name)
        else some ("chan\x7binf\x7d" ++ t.name)
  | .conservative => some ("conservative" ++ toString size)

/-- `Dump.makeFullType`.  `none` models `log.Fatal` ("types appear
before use of that type") and the failures of `makeFullTypeName`. -/
def Dump.makeFullType (d : Dump) (typaddr : Nat) (kind : TypeKind)
    (size : Nat) : Option (Dump × Nat) :=
  if typaddr ≠ 0 ∧ d.typeAt typaddr = none then none
  else
    match makeFullTypeName d typaddr kind size with
    | none => none
    | some name =>
      let ft : FullType :=
        ⟨d.ftList.length, lookupA typaddr d.typeMap, kind, size, name, []⟩
      some ({ d with ftList := d.ftList ++ [ft] }, d.ftList.length)

/-- The records of a dump stream, already split out of the raw byte
stream (the varint-level framing carries no logic the claims touch).
An object record carries the body bytes that `rawRead` skips over. -/
inductive Rec where
  | objR (addr typaddr : Nat) (kind : TypeKind) (size : Nat) (body : List Nat)
  | otherrootR (description : String) (toaddr : Nat)
  | typeR (addr size : Nat) (name : String) (efaceptr : Bool)
      (fields : List Field)
  | goroutineR (addr bosaddr goid gopc status : Nat)
      (isSystem isBackground : Bool) (waitSince : Nat) (waitReason : String)
      (ctxtaddr maddr deferaddr panicaddr : Nat)
  | stackframeR (addr depth childaddr : Nat) (data : List Nat)
      (entry pc : Nat) (name : String) (fields : List Field)
  | paramsR (endian ptrSize hchanSize heapStart heapEnd theChar : Nat)
      (experiment : String) (ncpu : Nat)
  | qfinalR (obj fn code fint ot : Nat)
  | dataR (addr : Nat) (data : List Nat) (fields : List Field)
  | bssR (addr : Nat) (data : List Nat) (fields : List Field)
  | itabR (addr : Nat) (ptr : Bool)
  | eofR
deriving DecidableEq, Repr

/-- The state of the `rawRead` loop: the dump under construction plus
the local full-type dedup map keyed by `(typaddr, kind, size)`. -/
structure RawState where
  d : Dump
  ftmap : List ((Nat × TypeKind × Nat) × Nat)

/-- One iteration of the `rawRead` record loop. -/
def rawStep (s : RawState) (r : Rec) : Option RawState :=
  match r with
  | .eofR => some s
  | .objR addr typaddr kind size body =>
    let k := (typaddr, kind, size)
    match lookupA k s.ftmap with
    | some fi =>
      some { s with d := { s.d with objects := s.d.objects ++ [⟨fi, addr, body⟩] } }
    | none =>
      match s.d.makeFullType typaddr kind size with
      | none => none
      | some (d2, fi) =>
        some { d := { d2 with objects := d2.objects ++ [⟨fi, addr, body⟩] },
               ftmap := (k, fi) :: s.ftmap }
  | .otherrootR descr toaddr =>
    some { s with d := { s.d with
      otherroots := s.d.otherroots ++ [⟨descr, ⟨.id 0, 0, 0, ""⟩, toaddr⟩] } }
  | .typeR addr size name efaceptr fields =>
    match lookupA addr s.d.typeMap with
    | some _ => some s
    | none =>
      some { s with d := { s.d with
        typeMap := (addr, s.d.types.length) :: s.d.typeMap,
        types := s.d.types ++ [⟨name, size, efaceptr, fields, addr⟩] } }
  | .goroutineR addr bosaddr goid gopc status isSystem isBackground
      waitSince waitReason ctxtaddr maddr deferaddr panicaddr =>
    some { s with d := { s.d with goroutines := s.d.goroutines ++
      [⟨none, .id 0, addr, bosaddr, goid, gopc, status, isSystem,
        isBackground, waitSince, waitReason, ctxtaddr, maddr, deferaddr,
        panicaddr⟩] } }
  | .stackframeR addr depth childaddr dataB entry pc name fields =>
    some { s with d := { s.d with frames := s.d.frames ++
      [⟨name, none, none, depth, dataB, [], addr, childaddr, entry, pc,
        fields⟩] } }
  | .paramsR endian ptrSize hchanSize heapStart heapEnd theChar
      experiment ncpu =>
    some { s with d := { s.d with
      order := some (if endian = 0 then .le else .be),
      ptrSize := ptrSize, hchanSize := hchanSize,
      heapStart := heapStart, heapEnd := heapEnd,
      theChar := theChar, experiment := experiment, ncpu := ncpu } }
  | .qfinalR obj fn code fint ot =>
    some { s with d := { s.d with
      qfinal := s.d.qfinal ++ [⟨obj, fn, code, fint, ot, []⟩] } }
  | .dataR addr bytes fields =>
    some { s with d := { s.d with dataSeg := some ⟨addr, bytes, fields, []⟩ } }
  | .bssR addr bytes fields =>
    some { s with d := { s.d with bssSeg := some ⟨addr, bytes, fields, []⟩ } }
  | .itabR addr ptr =>
    some { s with d := { s.d with itabMap := (addr, ptr) :: s.d.itabMap } }

/-- The `rawRead` record loop: records repeat until the `EOF` tag; a
stream that ends without one hits `log.Fatal` inside `readUint64`. -/
def runRaw (s : RawState) : List Rec → Option Dump
  | [] => none
  | r :: rest =>
    match r with
    | .eofR => some s.d
    | _ =>
      match rawStep s r with
      | none => none
      | some s2 => runRaw s2 rest

/-- `nameFallback`: generic names when no executable is given.
Dereferencing `d.Data`/`d.Bss` panics when the corresponding record is
missing. -/
def nameFallback (d : Dump) : Option Dump :=
  let types2 := d.types.map fun t =>
    { t with fields := mapWithIndex (fun i f => { f with name := "field" ++ toString i }) t.fields }
  let frames2 := d.frames.map fun r =>
    { r with fields := mapWithIndex (fun i f => { f with name := "var" ++ toString i }) r.fields }
  match d.dataSeg, d.bssSeg with
  | some ds, some bs =>
    let ds2 := { ds with fields := mapWithIndex (fun i f => { f with name := "data" ++ toString i }) ds.fields }
    let bs2 := { bs with fields := mapWithIndex (fun i f => { f with name := "bss" ++ toString i }) bs.fields }
    some { d with types := types2, frames := frames2, dataSeg := some ds2, bssSeg := some bs2 }
  | _, _ => none

/-- Hexadecimal rendering used by the `offset %x` pseudo-field names. -/
def hexStr (n : Nat) : String := String.mk (Nat.toDigits 16 n)

/-- Conservative layout: a pointer field at every `PtrSize`-aligned
offset.  Fuel exhaustion (in particular `PtrSize = 0` with a non-empty
object, where the source loops forever) is `none`. -/
def conservFields (ptrSize size : Nat) : Nat → Nat → Option (List Field)
  | _, 0 => none
  | i, fuel + 1 =>
    if i < size then
      match conservFields ptrSize size (i + ptrSize) fuel with
      | none => none
      | some rest => some (⟨.ptr, i, "~" ++ toString i⟩ :: rest)
    else some []

/-- Layout of a typeless object: 16- or 8-byte raw chunks; any other
trailing size is fatal ("weird size obj"). -/
def noptrFields (size : Nat) : Nat → Nat → Option (List Field)
  | _, 0 => none
  | i, fuel + 1 =>
    if i < size then
      let s0 := size - i
      let s := if s0 > 16 then 16 else s0
      if s = 16 then
        match noptrFields size (i + 16) fuel with
        | none => none
        | some rest => some (⟨.bytes16, i, "offset " ++ hexStr i⟩ :: rest)
      else if s = 8 then
        match noptrFields size (i + 16) fuel with
        | none => none
        | some rest => some (⟨.bytes8, i, "offset " ++ hexStr i⟩ :: rest)
      else none
    else some []

/-- `fmt.Sprintf("%d.%s", idx, name)` resp. `"%d"` for unnamed
element fields. -/
def arrayName (idx : Nat) (nm : String) : String :=
  if nm ≠ "" then toString idx ++ "." ++ nm else toString idx

/-- The element-repetition loop shared by the array and channel cases
of `nameFullTypes`: the element field list repeated while
`i <= bound` (`bound` is the `uint64` value `size - elemSize`, which
wraps when `elemSize > size`), offsets shifted by the repetition start,
names computed per repetition.  Fuel exhaustion (zero or wrapped
element size) is `none`. -/
def repFields (tFields : List Field) (tSize : Nat)
    (nameOf : Nat → String → String) (bound : Nat) :
    Nat → Nat → Option (List Field)
  | _, 0 => none
  | i, fuel + 1 =>
    if i ≤ bound then
      match repFields tFields tSize nameOf bound (i + tSize) fuel with
      | none => none
      | some rest =>
        some ((tFields.map fun f =>
          ⟨f.kind, i + f.offset, nameOf i f.name⟩) ++ rest)
    else some []

/-- Array layout: repetitions indexed by `i / elemSize`. -/
def arrayRepFields (tFields : List Field) (tSize bound : Nat)
    (i fuel : Nat) : Option (List Field) :=
  repFields tFields tSize (fun i nm => arrayName (i / tSize) nm) bound i fuel

/-- Channel element layout: as for arrays, but starting at the channel
header and indexed by `(i - HChanSize) / elemSize`. -/
def chanElemFields (tFields : List Field) (tSize hchan bound : Nat)
    (i fuel : Nat) : Option (List Field) :=
  repFields tFields tSize (fun i nm => arrayName ((i - hchan) / tSize) nm)
    bound i fuel

/-- The `chanFields` per-architecture header-name table; `none` models
the `log.Fatal` for an unsupported pointer size. -/
def chanFieldsMap (ptrSize : Nat) : Option (Nat → Option String) :=
  if ptrSize = 4 then
    some fun off =>
      if off = 0 then some "len"
      else if off = 4 then some "cap"
      else if off = 20 then some "next send index"
      else if off = 24 then some "next receive index"
      else none
  else if ptrSize = 8 then
    some fun off =>
      if off = 0 then some "len"
      else if off = 8 then some "cap"
      else if off = 32 then some "next send index"
      else if off = 40 then some "next receive index"
      else none
  else none

/-- Channel header pseudo-fields covering `[0, HChanSize)`. -/
def chanHdrFields (ptrSize : Nat) (k : FieldKind)
    (fm : Nat → Option String) (hchan : Nat) : Nat → Nat → Option (List Field)
  | _, 0 => none
  | i, fuel + 1 =>
    if i < hchan then
      match chanHdrFields ptrSize k fm hchan (i + ptrSize) fuel with
      | none => none
      | some rest =>
        some ((match fm i with
               | some nm => (⟨k, i, nm⟩ : Field)
               | none => (⟨k, i, "chanhdr"⟩ : Field)) :: rest)
    else some []

/-- The per-`FullType` body of the `nameFullTypes` loop.  `none` models
`log.Fatal` (weird-size object, missing channel header info, bad
type/kind combo) and the non-terminating or address-space-exhausting
loops the source runs into when `PtrSize = 0`, `t.Size = 0`, or
`t.Size > ft.Size` (the `uint64` bound `ft.Size - t.Size` wraps). -/
def fullTypeFields (d : Dump) (ft : FullType) : Option (List Field) :=
  match ft.typ, ft.kind with
  | none, .conservative => conservFields d.ptrSize ft.size 0 (ft.size + 1)
  | none, .object => noptrFields ft.size 0 (ft.size + 1)
  | some ti, .object =>
    match d.types[ti]? with
    | none => none
    | some t => some t.fields
  | some ti, .array =>
    match d.types[ti]? with
    | none => none
    | some t =>
      arrayRepFields t.fields t.size (usub64 ft.size t.size) 0 (ft.size + 2)
  | some ti, .chan =>
    match d.types[ti]? with
    | none => none
    | some t =>
      match chanFieldsMap d.ptrSize with
      | none => none
      | some fm =>
        let k : FieldKind := if d.ptrSize = 4 then .uint32 else .uint64
        match chanHdrFields d.ptrSize k fm d.hchanSize 0 (d.hchanSize + 1) with
        | none => none
        | some hdr =>
          if 0 < t.size then
            match chanElemFields t.fields t.size d.hchanSize
                (usub64 ft.size t.size) d.hchanSize (ft.size + 2) with
            | none => none
            | some elems => some (hdr ++ elems)
          else some hdr
  | _, _ => none

/-- Sequential Option-valued map (the shape of the source's
record-at-a-time loops that can hit `log.Fatal`). -/
def mapMOpt {α β : Type} (f : α → Option β) : List α → Option (List β)
  | [] => some []
  | a :: as =>
    match f a with
    | none => none
    | some b =>
      match mapMOpt f as with
      | none => none
      | some bs => some (b :: bs)

/-- `nameFullTypes`: fills in the field list of every `FullType`. -/
def nameFullTypes (d : Dump) : Option Dump :=
  match mapMOpt (fun ft =>
      (fullTypeFields d ft).map fun fs => { ft with fields := fs }) d.ftList with
  | none => none
  | some fts => some { d with ftList := fts }

/-- `Dump.appendEdge`: requires `data[off:]` to hold a pointer; adds an
edge if that pointer points into a valid object. -/
def appendEdge (d : Dump) (edges : List Edge) (data : List Nat)
    (off : Nat) (f : Field) : Option (List Edge) :=
  match readPtr d (data.drop off) with
  | none => none
  | some p =>
    match d.findObj p with
    | none => none
    | some .nil => some edges
    | some (.id q) =>
      match d.objects[q]? with
      | none => none
      | some o => some (edges ++ [⟨.id q, off, p - o.addr, f.name⟩])

/-- `Dump.appendFields`: the root edge builder (frames, data segments).
Unlike `Dump.Edges`, it skips fields past the end of the buffer and
tolerates a missing eface type, and a missing itab reads as `false`. -/
def appendFields (d : Dump) (edges : List Edge) (data : List Nat) :
    List Field → Option (List Edge)
  | [] => some edges
  | f :: fs =>
    let off := f.offset
    if data.length ≤ off then appendFields d edges data fs
    else
      match f.kind with
      | .ptr | .str | .slice =>
        match appendEdge d edges data off f with
        | none => none
        | some e2 => appendFields d e2 data fs
      | .eface =>
        match appendEdge d edges data off f with
        | none => none
        | some e2 =>
          match readPtr d (data.drop off) with
          | none => none
          | some tp =>
            if tp = 0 then appendFields d e2 data fs
            else
              match d.typeAt tp with
              | none => appendFields d e2 data fs
              | some t =>
                if t.efaceptr then
                  match appendEdge d e2 data (off + d.ptrSize) f with
                  | none => none
                  | some e3 => appendFields d e3 data fs
                else appendFields d e2 data fs
      | .iface =>
        match readPtr d (data.drop off) with
        | none => none
        | some tp =>
          if tp = 0 then appendFields d edges data fs
          else
            if (lookupA tp d.itabMap).getD false then
              match appendEdge d edges data (off + d.ptrSize) f with
              | none => none
              | some e2 => appendFields d e2 data fs
            else appendFields d edges data fs
      | _ => appendFields d edges data fs

/-- Insertion step of the address sort (`sort.Sort(byAddr(...))`). -/
def insertByAddr (o : Object) : List Object → List Object
  | [] => [o]
  | x :: xs => if o.addr ≤ x.addr then o :: x :: xs else x :: insertByAddr o xs

/-- Sort objects in increasing address order. -/
def sortByAddr (l : List Object) : List Object := l.foldr insertByAddr []

/-- The descending fill loop for the bucket index: for
`i := len-1 downto 0`, `idx[(addr[i]-HeapStart)/bucketSize] = i`.
An object address outside the heap bounds makes the bucket computation
wrap or exceed the array (panic): `none`. -/
def fillIdx (hs : Nat) (objects : List Object) :
    Nat → List Nat → Option (List Nat)
  | 0, idx => some idx
  | i + 1, idx =>
    match objects[i]? with
    | none => none
    | some o =>
      if hs ≤ o.addr then
        let b := (o.addr - hs) / bucketSize
        if b < idx.length then fillIdx hs objects i (idx.set b i)
        else none
      else none

/-- Last index whose frame matches `(sp, depth)` — Go map insertion
iterates forward, so the last duplicate wins. -/
def findLastIdxFrom (frames : List StackFrame) (sp depth : Nat) :
    Nat → Option Nat
  | 0 => none
  | i + 1 =>
    match frames[i]? with
    | none => findLastIdxFrom frames sp depth i
    | some f =>
      if f.addr = sp ∧ f.depth = depth then some i
      else findLastIdxFrom frames sp depth i

/-- Lookup in the `frames` map keyed by `frameKey{sp, depth}`. -/
def frameMapFind (frames : List StackFrame) (sp depth : Nat) : Option Nat :=
  findLastIdxFrom frames sp depth frames.length

/-- The frame-chaining pass: for every frame of depth `> 0`, the frame
whose stack pointer equals its child address at depth one less gets its
parent set.  A missing entry is a nil map hit and the `g.Parent = f`
store panics: `none`. -/
def chainFrames (orig : List StackFrame) :
    Nat → List StackFrame → Nat → Option (List StackFrame)
  | _, _, 0 => none
  | fi, frames, fuel + 1 =>
    match orig[fi]? with
    | none => some frames
    | some f =>
      if f.depth = 0 then chainFrames orig (fi + 1) frames fuel
      else
        match frameMapFind orig f.childaddr (f.depth - 1) with
        | none => none
        | some gi =>
          match frames[gi]? with
          | none => none
          | some g =>
            chainFrames orig (fi + 1) (frames.set gi { g with parent := some fi }) fuel

/-- Walk the parent chain from a goroutine's bottom-of-stack frame,
assigning the owning goroutine.  A cyclic parent chain would loop
forever in the source; the fuel bound `len(frames) + 1` exceeds any
acyclic chain, so exhaustion means divergence: `none`. -/
def walkFrames (gi : Nat) (frames : List StackFrame) :
    Option Nat → Nat → Option (List StackFrame)
  | none, _ => some frames
  | some _, 0 => none
  | some fi, fuel + 1 =>
    match frames[fi]? with
    | none => none
    | some f =>
      walkFrames gi (frames.set fi { f with goroutine := some gi }) f.parent fuel

/-- The goroutine-binding pass: bind `Bos` from the frame map (fatal if
missing), walk parents assigning the goroutine, resolve the context
object. -/
def bindGoroutines (d : Dump) (gs : List GoRoutine) (acc : List GoRoutine)
    (frames : List StackFrame) : Option (List GoRoutine × List StackFrame) :=
  match gs with
  | [] => some (acc, frames)
  | g :: rest =>
    match frameMapFind frames g.bosaddr 0 with
    | none => none
    | some bi =>
      match walkFrames acc.length frames (some bi) (frames.length + 1) with
      | none => none
      | some frames2 =>
        match d.findObj g.ctxtaddr with
        | none => none
        | some x =>
          let g2 := { g with bos := some bi,
                             ctxt := if x ≠ ObjId.nil then x else g.ctxt }
          bindGoroutines d rest (acc ++ [g2]) frames2

/-- The other-roots pass: resolve each target address via `findObj`. -/
def linkOtherroots (d : Dump) : List OtherRoot → Option (List OtherRoot)
  | [] => some []
  | r :: rest =>
    match d.findObj r.toaddr with
    | none => none
    | some .nil =>
      match linkOtherroots d rest with
      | none => none
      | some rs => some (r :: rs)
    | some (.id x) =>
      match d.objects[x]? with
      | none => none
      | some o =>
        match linkOtherroots d rest with
        | none => none
        | some rs =>
          some ({ r with e := ⟨.id x, 0, r.toaddr - o.addr, ""⟩ } :: rs)

/-- Resolve the four associated pointers of a queued finalizer. -/
def qfinalAddrs (d : Dump) (es : List Edge) : List Nat → Option (List Edge)
  | [] => some es
  | a :: rest =>
    match d.findObj a with
    | none => none
    | some .nil => qfinalAddrs d es rest
    | some (.id x) =>
      match d.objects[x]? with
      | none => none
      | some o => qfinalAddrs d (es ++ [⟨.id x, 0, a - o.addr, ""⟩]) rest

/-- `link`: sorts objects, builds the bucket index, and resolves root
edges (stack frames, goroutines, data segments, other roots, queued
finalizers). -/
def link (d : Dump) : Option Dump :=
  let objs := sortByAddr d.objects
  if d.heapEnd < d.heapStart then none
  else
    let idx0 := List.replicate ((d.heapEnd - d.heapStart) / bucketSize)
      objs.length
    match fillIdx d.heapStart objs objs.length idx0 with
    | none => none
    | some idx1 =>
      let d2 := { d with objects := objs, idx := idx1 }
      match mapMOpt (fun f =>
          (appendFields d2 f.edges f.data f.fields).map
            fun es => { f with edges := es }) d2.frames with
      | none => none
      | some frames1 =>
        match chainFrames frames1 0 frames1 (frames1.length + 1) with
        | none => none
        | some frames2 =>
          match bindGoroutines d2 d2.goroutines [] frames2 with
          | none => none
          | some (gs, frames3) =>
            match d2.dataSeg, d2.bssSeg with
            | some ds, some bs =>
              match appendFields d2 ds.edges ds.data ds.fields with
              | none => none
              | some es1 =>
                match appendFields d2 bs.edges bs.data bs.fields with
                | none => none
                | some es2 =>
                  match linkOtherroots d2 d2.otherroots with
                  | none => none
                  | some ors =>
                    match mapMOpt (fun f =>
                        (qfinalAddrs d2 f.edges [f.obj, f.fn, f.fint, f.ot]).map
                          fun es => { f with edges := es }) d2.qfinal with
                    | none => none
                    | some qfs =>
                      let ds2 := { ds with edges := es1 }
                      let bs2 := { bs with edges := es2 }
                      some { d2 with frames := frames3, goroutines := gs, dataSeg := some ds2, bssSeg := some bs2, otherroots := ors, qfinal := qfs }
            | _, _ => none

/-- `read.Read` with no executable: `rawRead`, `nameFallback`,
`nameFullTypes`, `link`. -/
def ReadDump (recs : List Rec) : Option Dump :=
  match runRaw ⟨{}, []⟩ recs with
  | none => none
  | some d =>
    match nameFallback d with
    | none => none
    | some d1 =>
      match nameFullTypes d1 with
      | none => none
      | some d2 => link d2

/-! ### Lemmas about `findObj` and `Edges` -/

lemma findObjFrom_some_id (d : Dump) (addr : Nat) :
    ∀ (fuel i y : Nat), findObjFrom d addr i fuel = some (.id y) →
    ∃ o sz, d.objects[y]? = some o ∧ d.objSize o = some sz ∧
      o.addr ≤ addr ∧ addr < o.addr + sz := by
  intro fuel
  induction fuel with
  | zero => intro i y h; simp [findObjFrom] at h
  | succ fuel ih =>
    intro i y h
    rw [findObjFrom] at h
    rcases hobj : d.objects[i]? with _ | x <;> simp only [hobj] at h
    · simp at h
    · rcases hsz : d.objSize x with _ | sz <;> simp only [hsz] at h
      · simp at h
      · by_cases h1 : addr < x.addr
        · simp [h1] at h
        · by_cases h2 : addr < x.addr + sz
          · simp [h1, h2] at h
            subst h
            exact ⟨x, sz, hobj, hsz, by omega, by omega⟩
          · simp [h1, h2] at h
            exact ih (i + 1) y h

/-- If `findObj` returns an object id, the address lies inside that
object. -/
lemma findObj_some_id (d : Dump) (addr y : Nat)
    (h : d.findObj addr = some (.id y)) :
    ∃ o sz, d.objects[y]? = some o ∧ d.objSize o = some sz ∧
      o.addr ≤ addr ∧ addr < o.addr + sz := by
  rw [Dump.findObj] at h
  by_cases hb : addr < d.heapStart ∨ d.heapEnd ≤ addr
  · simp [hb] at h
  · rw [if_neg hb] at h
    rcases hi : d.idx[(addr - d.heapStart) / bucketSize]? with _ | i <;>
      rw [hi] at h
    · simp at h
    · exact findObjFrom_some_id d addr _ i y h

/-- Soundness of a produced edge: the raw pointer read at the edge's
source offset resolves via `findObj` to the edge's target, and the
target offset is inside the target object. -/
def edgeOk (d : Dump) (b : List Nat) (e : Edge) : Prop :=
  ∃ p y yo sz, readPtr d (b.drop e.FromOffset) = some p ∧
    d.findObj p = some (.id y) ∧ e.To = .id y ∧
    d.objects[y]? = some yo ∧ d.objSize yo = some sz ∧
    e.ToOffset = p - yo.addr ∧ e.ToOffset < sz

lemma edgePtrAt_ok (d : Dump) (b : List Nat) (acc : List Edge)
    (off : Nat) (f : Field) (res : List Edge)
    (h : edgePtrAt d b acc off f = some res) :
    ∀ e ∈ res, e ∈ acc ∨ edgeOk d b e := by
  intro e he
  rw [edgePtrAt] at h
  rcases hr : readPtr d (b.drop off) with _ | p <;> simp only [hr] at h
  · exact Option.noConfusion h
  · rcases hf : d.findObj p with _ | y <;> simp only [hf] at h
    · exact Option.noConfusion h
    · cases y with
      | nil =>
        cases h
        left; exact he
      | id y =>
        rcases ho : d.objects[y]? with _ | o <;> simp only [ho] at h
        · exact Option.noConfusion h
        · cases h
          rcases List.mem_append.mp he with h1 | h1
          · left; exact h1
          · right
            rcases List.mem_singleton.mp h1 with rfl
            rcases findObj_some_id d p y hf with ⟨o2, sz, ho2, hsz, hle, hlt⟩
            rw [ho] at ho2
            cases ho2
            refine ⟨p, y, o, sz, hr, hf, rfl, ho, hsz, rfl, ?_⟩
            show p - o.addr < sz
            omega

lemma edgeStep_ok (d : Dump) (b : List Nat) (acc : List Edge) (f : Field)
    (res : List Edge) (h : edgeStep d b acc f = some res) :
    ∀ e ∈ res, e ∈ acc ∨ edgeOk d b e := by
  intro e he
  rcases f with ⟨kind, off, nm⟩
  cases kind <;> simp only [edgeStep] at h
  all_goals try { cases h; left; exact he }
  -- remaining: ptr, str, slice, iface, eface
  case ptr => exact edgePtrAt_ok d b acc off ⟨.ptr, off, nm⟩ res h e he
  case str => exact edgePtrAt_ok d b acc off ⟨.str, off, nm⟩ res h e he
  case slice => exact edgePtrAt_ok d b acc off ⟨.slice, off, nm⟩ res h e he
  case eface =>
    rcases hr : readPtr d (b.drop off) with _ | taddr <;> simp only [hr] at h
    · exact Option.noConfusion h
    · by_cases ht0 : taddr = 0
      · rw [if_pos ht0] at h
        cases h; left; exact he
      · rw [if_neg ht0] at h
        rcases hta : d.typeAt taddr with _ | t <;> simp only [hta] at h
        · exact Option.noConfusion h
        · by_cases hef : t.efaceptr
          · rw [if_pos hef] at h
            exact edgePtrAt_ok d b acc (off + d.ptrSize) ⟨.eface, off, nm⟩ res h e he
          · rw [if_neg hef] at h
            cases h; left; exact he
  case iface =>
    rcases hr : readPtr d (b.drop off) with _ | ia <;> simp only [hr] at h
    · exact Option.noConfusion h
    · by_cases ht0 : ia = 0
      · rw [if_pos ht0] at h
        cases h; left; exact he
      · rw [if_neg ht0] at h
        rcases hta : lookupA ia d.itabMap with _ | pb <;> simp only [hta] at h
        · exact Option.noConfusion h
        · by_cases hpb : pb
          · rw [if_pos hpb] at h
            exact edgePtrAt_ok d b acc (off + d.ptrSize) ⟨.iface, off, nm⟩ res h e he
          · simp only [hpb, if_false] at h
            cases h; left; exact he

lemma edgesLoop_ok (d : Dump) (b : List Nat) :
    ∀ (fs : List Field) (acc res : List Edge),
    edgesLoop d b acc fs = some res →
    ∀ e ∈ res, e ∈ acc ∨ edgeOk d b e := by
  intro fs
  induction fs with
  | nil =>
    intro acc res h e he
    rw [edgesLoop] at h
    cases h
    left; exact he
  | cons f fs ih =>
    intro acc res h e he
    rw [edgesLoop] at h
    rcases hs : edgeStep d b acc f with _ | acc2 <;> rw [hs] at h
    · cases h
    · rcases ih acc2 res h e he with h1 | h1
      · exact edgeStep_ok d b acc f acc2 hs e h1
      · right; exact h1

/-- Two dump states that agree on every field the edge enumeration
reads (they may differ in the scratch fields `buf` and `edges`). -/
def sameCore (d d2 : Dump) : Prop :=
  d2.order = d.order ∧ d2.ptrSize = d.ptrSize ∧
  d2.heapStart = d.heapStart ∧ d2.heapEnd = d.heapEnd ∧
  d2.objects = d.objects ∧ d2.ftList = d.ftList ∧
  d2.types = d.types ∧ d2.typeMap = d.typeMap ∧
  d2.itabMap = d.itabMap ∧ d2.idx = d.idx

lemma readPtr_congr (d d2 : Dump) (h : sameCore d d2) (b : List Nat) :
    readPtr d2 b = readPtr d b := by
  unfold readPtr
  rw [h.1, h.2.1]

lemma objSize_congr (d d2 : Dump) (h : sameCore d d2) (x : Object) :
    d2.objSize x = d.objSize x := by
  unfold Dump.objSize
  rw [h.2.2.2.2.2.1]

lemma findObjFrom_congr (d d2 : Dump) (h : sameCore d d2) (addr : Nat) :
    ∀ fuel i, findObjFrom d2 addr i fuel = findObjFrom d addr i fuel := by
  intro fuel
  induction fuel with
  | zero => intro i; rfl
  | succ fuel ih =>
    intro i
    rw [findObjFrom, findObjFrom]
    simp only [h.2.2.2.2.1, objSize_congr d d2 h, ih]

lemma findObj_congr (d d2 : Dump) (h : sameCore d d2) (addr : Nat) :
    d2.findObj addr = d.findObj addr := by
  rw [Dump.findObj, Dump.findObj]
  simp only [h.2.2.1, h.2.2.2.1, h.2.2.2.2.2.2.2.2.2, h.2.2.2.2.1,
    findObjFrom_congr d d2 h]

lemma typeAt_congr (d d2 : Dump) (h : sameCore d d2) (a : Nat) :
    d2.typeAt a = d.typeAt a := by
  unfold Dump.typeAt
  simp only [h.2.2.2.2.2.2.2.1, h.2.2.2.2.2.2.1]

lemma edgePtrAt_congr (d d2 : Dump) (h : sameCore d d2) (b : List Nat)
    (acc : List Edge) (off : Nat) (f : Field) :
    edgePtrAt d2 b acc off f = edgePtrAt d b acc off f := by
  rw [edgePtrAt, edgePtrAt]
  simp only [readPtr_congr d d2 h, findObj_congr d d2 h, h.2.2.2.2.1]

lemma edgeStep_congr (d d2 : Dump) (h : sameCore d d2) (b : List Nat)
    (acc : List Edge) (f : Field) :
    edgeStep d2 b acc f = edgeStep d b acc f := by
  rcases f with ⟨kind, off, nm⟩
  cases kind <;> rw [edgeStep, edgeStep]
  case ptr => rw [edgePtrAt_congr d d2 h]
  case str => rw [edgePtrAt_congr d d2 h]
  case slice => rw [edgePtrAt_congr d d2 h]
  case eface =>
    simp only [readPtr_congr d d2 h, typeAt_congr d d2 h,
      edgePtrAt_congr d d2 h, h.2.1]
  case iface =>
    simp only [readPtr_congr d d2 h, h.2.2.2.2.2.2.2.2.1,
      edgePtrAt_congr d d2 h, h.2.1]

lemma edgesLoop_congr (d d2 : Dump) (h : sameCore d d2) (b : List Nat) :
    ∀ (fs : List Field) (acc : List Edge),
    edgesLoop d2 b acc fs = edgesLoop d b acc fs := by
  intro fs
  induction fs with
  | nil => intro acc; rfl
  | cons f fs ih =>
    intro acc
    rw [edgesLoop, edgesLoop, edgeStep_congr d d2 h]
    rcases edgeStep d b acc f with _ | acc2
    · rfl
    · exact ih acc2

lemma edgeOk_congr (d d2 : Dump) (h : sameCore d d2) (b : List Nat)
    (e : Edge) : edgeOk d2 b e ↔ edgeOk d b e := by
  unfold edgeOk
  simp only [readPtr_congr d d2 h, findObj_congr d d2 h,
    objSize_congr d d2 h, h.2.2.2.2.1]

/-! ### C2: edge targets are valid -/

/-- C2.  For every `ObjId x` and every edge `e` in `Edges(x)`, the
pointer value read from the source bytes at `e`'s source offset
satisfies `find_obj(value) = e.To`, a valid non-Nil `ObjId`, and
`0 ≤ e.ToOffset < size(e.To)` (see `edgeOk`). -/
theorem c2_edges_resolve_to_target (d : Dump) (x : Nat) (d2 : Dump)
    (es : List Edge) (h : d.edgesOf x = some (d2, es)) :
    ∀ e ∈ es, ∃ xo, d.objects[x]? = some xo ∧ edgeOk d xo.body e := by
  intro e he
  rw [Dump.edgesOf] at h
  rcases hc : d.contents x with _ | pr <;> simp only [hc] at h
  · exact Option.noConfusion h
  obtain ⟨d1, b⟩ := pr
  rw [Dump.contents] at hc
  rcases hobj : d.objects[x]? with _ | xo <;> simp only [hobj] at hc
  · exact Option.noConfusion hc
  rcases hszo : d.objSize xo with _ | sz <;> simp only [hszo] at hc
  · exact Option.noConfusion hc
  by_cases hlen : xo.body.length = sz
  · rw [if_pos hlen] at hc
    cases hc
    simp only [hobj] at h
    rcases hft : d.ftList[xo.ft]? with _ | ft <;> simp only [hft] at h
    · exact Option.noConfusion h
    rcases hl : edgesLoop { d with buf := xo.body } xo.body [] ft.fields
        with _ | es2 <;> simp only [hl] at h
    · exact Option.noConfusion h
    cases h
    have hok := edgesLoop_ok { d with buf := xo.body } xo.body ft.fields []
      es hl e he
    rcases hok with h1 | h1
    · exact absurd h1 (List.not_mem_nil e)
    · have hsc : sameCore d { d with buf := xo.body } :=
        ⟨rfl, rfl, rfl, rfl, rfl, rfl, rfl, rfl, rfl, rfl⟩
      exact ⟨xo, rfl, (edgeOk_congr d _ hsc xo.body e).mp h1⟩
  · rw [if_neg hlen] at hc
    exact Option.noConfusion hc

/-- The dump stream for the C2 witness: two 16-byte objects, the first
holding a pointer to the second. -/
def c2recs : List Rec :=
  [ .paramsR 0 8 96 65536 69632 0 "" 1,
    .typeR 256 16 "T" false [⟨.ptr, 0, ""⟩],
    .dataR 0 [] [],
    .bssR 0 [] [],
    .objR 65536 256 .object 16 ([16, 0, 1, 0, 0, 0, 0, 0] ++ List.replicate 8 0),
    .objR 65552 0 .object 16 (List.replicate 16 0),
    .eofR ]

def c2dump : Dump := (ReadDump c2recs).getD {}

def c2dump2 : Dump := ((c2dump.edgesOf 0).map Prod.fst).getD {}

def c2edge : Edge := ⟨.id 1, 0, 0, "field0"⟩

/-- Witness for C2 at a concrete dump. -/
theorem c2_edges_resolve_to_target_witness :
    ∃ xo, c2dump.objects[0]? = some xo ∧ edgeOk c2dump xo.body c2edge :=
  c2_edges_resolve_to_target c2dump 0 c2dump2 [c2edge] (by rfl) c2edge
    (List.mem_singleton.mpr rfl)

/-! ### C9: edge enumeration is deterministic -/

/-- C9.  A second call to `Edges(x)` on the dump state returned by the
first call yields the same edge list (same `To`, `FromOffset`,
`ToOffset`, `FieldName`, same order). -/
theorem c9_edges_deterministic (d : Dump) (x : Nat) (d1 : Dump)
    (es1 : List Edge) (h : d.edgesOf x = some (d1, es1)) :
    ∃ d2, d1.edgesOf x = some (d2, es1) := by
  rw [Dump.edgesOf] at h
  rcases hc : d.contents x with _ | pr <;> simp only [hc] at h
  · exact Option.noConfusion h
  obtain ⟨da, b⟩ := pr
  rw [Dump.contents] at hc
  rcases hobj : d.objects[x]? with _ | xo <;> simp only [hobj] at hc
  · exact Option.noConfusion hc
  rcases hszo : d.objSize xo with _ | sz <;> simp only [hszo] at hc
  · exact Option.noConfusion hc
  by_cases hlen : xo.body.length = sz
  · rw [if_pos hlen] at hc
    cases hc
    simp only [hobj] at h
    rcases hft : d.ftList[xo.ft]? with _ | ft <;> simp only [hft] at h
    · exact Option.noConfusion h
    rcases hl : edgesLoop { d with buf := xo.body } xo.body [] ft.fields
        with _ | es2 <;> simp only [hl] at h
    · exact Option.noConfusion h
    cases h
    refine ⟨{ d with buf := xo.body, edges := es1 }, ?_⟩
    rw [Dump.edgesOf, Dump.contents]
    have hobj2 : ({ d with buf := xo.body, edges := es1 } : Dump).objects[x]?
        = some xo := hobj
    have hszo2 : ({ d with buf := xo.body, edges := es1 } : Dump).objSize xo
        = some sz := hszo
    simp only [hobj2, hszo2, if_pos hlen]
    have hft2 : ({ d with buf := xo.body, edges := es1 } : Dump).ftList[xo.ft]?
        = some ft := hft
    simp only [hft2]
    have hsc : sameCore { d with buf := xo.body }
        { d with buf := xo.body, edges := es1 } :=
      ⟨rfl, rfl, rfl, rfl, rfl, rfl, rfl, rfl, rfl, rfl⟩
    rw [edgesLoop_congr _ _ hsc, hl]
  · rw [if_neg hlen] at hc
    exact Option.noConfusion hc

def c9recs : List Rec :=
  [ .paramsR 0 8 96 65536 69632 0 "" 1,
    .typeR 256 16 "T" false [⟨.ptr, 0, ""⟩],
    .dataR 0 [] [],
    .bssR 0 [] [],
    .objR 65536 256 .object 16 ([16, 0, 1, 0, 0, 0, 0, 0] ++ List.replicate 8 0),
    .objR 65552 0 .object 16 (List.replicate 16 0),
    .eofR ]

def c9dump : Dump := (ReadDump c9recs).getD {}

def c9dump2 : Dump := ((c9dump.edgesOf 0).map Prod.fst).getD {}

/-- Witness for C9 at a concrete dump. -/
theorem c9_edges_deterministic_witness :
    ∃ d2, c9dump2.edgesOf 0 = some (d2, [⟨.id 1, 0, 0, "field0"⟩]) :=
  c9_edges_deterministic c9dump 0 c9dump2 [⟨.id 1, 0, 0, "field0"⟩] (by rfl)

/-! ### C1: interior pointers across bucket boundaries -/

/-- The dump stream exhibiting the C1 failure: one 512-byte object at
the start of the heap. -/
def c1recs : List Rec :=
  [ .paramsR 0 8 96 0 1024 0 "" 1,
    .dataR 0 [] [],
    .bssR 0 [] [],
    .objR 0 0 .object 512 (List.replicate 512 0),
    .eofR ]

def c1dump : Dump := (ReadDump c1recs).getD {}

/-- C1 (code bug).  The loaded dump holds a single decoded object with
`addr = 0` and `size = 512` inside the heap `[0, 1024)`, so address
`300` satisfies `o.addr ≤ 300 < o.addr + size(o)`; yet `findObj 300`
returns `ObjNil`, because `300` lies in a later 256-byte bucket than
`o.addr` and the bucket array only points at objects that *start* in a
bucket.  (`findObj 8`, in the same bucket, resolves fine.)  This
contradicts the claim and `findObj`'s own documentation. -/
theorem c1_findObj_interior_bucket_code_bug :
    (ReadDump c1recs).isSome = true ∧
    c1dump.objects.map (fun o => o.addr) = [0] ∧
    c1dump.ftList.map (fun ft => ft.size) = [512] ∧
    c1dump.heapStart = 0 ∧ c1dump.heapEnd = 1024 ∧
    c1dump.findObj 300 = some .nil ∧
    c1dump.findObj 8 = some (.id 0) := by
  refine ⟨by rfl, by rfl, by rfl, by rfl, by rfl, by rfl, by rfl⟩

/-! ### C7: iface/eface edge conditions -/

/-- What an `Eface` field actually contributes to `Edges(x)`: an edge
from the data slot at `offset + ptrSize` is emitted exactly when the
type pointer is non-zero, the type's eface-data-is-pointer flag is set,
*and* the data-slot pointer resolves to an object. -/
def edgeStepEfaceSpec (d : Dump) (b : List Nat) (acc res : List Edge)
    (f : Field) : Prop :=
  ∃ taddr, readPtr d (b.drop f.offset) = some taddr ∧
    (taddr = 0 → res = acc) ∧
    (taddr ≠ 0 → ∃ t, d.typeAt taddr = some t ∧
      (t.efaceptr = false → res = acc) ∧
      (t.efaceptr = true →
        ∃ p, readPtr d (b.drop (f.offset + d.ptrSize)) = some p ∧
          (d.findObj p = some .nil → res = acc) ∧
          (∀ y, d.findObj p = some (.id y) →
            ∃ o, d.objects[y]? = some o ∧
              res = acc ++ [⟨.id y, f.offset + d.ptrSize, p - o.addr, f.name⟩])))

/-- What an `Iface` field actually contributes to `Edges(x)`:
analogous, gated on the itab's `ptr` bit and on the data-slot pointer
resolving to an object. -/
def edgeStepIfaceSpec (d : Dump) (b : List Nat) (acc res : List Edge)
    (f : Field) : Prop :=
  ∃ ia, readPtr d (b.drop f.offset) = some ia ∧
    (ia = 0 → res = acc) ∧
    (ia ≠ 0 → ∃ pb, lookupA ia d.itabMap = some pb ∧
      (pb = false → res = acc) ∧
      (pb = true →
        ∃ p, readPtr d (b.drop (f.offset + d.ptrSize)) = some p ∧
          (d.findObj p = some .nil → res = acc) ∧
          (∀ y, d.findObj p = some (.id y) →
            ∃ o, d.objects[y]? = some o ∧
              res = acc ++ [⟨.id y, f.offset + d.ptrSize, p - o.addr, f.name⟩])))

lemma edgePtrAt_spec (d : Dump) (b : List Nat) (acc : List Edge)
    (off : Nat) (f : Field) (res : List Edge)
    (h : edgePtrAt d b acc off f = some res) :
    ∃ p, readPtr d (b.drop off) = some p ∧
      (d.findObj p = some .nil → res = acc) ∧
      (∀ y, d.findObj p = some (.id y) →
        ∃ o, d.objects[y]? = some o ∧
          res = acc ++ [⟨.id y, off, p - o.addr, f.name⟩]) := by
  rw [edgePtrAt] at h
  rcases hr : readPtr d (b.drop off) with _ | p <;> simp only [hr] at h
  · exact Option.noConfusion h
  refine ⟨p, rfl, ?_, ?_⟩
  · intro hn
    rw [hn] at h
    cases h
    rfl
  · intro y hy
    rw [hy] at h
    rcases ho : d.objects[y]? with _ | o <;> simp only [ho] at h
    · exact Option.noConfusion h
    · cases h
      exact ⟨o, rfl, rfl⟩

/-- C7 (amended).  The per-field contribution of `Edges(x)`: an `Eface`
(resp. `Iface`) field emits a data-slot edge iff the type pointer
(resp. itab pointer) is non-zero, the eface-ptr flag (resp. itab `ptr`
bit) is set, and additionally the data-slot pointer resolves to an
object; fields of numeric kinds contribute nothing. -/
theorem c7_iface_eface_numeric_amended (d : Dump) (b : List Nat)
    (acc res : List Edge) (f : Field) (h : edgeStep d b acc f = some res) :
    (f.kind = .eface → edgeStepEfaceSpec d b acc res f) ∧
    (f.kind = .iface → edgeStepIfaceSpec d b acc res f) ∧
    (f.kind ∉ ([.ptr, .str, .slice, .iface, .eface] : List FieldKind) →
      res = acc) := by
  rcases f with ⟨kind, off, nm⟩
  cases kind <;> simp only [edgeStep] at h
  case ptr =>
    exact ⟨fun hk => FieldKind.noConfusion hk, fun hk => FieldKind.noConfusion hk,
      fun hm => absurd (List.Mem.head _) hm⟩
  case str =>
    exact ⟨fun hk => FieldKind.noConfusion hk, fun hk => FieldKind.noConfusion hk,
      fun hm => absurd (List.Mem.tail _ (List.Mem.head _)) hm⟩
  case slice =>
    exact ⟨fun hk => FieldKind.noConfusion hk, fun hk => FieldKind.noConfusion hk,
      fun hm => absurd (List.Mem.tail _ (List.Mem.tail _ (List.Mem.head _))) hm⟩
  case eface =>
    refine ⟨fun _ => ?_, fun hk => FieldKind.noConfusion hk,
      fun hm => absurd
        (List.Mem.tail _ (List.Mem.tail _ (List.Mem.tail _ (List.Mem.tail _ (List.Mem.head _))))) hm⟩
    rcases hr : readPtr d (b.drop off) with _ | taddr <;> simp only [hr] at h
    · exact Option.noConfusion h
    by_cases ht0 : taddr = 0
    · rw [if_pos ht0] at h
      cases h
      exact ⟨taddr, hr, fun _ => rfl, fun hne => absurd ht0 hne⟩
    · rw [if_neg ht0] at h
      rcases hta : d.typeAt taddr with _ | t <;> simp only [hta] at h
      · exact Option.noConfusion h
      by_cases hef : t.efaceptr = true
      · rw [if_pos hef] at h
        rcases edgePtrAt_spec d b acc (off + d.ptrSize) ⟨.eface, off, nm⟩
          res h with ⟨p, hp, hnil, hid⟩
        refine ⟨taddr, hr, fun h0 => absurd h0 ht0, fun _ => ⟨t, hta, ?_, ?_⟩⟩
        · intro hfalse
          rw [hfalse] at hef
          exact absurd hef (by decide)
        · exact fun _ => ⟨p, hp, hnil, hid⟩
      · rw [if_neg hef] at h
        cases h
        refine ⟨taddr, hr, fun _ => rfl, fun _ => ⟨t, hta, fun _ => rfl, ?_⟩⟩
        intro htrue
        exact absurd htrue hef
  case iface =>
    refine ⟨fun hk => FieldKind.noConfusion hk, fun _ => ?_,
      fun hm => absurd
        (List.Mem.tail _ (List.Mem.tail _ (List.Mem.tail _ (List.Mem.head _)))) hm⟩
    rcases hr : readPtr d (b.drop off) with _ | ia <;> simp only [hr] at h
    · exact Option.noConfusion h
    by_cases ht0 : ia = 0
    · rw [if_pos ht0] at h
      cases h
      exact ⟨ia, hr, fun _ => rfl, fun hne => absurd ht0 hne⟩
    · rw [if_neg ht0] at h
      rcases hta : lookupA ia d.itabMap with _ | pb <;> simp only [hta] at h
      · exact Option.noConfusion h
      by_cases hpb : pb = true
      · rw [if_pos hpb] at h
        rcases edgePtrAt_spec d b acc (off + d.ptrSize) ⟨.iface, off, nm⟩
          res h with ⟨p, hp, hnil, hid⟩
        refine ⟨ia, hr, fun h0 => absurd h0 ht0, fun _ => ⟨pb, hta, ?_, ?_⟩⟩
        · intro hfalse
          rw [hfalse] at hpb
          exact absurd hpb (by decide)
        · exact fun _ => ⟨p, hp, hnil, hid⟩
      · rw [if_neg hpb] at h
        cases h
        refine ⟨ia, hr, fun _ => rfl, fun _ => ⟨pb, hta, fun _ => rfl, ?_⟩⟩
        intro htrue
        exact absurd htrue hpb
  all_goals
    cases h
    exact ⟨fun hk => FieldKind.noConfusion hk, fun hk => FieldKind.noConfusion hk,
      fun _ => rfl⟩

/-- The C7 counterexample dump: one object whose single `Eface` field
has a non-zero type pointer with `efaceptr = true`, but whose data slot
holds `0` (not a heap pointer). -/
def c7recs : List Rec :=
  [ .paramsR 0 8 96 65536 69632 0 "" 1,
    .typeR 256 16 "E" true [⟨.eface, 0, ""⟩],
    .dataR 0 [] [],
    .bssR 0 [] [],
    .objR 65536 256 .object 16 ([0, 1, 0, 0, 0, 0, 0, 0] ++ List.replicate 8 0),
    .eofR ]

def c7dump : Dump := (ReadDump c7recs).getD {}

def c7body : List Nat := ((c7dump.objects[0]?).map (fun o => o.body)).getD []

def c7dump2 : Dump := ((c7dump.edgesOf 0).map Prod.fst).getD {}

def c7t : TypeRec := (c7dump.typeAt 256).getD ⟨"", 0, false, [], 0⟩

/-- C7 counterexample.  In this loaded dump, object 0's layout is a
single `Eface` field at offset 0, the type pointer read at offset 0 is
`256 ≠ 0`, and that type's eface-data-is-pointer flag is set — so the
claim's iff demands a data-slot edge — yet `Edges(0)` is empty, because
the data slot holds `0`, which does not resolve to any object. -/
theorem c7_counterexample :
    c7dump.ftList.map (fun ft => ft.fields) = [[⟨.eface, 0, "field0"⟩]] ∧
    readPtr c7dump (c7body.drop 0) = some 256 ∧
    (256 : Nat) ≠ 0 ∧
    c7dump.typeAt 256 = some c7t ∧ c7t.efaceptr = true ∧
    c7dump.edgesOf 0 = some (c7dump2, []) := by
  refine ⟨by rfl, by rfl, by decide, by rfl, by rfl, by rfl⟩

/-- Witness for the amended C7 at a concrete eface field. -/
theorem c7_iface_eface_numeric_amended_witness :
    edgeStepEfaceSpec c7dump c7body [] [] ⟨.eface, 0, "field0"⟩ :=
  (c7_iface_eface_numeric_amended c7dump c7body [] []
    ⟨.eface, 0, "field0"⟩ (by rfl)).1 rfl

/-! ### C8: ordering preconditions of the decoder -/

lemma lookupA_some_mem {κ α : Type} [DecidableEq κ] (k : κ) (v : α) :
    ∀ m : List (κ × α), lookupA k m = some v → (k, v) ∈ m := by
  intro m
  induction m with
  | nil => intro h; exact Option.noConfusion h
  | cons kv rest ih =>
    intro h
    obtain ⟨k2, v2⟩ := kv
    rw [lookupA] at h
    by_cases he : k2 = k
    · rw [if_pos he] at h
      cases h
      subst he
      exact List.mem_cons_self _ _
    · rw [if_neg he] at h
      exact List.mem_cons_of_mem _ (ih h)

lemma makeFullType_shape (d : Dump) (ta : Nat) (kind : TypeKind) (sz : Nat)
    (d2 : Dump) (fi : Nat) (h : d.makeFullType ta kind sz = some (d2, fi)) :
    fi = d.ftList.length ∧ ∃ nm, d2 = { d with ftList := d.ftList ++
      [⟨d.ftList.length, lookupA ta d.typeMap, kind, sz, nm, []⟩] } := by
  unfold Dump.makeFullType at h
  by_cases hc : ta ≠ 0 ∧ d.typeAt ta = none
  · rw [if_pos hc] at h
    exact Option.noConfusion h
  · rw [if_neg hc] at h
    rcases hn : makeFullTypeName d ta kind sz with _ | nm <;>
      simp only [hn] at h
    · exact Option.noConfusion h
    · cases h
      exact ⟨rfl, nm, rfl⟩

lemma makeFullType_chan_none (d : Dump) (ta sz : Nat)
    (h0 : d.hchanSize = 0) : d.makeFullType ta .chan sz = none := by
  unfold Dump.makeFullType
  by_cases hc : ta ≠ 0 ∧ d.typeAt ta = none
  · rw [if_pos hc]
  · rw [if_neg hc]
    unfold makeFullTypeName
    simp [h0]

/-- Records that end or parameterize the decoder loop. -/
def isParamsOrEof : Rec → Bool
  | .paramsR .. => true
  | .eofR => true
  | _ => false

/-- A raw-decoder state in which no params record has been seen:
`hchansize` is still zero and (necessarily) no channel full type was
ever created. -/
def noParamsState (s : RawState) : Prop :=
  s.d.hchanSize = 0 ∧ ∀ kv ∈ s.ftmap, kv.1.2.1 ≠ TypeKind.chan

lemma rawStep_noParams (s : RawState) (r : Rec) (s2 : RawState)
    (h : rawStep s r = some s2) (hr : isParamsOrEof r = false)
    (hs : noParamsState s) : noParamsState s2 := by
  rcases s with ⟨d, ftmap⟩
  cases r <;> simp only [isParamsOrEof] at hr <;>
    simp only [rawStep] at h
  case objR addr typaddr kind size body =>
    rcases hl : lookupA (typaddr, kind, size) ftmap with _ | fi <;>
      simp only [hl] at h
    · rcases hmk : Dump.makeFullType d typaddr kind size with _ | pr <;>
        simp only [hmk] at h
      · exact Option.noConfusion h
      · obtain ⟨d2, fi⟩ := pr
        cases h
        obtain ⟨hfi, nm, hd2⟩ :=
          makeFullType_shape d typaddr kind size d2 fi hmk
        subst hd2
        refine ⟨hs.1, ?_⟩
        intro kv hkv
        rcases List.mem_cons.mp hkv with h1 | h1
        · subst h1
          intro hk
          rcases hs with ⟨h0, _⟩
          have hk2 : kind = TypeKind.chan := hk
          rw [hk2] at hmk
          rw [makeFullType_chan_none d typaddr size h0] at hmk
          exact Option.noConfusion hmk
        · exact hs.2 kv h1
    · cases h
      exact hs
  case typeR addr size name efaceptr fields =>
    rcases hl : lookupA addr d.typeMap with _ | ti <;> simp only [hl] at h <;>
      cases h <;> exact ⟨hs.1, hs.2⟩
  all_goals
    first
    | exact Bool.noConfusion hr
    | (cases h; exact ⟨hs.1, hs.2⟩)

lemma runRaw_cons (s : RawState) (r : Rec) (rest : List Rec)
    (hne : r ≠ .eofR) :
    runRaw s (r :: rest) =
      match rawStep s r with
      | none => none
      | some s2 => runRaw s2 rest := by
  cases r
  all_goals first | (exact absurd rfl hne) | rfl

lemma runRaw_chan_noparams (pre : List Rec) :
    ∀ (s : RawState), noParamsState s →
    (∀ r ∈ pre, isParamsOrEof r = false) →
    ∀ (rest : List Rec) (a ta sz : Nat) (body : List Nat),
    runRaw s (pre ++ .objR a ta .chan sz body :: rest) = none := by
  induction pre with
  | nil =>
    intro s hs _ rest a ta sz body
    have hstep : rawStep s (.objR a ta .chan sz body) = none := by
      rw [rawStep]
      rcases hl : lookupA (ta, TypeKind.chan, sz) s.ftmap with _ | fi
      · simp only [hl]
        rw [makeFullType_chan_none s.d ta sz hs.1]
      · exact absurd rfl (hs.2 _ (lookupA_some_mem _ _ _ hl))
    rw [List.nil_append,
      runRaw_cons s _ rest (by intro he; exact Rec.noConfusion he), hstep]
  | cons r pre ih =>
    intro s hs hpre rest a ta sz body
    have hr := hpre r (List.mem_cons_self r pre)
    have hne : r ≠ .eofR := by
      intro he
      subst he
      exact Bool.noConfusion hr
    rw [List.cons_append, runRaw_cons s r _ hne]
    rcases hstep : rawStep s r with _ | s2 <;> simp only [hstep]
    exact ih s2 (rawStep_noParams s r s2 hstep hr hs)
      (fun r2 h2 => hpre r2 (List.mem_cons_of_mem _ h2)) rest a ta sz body

/-- C8 (amended).  (1) A channel object record reached before any
params record (so `hchansize` is unknown) aborts the decoder fatally.
(2) Pointer-size/endianness dependence is enforced only at
pointer-read time: `readPtr` is fatal for any combination other than
the four supported ones — in particular in the pre-params zero state —
but record decoding itself performs no pointer reads and does not
require params to have been seen. -/
theorem c8_ordering_amended :
    (∀ (pre rest : List Rec) (a ta sz : Nat) (body : List Nat),
        (∀ r ∈ pre, isParamsOrEof r = false) →
        runRaw ⟨{}, []⟩ (pre ++ .objR a ta .chan sz body :: rest) = none) ∧
    (∀ (d : Dump) (b : List Nat),
        d.order = none ∨ (d.ptrSize ≠ 4 ∧ d.ptrSize ≠ 8) →
        readPtr d b = none) := by
  constructor
  · intro pre rest a ta sz body hpre
    exact runRaw_chan_noparams pre ⟨{}, []⟩
      ⟨rfl, fun kv hkv => absurd hkv (List.not_mem_nil kv)⟩ hpre rest a ta sz body
  · intro d b h
    unfold readPtr
    split <;> simp_all

/-- The C8 counterexample stream: a type record and a pointer-bearing
object record appear *before* the params record. -/
def c8recs : List Rec :=
  [ .typeR 256 16 "T" false [⟨.ptr, 0, ""⟩],
    .objR 65536 256 .object 16 ([16, 0, 1, 0, 0, 0, 0, 0] ++ List.replicate 8 0),
    .paramsR 0 8 96 65536 69632 0 "" 1,
    .dataR 0 [] [],
    .bssR 0 [] [],
    .eofR ]

def c8dump : Dump := (ReadDump c8recs).getD {}

/-- C8 counterexample.  A heap-object record whose type carries a
pointer field is processed before the params record, and the decoder —
indeed the whole load — completes without any fatal error, contradicting
the claim that such records fail fatally when processed before
params. -/
theorem c8_counterexample :
    (runRaw ⟨{}, []⟩ c8recs).isSome = true ∧
    (ReadDump c8recs).isSome = true ∧
    c8dump.ftList.map (fun ft => ft.fields) = [[⟨.ptr, 0, "field0"⟩]] := by
  refine ⟨by rfl, by rfl, by rfl⟩

/-- Witness for the amended C8. -/
theorem c8_ordering_amended_witness :
    runRaw ⟨{}, []⟩
      ([.typeR 256 16 "T" false []] ++ .objR 0 256 .chan 96 [] :: []) =
      none ∧
    readPtr {} [0, 0, 0, 0, 0, 0, 0, 0] = none :=
  ⟨c8_ordering_amended.1 [.typeR 256 16 "T" false []] [] 0 256 96 []
      (by intro r hr; rcases List.mem_singleton.mp hr with rfl; rfl),
    c8_ordering_amended.2 {} [0, 0, 0, 0, 0, 0, 0, 0] (Or.inl rfl)⟩

/-! ### C3: full-type deduplication -/

/-- The `(type-addr, kind, size)` triples of the object records the
decoder loop processes (it stops at the first `EOF` tag). -/
def objTriples : List Rec → List (Nat × TypeKind × Nat)
  | [] => []
  | .eofR :: _ => []
  | .objR _ typaddr kind size _ :: rest => (typaddr, kind, size) :: objTriples rest
  | _ :: rest => objTriples rest

/-- The dedup invariant of the `rawRead` loop: `ts` lists the triples
of the objects decoded so far, in order; every object's `Ft` pointer is
the dedup-map entry of its record's triple; map values are valid
`FTList` indices, distinct map keys have distinct values, and `FTList`
ids are consecutive. -/
def rawInv (s : RawState) (ts : List (Nat × TypeKind × Nat)) : Prop :=
  s.d.objects.length = ts.length ∧
  (∀ (i : Nat) (o : Object) (t : Nat × TypeKind × Nat),
    s.d.objects[i]? = some o → ts[i]? = some t →
    lookupA t s.ftmap = some o.ft) ∧
  (∀ kv ∈ s.ftmap, kv.2 < s.d.ftList.length) ∧
  (∀ k1 k2 f1, lookupA k1 s.ftmap = some f1 →
    lookupA k2 s.ftmap = some f1 → k1 = k2) ∧
  (∀ (k : Nat) (ft : FullType), s.d.ftList[k]? = some ft → ft.id = k)

/-- The triple contributed by one record to the decoded-object list. -/
def recTriple : Rec → List (Nat × TypeKind × Nat)
  | .objR _ ta k sz _ => [(ta, k, sz)]
  | _ => []

lemma rawStep_inv (s : RawState) (ts : List (Nat × TypeKind × Nat))
    (r : Rec) (s2 : RawState) (h : rawStep s r = some s2)
    (hinv : rawInv s ts) :
    rawInv s2 (ts ++ recTriple r) := by
  rcases s with ⟨d, ftmap⟩
  obtain ⟨i1, i2, i3, i4, i5⟩ := hinv
  dsimp only at i1 i2 i3 i4 i5
  have hlen : d.objects.length = ts.length := i1
  cases r <;> simp only [rawStep] at h <;> simp only [recTriple]
  case objR addr typaddr kind size body =>
    rcases hl : lookupA (typaddr, kind, size) ftmap with _ | fi <;>
      simp only [hl] at h
    · -- dedup miss: makeFullType creates a fresh entry
      rcases hmk : Dump.makeFullType d typaddr kind size with _ | pr <;>
        simp only [hmk] at h
      · exact Option.noConfusion h
      obtain ⟨d2, fi⟩ := pr
      cases h
      obtain ⟨hfi, nm, hd2⟩ := makeFullType_shape d typaddr kind size d2 fi hmk
      subst hfi
      subst hd2
      dsimp only [rawInv]
      refine ⟨?_, ?_, ?_, ?_, ?_⟩
      · simp [i1]
      · intro i o t ho ht
        by_cases hi : i < ts.length
        · rw [List.getElem?_append_left (by simpa [hlen] using hi)] at ho
          rw [List.getElem?_append_left hi] at ht
          have := i2 i o t ho ht
          rw [lookupA]
          by_cases hkt : (typaddr, kind, size) = t
          · exfalso
            rw [hkt] at hl
            rw [hl] at this
            exact Option.noConfusion this
          · rw [if_neg hkt]
            exact this
        · have hi2 : i = ts.length := by
            rcases Nat.lt_or_ge i (ts.length + 1) with h1 | h1
            · omega
            · exfalso
              rw [List.getElem?_eq_none (by
                simp only [List.length_append, List.length_cons,
                  List.length_nil, hlen]
                omega)] at ho
              exact Option.noConfusion ho
          subst hi2
          rw [List.getElem?_append_right (by omega)] at ht
          simp at ht
          rw [List.getElem?_append_right (by omega)] at ho
          rw [hlen, Nat.sub_self] at ho
          simp at ho
          subst ht
          subst ho
          rw [lookupA, if_pos rfl]
      · intro kv hkv
        rcases List.mem_cons.mp hkv with h1 | h1
        · subst h1
          simp
        · have := i3 kv h1
          simp only [List.length_append, List.length_cons, List.length_nil]
          omega
      · intro k1 k2 f1 ha hb
        rw [lookupA] at ha hb
        by_cases h1 : (typaddr, kind, size) = k1 <;>
          by_cases h2 : (typaddr, kind, size) = k2
        · rw [← h1, ← h2]
        · rw [if_pos h1] at ha
          rw [if_neg h2] at hb
          cases ha
          have := i3 _ (lookupA_some_mem _ _ _ hb)
          simp at this
        · rw [if_neg h1] at ha
          rw [if_pos h2] at hb
          cases hb
          have := i3 _ (lookupA_some_mem _ _ _ ha)
          simp at this
        · rw [if_neg h1] at ha
          rw [if_neg h2] at hb
          exact i4 k1 k2 f1 ha hb
      · intro k ft hft
        by_cases hk : k < d.ftList.length
        · rw [List.getElem?_append_left hk] at hft
          exact i5 k ft hft
        · by_cases hk2 : k = d.ftList.length
          · subst hk2
            rw [List.getElem?_append_right (Nat.le_refl _)] at hft
            simp at hft
            subst hft
            rfl
          · rw [List.getElem?_append_right (by omega)] at hft
            have := (List.getElem?_eq_some_iff.mp hft).1
            simp at this
            omega
    · -- dedup hit: reuse the existing full type
      cases h
      dsimp only [rawInv]
      refine ⟨by simp [i1], ?_, i3, i4, i5⟩
      intro i o t ho ht
      by_cases hi : i < ts.length
      · rw [List.getElem?_append_left (by simpa [hlen] using hi)] at ho
        rw [List.getElem?_append_left hi] at ht
        exact i2 i o t ho ht
      · have hi2 : i = ts.length := by
          rcases Nat.lt_or_ge i (ts.length + 1) with h1 | h1
          · omega
          · exfalso
            rw [List.getElem?_eq_none (by
              simp only [List.length_append, List.length_cons,
                List.length_nil, hlen]
              omega)] at ho
            exact Option.noConfusion ho
        subst hi2
        rw [List.getElem?_append_right (by omega)] at ht
        simp at ht
        rw [List.getElem?_append_right (by omega)] at ho
        rw [hlen, Nat.sub_self] at ho
        simp at ho
        subst ht
        subst ho
        exact hl
  case typeR addr size name efaceptr fields =>
    rcases hlt : lookupA addr d.typeMap with _ | ti <;> simp only [hlt] at h <;>
      cases h <;> exact ⟨by simpa using i1, by simpa using i2, i3, i4, i5⟩
  all_goals
    cases h
    exact ⟨by simpa using i1, by simpa using i2, i3, i4, i5⟩

lemma runRaw_inv (recs : List Rec) :
    ∀ (s : RawState) (ts : List (Nat × TypeKind × Nat)) (d : Dump),
    rawInv s ts → runRaw s recs = some d →
    ∃ sf : RawState, sf.d = d ∧ rawInv sf (ts ++ objTriples recs) := by
  induction recs with
  | nil =>
    intro s ts d _ h
    exact Option.noConfusion h
  | cons r rest ih =>
    intro s ts d hinv h
    by_cases hre : r = .eofR
    · subst hre
      simp only [runRaw] at h
      cases h
      exact ⟨s, rfl, by simpa [objTriples] using hinv⟩
    · rw [runRaw_cons s r rest hre] at h
      rcases hstep : rawStep s r with _ | s2 <;> simp only [hstep] at h
      · exact Option.noConfusion h
      have hinv2 := rawStep_inv s ts r s2 hstep hinv
      obtain ⟨sf, hsf, hfin⟩ := ih s2 _ d hinv2 h
      refine ⟨sf, hsf, ?_⟩
      have hobj : objTriples (r :: rest) = recTriple r ++ objTriples rest := by
        cases r <;> first | (exact absurd rfl hre) | rfl
      rw [hobj, ← List.append_assoc]
      exact hfin

/-- C3.  Two decoded objects share their `FullType` (the same `Ft`
pointer, hence the same id) iff their object records carried equal
`(type-addr, kind, size)` triples; and `FullType` ids are assigned as
consecutive integers `0, 1, 2, ...` in creation order. -/
theorem c3_fulltype_dedup (recs : List Rec) (d : Dump)
    (h : runRaw ⟨{}, []⟩ recs = some d) :
    d.objects.length = (objTriples recs).length ∧
    (∀ (i j : Nat) (oi oj : Object) (ti tj : Nat × TypeKind × Nat),
      d.objects[i]? = some oi → d.objects[j]? = some oj →
      (objTriples recs)[i]? = some ti → (objTriples recs)[j]? = some tj →
      (oi.ft = oj.ft ↔ ti = tj)) ∧
    (∀ (k : Nat) (ft : FullType), d.ftList[k]? = some ft → ft.id = k) := by
  have hinit : rawInv ⟨{}, []⟩ [] := by
    refine ⟨rfl, ?_, ?_, ?_, ?_⟩
    · intro i o t ho _
      exact Option.noConfusion ho
    · intro kv hkv
      exact absurd hkv (List.not_mem_nil kv)
    · intro k1 k2 f1 ha _
      exact Option.noConfusion ha
    · intro k ft hft
      exact Option.noConfusion hft
  obtain ⟨sf, hsf, hfin⟩ := runRaw_inv recs ⟨{}, []⟩ [] d hinit h
  rw [List.nil_append] at hfin
  obtain ⟨i1, i2, i3, i4, i5⟩ := hfin
  subst hsf
  refine ⟨i1, ?_, i5⟩
  intro i j oi oj ti tj hoi hoj hti htj
  constructor
  · intro hft
    have ha := i2 i oi ti hoi hti
    have hb := i2 j oj tj hoj htj
    rw [hft] at ha
    exact i4 ti tj oj.ft ha hb
  · intro htt
    have ha := i2 i oi ti hoi hti
    have hb := i2 j oj tj hoj htj
    rw [htt] at ha
    rw [ha] at hb
    exact Option.some.inj hb

/-- A concrete stream for the C3 witness: three objects, the first and
third sharing a `(type-addr, kind, size)` triple. -/
def c3recs : List Rec :=
  [ .paramsR 0 8 96 0 1024 0 "" 1,
    .objR 0 0 .object 16 (List.replicate 16 0),
    .objR 16 0 .object 32 (List.replicate 32 0),
    .objR 48 0 .object 16 (List.replicate 16 0),
    .eofR ]

def c3dump : Dump := (runRaw ⟨{}, []⟩ c3recs).getD {}

/-- Witness for C3. -/
theorem c3_fulltype_dedup_witness :
    c3dump.objects.length = (objTriples c3recs).length ∧
    (∀ (i j : Nat) (oi oj : Object) (ti tj : Nat × TypeKind × Nat),
      c3dump.objects[i]? = some oi → c3dump.objects[j]? = some oj →
      (objTriples c3recs)[i]? = some ti → (objTriples c3recs)[j]? = some tj →
      (oi.ft = oj.ft ↔ ti = tj)) ∧
    (∀ (k : Nat) (ft : FullType), c3dump.ftList[k]? = some ft → ft.id = k) :=
  c3_fulltype_dedup c3recs c3dump (by rfl)

/-! ### C6: full-type layout well-formedness -/

/-- The byte width of a field of a given kind, as the consumers of the
`read` package step through object bytes (hview's field renderer). -/
def fieldWidth (ptrSize : Nat) : FieldKind → Nat
  | .eol => 0
  | .bool | .uint8 | .sint8 => 1
  | .uint16 | .sint16 => 2
  | .uint32 | .sint32 | .float32 => 4
  | .uint64 | .sint64 | .float64 | .complex64 => 8
  | .complex128 => 16
  | .bytes8 => 8
  | .bytes16 => 16
  | .ptr => ptrSize
  | .iface | .eface | .str => 2 * ptrSize
  | .slice => 3 * ptrSize

/-- The claimed layout invariant: field offsets are strictly
increasing (they are `Nat`s, so `0 ≤ offset` is automatic) and the last
field's offset plus its width lies within the declared size. -/
def ftWF (ptrSize : Nat) (fields : List Field) (size : Nat) : Prop :=
  List.Chain' (fun f g => f.offset < g.offset) fields ∧
  ∀ g, fields.getLast? = some g →
    g.offset + fieldWidth ptrSize g.kind ≤ size

lemma mapMOpt_mem {α β : Type} (f : α → Option β) :
    ∀ (l : List α) (l2 : List β), mapMOpt f l = some l2 →
    ∀ b ∈ l2, ∃ a ∈ l, f a = some b := by
  intro l
  induction l with
  | nil =>
    intro l2 h b hb
    rw [mapMOpt] at h
    cases h
    exact absurd hb (List.not_mem_nil b)
  | cons a as ih =>
    intro l2 h b hb
    rw [mapMOpt] at h
    rcases ha : f a with _ | b0 <;> simp only [ha] at h
    · exact Option.noConfusion h
    rcases has : mapMOpt f as with _ | bs <;> simp only [has] at h
    · exact Option.noConfusion h
    cases h
    rcases List.mem_cons.mp hb with h1 | h1
    · subst h1
      exact ⟨a, List.mem_cons_self a as, ha⟩
    · obtain ⟨a2, ha2, hfa2⟩ := ih bs has b h1
      exact ⟨a2, List.mem_cons_of_mem a ha2, hfa2⟩

lemma noptrFields_wf (p size : Nat) :
    ∀ (fuel i : Nat) (fs : List Field), noptrFields size i fuel = some fs →
    List.Chain' (fun f g => f.offset < g.offset) fs ∧
    ∀ g ∈ fs, i ≤ g.offset ∧ g.offset + fieldWidth p g.kind ≤ size := by
  intro fuel
  induction fuel with
  | zero =>
    intro i fs h
    exact Option.noConfusion h
  | succ fuel ih =>
    intro i fs h
    rw [noptrFields] at h
    by_cases hi : i < size
    · rw [if_pos hi] at h
      by_cases h16 : (if size - i > 16 then 16 else size - i) = 16
      · rw [if_pos h16] at h
        rcases hr : noptrFields size (i + 16) fuel with _ | rest <;>
          simp only [hr] at h
        · exact Option.noConfusion h
        cases h
        obtain ⟨hc, hm⟩ := ih (i + 16) rest hr
        constructor
        · rw [List.chain'_cons']
          refine ⟨?_, hc⟩
          intro y hy
          have hmem := List.mem_of_mem_head? hy
          have := (hm y hmem).1
          dsimp only
          omega
        · intro g hg
          rcases List.mem_cons.mp hg with h1 | h1
          · subst h1
            refine ⟨Nat.le_refl i, ?_⟩
            dsimp only [fieldWidth]
            by_cases hbig : size - i > 16
            · omega
            · rw [if_neg hbig] at h16
              omega
          · have := hm g h1
            exact ⟨by omega, this.2⟩
      · by_cases h8 : (if size - i > 16 then 16 else size - i) = 8
        · rw [if_neg h16, if_pos h8] at h
          rcases hr : noptrFields size (i + 16) fuel with _ | rest <;>
            simp only [hr] at h
          · exact Option.noConfusion h
          cases h
          obtain ⟨hc, hm⟩ := ih (i + 16) rest hr
          constructor
          · rw [List.chain'_cons']
            refine ⟨?_, hc⟩
            intro y hy
            have hmem := List.mem_of_mem_head? hy
            have := (hm y hmem).1
            dsimp only
            omega
          · intro g hg
            rcases List.mem_cons.mp hg with h1 | h1
            · subst h1
              refine ⟨Nat.le_refl i, ?_⟩
              dsimp only [fieldWidth]
              by_cases hbig : size - i > 16
              · rw [if_pos hbig] at h8
                omega
              · rw [if_neg hbig] at h8
                omega
            · have := hm g h1
              exact ⟨by omega, this.2⟩
        · rw [if_neg h16, if_neg h8] at h
          exact Option.noConfusion h
    · rw [if_neg hi] at h
      cases h
      exact ⟨List.chain'_nil, fun g hg => absurd hg (List.not_mem_nil g)⟩

lemma conservFields_wf (p size : Nat) :
    ∀ (fuel i : Nat) (fs : List Field), p ∣ (size - i) → i ≤ size →
    conservFields p size i fuel = some fs →
    List.Chain' (fun f g => f.offset < g.offset) fs ∧
    ∀ g ∈ fs, i ≤ g.offset ∧ g.kind = .ptr ∧ g.offset + p ≤ size := by
  intro fuel
  induction fuel with
  | zero =>
    intro i fs _ _ h
    exact Option.noConfusion h
  | succ fuel ih =>
    intro i fs hdvd hile h
    rw [conservFields] at h
    by_cases hi : i < size
    · rw [if_pos hi] at h
      rcases hr : conservFields p size (i + p) fuel with _ | rest <;>
        simp only [hr] at h
      · exact Option.noConfusion h
      cases h
      have hp : 0 < p := by
        rcases Nat.eq_zero_or_pos p with h0 | h0
        · subst h0
          have : size - i = 0 := Nat.eq_zero_of_zero_dvd hdvd
          omega
        · exact h0
      have hple : p ≤ size - i := Nat.le_of_dvd (by omega) hdvd
      have hdvd2 : p ∣ (size - (i + p)) := by
        obtain ⟨c, hc⟩ := hdvd
        rcases c with _ | c2
        · rw [Nat.mul_zero] at hc
          omega
        · refine ⟨c2, ?_⟩
          have h1 : size - (i + p) = (size - i) - p := by omega
          rw [h1, hc, Nat.mul_succ, Nat.add_sub_cancel]
      obtain ⟨hc, hm⟩ := ih (i + p) rest hdvd2 (by omega) hr
      constructor
      · rw [List.chain'_cons']
        refine ⟨?_, hc⟩
        intro y hy
        have := (hm y (List.mem_of_mem_head? hy)).1
        dsimp only
        omega
      · intro g hg
        rcases List.mem_cons.mp hg with h1 | h1
        · subst h1
          refine ⟨Nat.le_refl i, rfl, ?_⟩
          dsimp only
          omega
        · have := hm g h1
          exact ⟨by omega, this.2.1, this.2.2⟩
    · rw [if_neg hi] at h
      cases h
      exact ⟨List.chain'_nil, fun g hg => absurd hg (List.not_mem_nil g)⟩

lemma repFields_wf (tFields : List Field) (tSize : Nat)
    (nameOf : Nat → String → String) (bound p : Nat)
    (hchain : List.Chain' (fun f g => f.offset < g.offset) tFields)
    (hlast : ∀ g, tFields.getLast? = some g →
      g.offset + fieldWidth p g.kind ≤ tSize ∧ 0 < fieldWidth p g.kind) :
    ∀ (fuel i : Nat) (fs : List Field),
    repFields tFields tSize nameOf bound i fuel = some fs →
    List.Chain' (fun f g => f.offset < g.offset) fs ∧
    (∀ g ∈ fs, i ≤ g.offset) ∧
    (∀ g, fs.getLast? = some g →
      g.offset + fieldWidth p g.kind ≤ bound + tSize) := by
  intro fuel
  induction fuel with
  | zero =>
    intro i fs h
    exact Option.noConfusion h
  | succ fuel ih =>
    intro i fs h
    rw [repFields] at h
    by_cases hi : i ≤ bound
    · rw [if_pos hi] at h
      rcases hr : repFields tFields tSize nameOf bound (i + tSize) fuel
        with _ | rest <;> simp only [hr] at h
      · exact Option.noConfusion h
      cases h
      obtain ⟨ihc, ihm, ihl⟩ := ih (i + tSize) rest hr
      set rep := tFields.map fun f =>
        (⟨f.kind, i + f.offset, nameOf i f.name⟩ : Field) with hrep
      have hrepc : List.Chain' (fun f g => f.offset < g.offset) rep := by
        rw [hrep, List.chain'_map]
        refine List.Chain'.imp ?_ hchain
        intro a b hab
        dsimp only
        omega
      have hrepm : ∀ g ∈ rep, i ≤ g.offset ∧
          ∃ f ∈ tFields, g.offset = i + f.offset ∧ g.kind = f.kind := by
        intro g hg
        rw [hrep] at hg
        obtain ⟨f, hf, hfg⟩ := List.mem_map.mp hg
        subst hfg
        exact ⟨by dsimp only; omega, f, hf, rfl, rfl⟩
      have hreplast : ∀ g, rep.getLast? = some g →
          g.offset + fieldWidth p g.kind ≤ i + tSize := by
        intro g hg
        rw [hrep, List.getLast?_map] at hg
        rcases hlt : tFields.getLast? with _ | lt0 <;> rw [hlt] at hg
        · exact Option.noConfusion hg
        · cases hg
          have := hlast lt0 hlt
          dsimp only
          omega
      refine ⟨?_, ?_, ?_⟩
      · rw [List.chain'_append]
        refine ⟨hrepc, ihc, ?_⟩
        intro x hx y hy
        have hxl : rep.getLast? = some x := hx
        have hyh : y ∈ rest := List.mem_of_mem_head? hy
        have hyi := ihm y hyh
        rw [hrep, List.getLast?_map] at hxl
        rcases hlt : tFields.getLast? with _ | lt0 <;> rw [hlt] at hxl
        · exact Option.noConfusion hxl
        · cases hxl
          have hw := hlast lt0 hlt
          dsimp only
          omega
      · intro g hg
        rcases List.mem_append.mp hg with h1 | h1
        · exact (hrepm g h1).1
        · have := ihm g h1
          omega
      · intro g hg
        rw [List.getLast?_append] at hg
        rcases hrl : rest.getLast? with _ | glast <;> rw [hrl] at hg
        · simp only [Option.or] at hg
          have := hreplast g hg
          omega
        · simp only [Option.or] at hg
          have hgg : glast = g := by
            injection hg
          exact hgg ▸ ihl glast hrl
    · rw [if_neg hi] at h
      cases h
      exact ⟨List.chain'_nil, fun g hg => absurd hg (List.not_mem_nil g),
        fun g hg => Option.noConfusion hg⟩

lemma chanHdrFields_wf (p : Nat) (k : FieldKind) (fm : Nat → Option String)
    (hchan : Nat) :
    ∀ (fuel i : Nat) (fs : List Field), p ∣ (hchan - i) → i ≤ hchan →
    chanHdrFields p k fm hchan i fuel = some fs →
    List.Chain' (fun f g => f.offset < g.offset) fs ∧
    ∀ g ∈ fs, i ≤ g.offset ∧ g.kind = k ∧ g.offset + p ≤ hchan := by
  intro fuel
  induction fuel with
  | zero =>
    intro i fs _ _ h
    exact Option.noConfusion h
  | succ fuel ih =>
    intro i fs hdvd hile h
    rw [chanHdrFields] at h
    by_cases hi : i < hchan
    · rw [if_pos hi] at h
      rcases hr : chanHdrFields p k fm hchan (i + p) fuel with _ | rest <;>
        simp only [hr] at h
      · exact Option.noConfusion h
      cases h
      have hp : 0 < p := by
        rcases Nat.eq_zero_or_pos p with h0 | h0
        · subst h0
          have : hchan - i = 0 := Nat.eq_zero_of_zero_dvd hdvd
          omega
        · exact h0
      have hple : p ≤ hchan - i := Nat.le_of_dvd (by omega) hdvd
      have hdvd2 : p ∣ (hchan - (i + p)) := by
        obtain ⟨c, hc⟩ := hdvd
        rcases c with _ | c2
        · rw [Nat.mul_zero] at hc
          omega
        · refine ⟨c2, ?_⟩
          have h1 : hchan - (i + p) = (hchan - i) - p := by omega
          rw [h1, hc, Nat.mul_succ, Nat.add_sub_cancel]
      obtain ⟨hc2, hm⟩ := ih (i + p) rest hdvd2 (by omega) hr
      have hhd : (match fm i with
          | some nm => (⟨k, i, nm⟩ : Field)
          | none => (⟨k, i, "chanhdr"⟩ : Field)).offset = i ∧
          (match fm i with
          | some nm => (⟨k, i, nm⟩ : Field)
          | none => (⟨k, i, "chanhdr"⟩ : Field)).kind = k := by
        rcases fm i with _ | nm <;> exact ⟨rfl, rfl⟩
      constructor
      · rw [List.chain'_cons']
        refine ⟨?_, hc2⟩
        intro y hy
        have := (hm y (List.mem_of_mem_head? hy)).1
        omega
      · intro g hg
        rcases List.mem_cons.mp hg with h1 | h1
        · subst h1
          exact ⟨by omega, hhd.2, by omega⟩
        · have := hm g h1
          exact ⟨by omega, this.2.1, this.2.2⟩
    · rw [if_neg hi] at h
      cases h
      exact ⟨List.chain'_nil, fun g hg => absurd hg (List.not_mem_nil g)⟩

/-- Well-formedness of a runtime-supplied type record: its own field
list is sorted by offset and its last field (with positive width) fits
in the element size.  `readFields` never checks this (the source
carries a TODO "sort by offset, or check that it is sorted"), so it is
a hypothesis, not a fact, about runtime types. -/
def typeWF (ptrSize : Nat) (t : TypeRec) : Prop :=
  List.Chain' (fun f g => f.offset < g.offset) t.fields ∧
  ∀ g, t.fields.getLast? = some g →
    g.offset + fieldWidth ptrSize g.kind ≤ t.size ∧
    0 < fieldWidth ptrSize g.kind

/-- The side conditions under which `nameFullTypes` produces a
well-formed layout for a given catalog entry, by layout family. -/
def layoutPre (d : Dump) (ft : FullType) : Prop :=
  match ft.typ, ft.kind with
  | none, .conservative => d.ptrSize ∣ ft.size
  | none, _ => True
  | some ti, .object =>
    ∀ t, d.types[ti]? = some t → typeWF d.ptrSize t ∧ t.size ≤ ft.size
  | some ti, .array =>
    ∀ t, d.types[ti]? = some t → typeWF d.ptrSize t ∧ t.size ≤ ft.size
  | some ti, .chan =>
    ∀ t, d.types[ti]? = some t →
      d.ptrSize ∣ d.hchanSize ∧ d.hchanSize ≤ ft.size ∧
      (0 < t.size → typeWF d.ptrSize t ∧ t.size ≤ ft.size)
  | some _, .conservative => True

lemma chanFieldsMap_ptrSize (p : Nat) (fm : Nat → Option String)
    (h : chanFieldsMap p = some fm) : p = 4 ∨ p = 8 := by
  rw [chanFieldsMap] at h
  by_cases h4 : p = 4
  · exact Or.inl h4
  · rw [if_neg h4] at h
    by_cases h8 : p = 8
    · exact Or.inr h8
    · rw [if_neg h8] at h
      exact Option.noConfusion h

lemma usub64_of_le (a b : Nat) (h : b ≤ a) : usub64 a b = a - b := by
  rw [usub64, if_pos h]

/-- **C6** (amended).  After `nameFullTypes` every catalog entry's
field offsets are strictly increasing and the last field plus its
width fits in the entry's size, *provided* the per-family side
conditions of `layoutPre` hold: nothing for typeless non-conservative
layouts, `ptrSize ∣ size` for conservative ones, and for type-derived
layouts the well-formedness of the runtime type's own (unchecked)
field list together with the element-size/size bounds.  The original
unconditional claim is refuted by `c6_counterexample`. -/
theorem c6_layout_amended (d d2 : Dump) (h : nameFullTypes d = some d2)
    (ft2 : FullType) (hmem : ft2 ∈ d2.ftList) (hpre : layoutPre d ft2) :
    ftWF d.ptrSize ft2.fields ft2.size := by
  rw [nameFullTypes] at h
  rcases hm : mapMOpt (fun ft =>
      (fullTypeFields d ft).map fun fs => { ft with fields := fs }) d.ftList
    with _ | fts <;> simp only [hm] at h
  · exact Option.noConfusion h
  cases h
  have hmem2 : ft2 ∈ fts := hmem
  obtain ⟨ft, hft, hfs0⟩ := mapMOpt_mem _ d.ftList fts hm ft2 hmem2
  obtain ⟨fid, ftyp, fkind, fsize, fname, ffields⟩ := ft
  rcases hfs : fullTypeFields d ⟨fid, ftyp, fkind, fsize, fname, ffields⟩
    with _ | fs <;> rw [hfs] at hfs0
  · exact Option.noConfusion hfs0
  simp only [Option.map_some'] at hfs0
  cases hfs0
  simp only [layoutPre] at hpre
  show ftWF d.ptrSize fs fsize
  rcases ftyp with _ | ti
  · cases fkind
    · -- typeless object: 8/16-byte chunks
      simp only [fullTypeFields] at hfs
      obtain ⟨hc, hm2⟩ := noptrFields_wf d.ptrSize fsize (fsize + 1) 0 fs hfs
      exact ⟨hc, fun g hg => (hm2 g (List.mem_of_mem_getLast? hg)).2⟩
    · simp only [fullTypeFields] at hfs
      exact Option.noConfusion hfs
    · simp only [fullTypeFields] at hfs
      exact Option.noConfusion hfs
    · -- conservative: pointer every ptrSize bytes
      simp only [fullTypeFields] at hfs
      obtain ⟨hc, hm2⟩ := conservFields_wf d.ptrSize fsize (fsize + 1) 0 fs
        (by simpa using hpre) (Nat.zero_le _) hfs
      refine ⟨hc, fun g hg => ?_⟩
      have hgm := hm2 g (List.mem_of_mem_getLast? hg)
      have hw : fieldWidth d.ptrSize g.kind = d.ptrSize := by
        rw [hgm.2.1]
        rfl
      rw [hw]
      exact hgm.2.2
  · cases fkind
    · -- typed object: fields copied from the runtime type
      simp only [fullTypeFields] at hfs
      rcases ht : d.types[ti]? with _ | t <;> simp only [ht] at hfs
      · exact Option.noConfusion hfs
      cases hfs
      obtain ⟨htw, hts⟩ := hpre t ht
      refine ⟨htw.1, fun g hg => ?_⟩
      have := (htw.2 g hg).1
      omega
    · -- array: element fields repeated
      simp only [fullTypeFields] at hfs
      rcases ht : d.types[ti]? with _ | t <;> simp only [ht] at hfs
      · exact Option.noConfusion hfs
      obtain ⟨htw, hts⟩ := hpre t ht
      simp only [arrayRepFields] at hfs
      obtain ⟨hc, _, hl⟩ := repFields_wf t.fields t.size _
        (usub64 fsize t.size) d.ptrSize htw.1 htw.2 (fsize + 2) 0 fs hfs
      refine ⟨hc, fun g hg => ?_⟩
      have := hl g hg
      rw [usub64_of_le fsize t.size hts] at this
      omega
    · -- chan: header pseudo-fields then repeated element fields
      simp only [fullTypeFields] at hfs
      rcases ht : d.types[ti]? with _ | t <;> simp only [ht] at hfs
      · exact Option.noConfusion hfs
      rcases hfm : chanFieldsMap d.ptrSize with _ | fm <;>
        simp only [hfm] at hfs
      · exact Option.noConfusion hfs
      obtain ⟨hdvd, hhle, hrest⟩ := hpre t ht
      have hp48 := chanFieldsMap_ptrSize d.ptrSize fm hfm
      have hp : 0 < d.ptrSize := by rcases hp48 with h4 | h8 <;> omega
      have hwk : fieldWidth d.ptrSize
          (if d.ptrSize = 4 then FieldKind.uint32 else FieldKind.uint64) =
          d.ptrSize := by
        rcases hp48 with h4 | h8
        · rw [h4]
          decide
        · rw [h8]
          decide
      rcases hhdr : chanHdrFields d.ptrSize
          (if d.ptrSize = 4 then FieldKind.uint32 else FieldKind.uint64)
          fm d.hchanSize 0 (d.hchanSize + 1) with _ | hdr <;>
        simp only [hhdr] at hfs
      · exact Option.noConfusion hfs
      obtain ⟨hch, hhm⟩ := chanHdrFields_wf d.ptrSize _ fm d.hchanSize
        (d.hchanSize + 1) 0 hdr (by simpa using hdvd) (Nat.zero_le _) hhdr
      by_cases hts0 : 0 < t.size
      · rw [if_pos hts0] at hfs
        obtain ⟨htw, htsle⟩ := hrest hts0
        rcases hel : chanElemFields t.fields t.size d.hchanSize
            (usub64 fsize t.size) d.hchanSize (fsize + 2) with _ | elems <;>
          simp only [hel] at hfs
        · exact Option.noConfusion hfs
        cases hfs
        simp only [chanElemFields] at hel
        obtain ⟨hec, hem, hela⟩ := repFields_wf t.fields t.size _
          (usub64 fsize t.size) d.ptrSize htw.1 htw.2 (fsize + 2)
          d.hchanSize elems hel
        constructor
        · rw [List.chain'_append]
          refine ⟨hch, hec, fun x hx y hy => ?_⟩
          have hx2 : hdr.getLast? = some x := hx
          have hxm := hhm x (List.mem_of_mem_getLast? hx2)
          have hym := hem y (List.mem_of_mem_head? hy)
          omega
        · intro g hg
          rw [List.getLast?_append] at hg
          rcases hgl : elems.getLast? with _ | ge <;> rw [hgl] at hg <;>
            simp only [Option.or] at hg
          · have hgm := hhm g (List.mem_of_mem_getLast? hg)
            have hwk2 : fieldWidth d.ptrSize g.kind = d.ptrSize := by
              rw [hgm.2.1]
              exact hwk
            omega
          · have hgg : ge = g := by
              injection hg
            subst hgg
            have := hela ge hgl
            rw [usub64_of_le fsize t.size htsle] at this
            omega
      · rw [if_neg hts0] at hfs
        cases hfs
        refine ⟨hch, fun g hg => ?_⟩
        have hgm := hhm g (List.mem_of_mem_getLast? hg)
        have hwk2 : fieldWidth d.ptrSize g.kind = d.ptrSize := by
          rw [hgm.2.1]
          exact hwk
        omega
    · simp only [fullTypeFields] at hfs
      exact Option.noConfusion hfs

def c6recs : List Rec :=
  [ .paramsR 0 8 96 65536 69632 0 "" 1,
    .typeR 256 16 "T" false [⟨.ptr, 8, ""⟩, ⟨.ptr, 0, ""⟩],
    .dataR 0 [] [],
    .bssR 0 [] [],
    .objR 65536 256 .object 16 (List.replicate 16 0),
    .eofR ]

def c6dump : Dump := (ReadDump c6recs).getD {}

/-- **C6** counterexample.  A dump whose (runtime-supplied) type record
lists its two pointer fields in decreasing offset order loads without
error, and the resulting catalog entry's field offsets are not strictly
increasing — `readFields` neither sorts nor checks (the source carries
a TODO to that effect), refuting the unconditional claim. -/
theorem c6_counterexample :
    ∃ ft2, c6dump.ftList[0]? = some ft2 ∧
      ¬ ftWF c6dump.ptrSize ft2.fields ft2.size := by
  refine ⟨⟨0, some 0, .object, 16, "T",
    [⟨.ptr, 8, "field0"⟩, ⟨.ptr, 0, "field1"⟩]⟩, by rfl, ?_⟩
  intro hwf
  have hc := hwf.1
  dsimp only at hc
  rw [List.chain'_cons] at hc
  have h1 := hc.1
  dsimp only at h1
  omega

def c6wd : Dump := { ptrSize := 8, ftList := [⟨0, none, .object, 16, "unk16", []⟩] }

def c6wd2 : Dump := (nameFullTypes c6wd).getD {}

def c6wft : FullType := (c6wd2.ftList[0]?).getD ⟨0, none, .object, 0, "", []⟩

/-- Witness for the amended C6 at a concrete dump with a typeless
16-byte object layout. -/
theorem c6_layout_amended_witness :
    ftWF c6wd.ptrSize c6wft.fields c6wft.size :=
  c6_layout_amended c6wd c6wd2 (by rfl) c6wft (by decide) trivial

end read

/-! ## The `hview` viewer: referrer index and dominators

`hview` consumes the `read` API.  Its state is abstracted as: `n`
objects indexed `0, …, n-1`, and for each object `x` the list `E x` of
target indices of `d.Edges(x)` (well-defined by C9's determinism; C2
gives that every target is a valid object, the `hE` hypotheses below).
-/

namespace hview

open read

/-- `ref2[t]` — the Go map read with its zero value `[]` for a missing
key. -/
def ref2get (m : List (Nat × List Nat)) (t : Nat) : List Nat :=
  (lookupA t m).getD []

/-- `ref1[t]` — the slice indexed at `t`. -/
def r1get (r1 : List ObjId) (t : Nat) : ObjId := (r1[t]?).getD .nil

/-- The body of `prepare`'s edge loop: one edge of object `x` whose
target is `t`.  The source's append guard `len(s) == 0 || x != s[len(s)-1]`
is the negation of "the last element exists and is `x`". -/
def refStep (s : List ObjId × List (Nat × List Nat)) (x t : Nat) :
    List ObjId × List (Nat × List Nat) :=
  if r1get s.1 t = .nil then (s.1.set t (.id x), s.2)
  else if ObjId.id x ≠ r1get s.1 t then
    if (ref2get s.2 t).getLast? = some x then s
    else (s.1, (t, ref2get s.2 t ++ [x]) :: s.2)
  else s

/-- All edges of one object `x`, in order. -/
def refObj (s : List ObjId × List (Nat × List Nat)) (x : Nat)
    (ts : List Nat) : List ObjId × List (Nat × List Nat) :=
  ts.foldl (fun s t => refStep s x t) s

/-- The object loop of `prepare`'s referrer computation. -/
def prepareLoop (E : Nat → List Nat)
    (s : List ObjId × List (Nat × List Nat)) (xs : List Nat) :
    List ObjId × List (Nat × List Nat) :=
  xs.foldl (fun s x => refObj s x (E x)) s

/-- `prepare`'s referrer computation: `ref1` initialised to `ObjNil`,
`ref2` empty, objects visited in increasing index order. -/
def prepareRef (E : Nat → List Nat) (n : Nat) :
    List ObjId × List (Nat × List Nat) :=
  prepareLoop E (List.replicate n .nil, []) (List.range n)

/-- The sources with at least one edge to `t` among objects `0..x-1`,
in increasing order. -/
def srcList (E : Nat → List Nat) (x t : Nat) : List Nat :=
  (List.range x).filter (fun y => t ∈ E y)

/-- The referrer-index state records, per target `t`, exactly the head
(in `ref1`) and tail (in `ref2`) of a source list `B t`. -/
def stOk (s : List ObjId × List (Nat × List Nat))
    (B : Nat → List Nat) : Prop :=
  ∀ t, r1get s.1 t = ((B t).head?.map ObjId.id).getD .nil ∧
    ref2get s.2 t = (B t).tail

lemma mem_le_getLast :
    ∀ (l : List Nat), List.Chain' (fun a b => a < b) l →
    ∀ y ∈ l, ∃ z, l.getLast? = some z ∧ y ≤ z := by
  intro l
  induction l with
  | nil =>
    intro _ y hy
    exact absurd hy (List.not_mem_nil y)
  | cons a l ih =>
    intro hc y hy
    cases l with
    | nil =>
      have hya : y = a := by simpa using hy
      exact ⟨a, rfl, by omega⟩
    | cons b l2 =>
      rcases List.mem_cons.mp hy with h | h
      · subst h
        have hab : y < b := (List.chain'_cons.mp hc).1
        obtain ⟨z, hz, hbz⟩ := ih (List.chain'_cons.mp hc).2 b
          (List.mem_cons_self b l2)
        exact ⟨z, hz, by omega⟩
      · obtain ⟨z, hz, hyz⟩ := ih (List.chain'_cons.mp hc).2 y h
        exact ⟨z, hz, hyz⟩

/-- The per-target source-list update performed by one `refStep`:
target `t0` gains `x` at the end unless already present. -/
def bupd (B : Nat → List Nat) (x t0 : Nat) : Nat → List Nat :=
  fun t => if t = t0 ∧ x ∉ B t then B t ++ [x] else B t

lemma bupd_ne (B : Nat → List Nat) (x t0 t : Nat) (ht : t ≠ t0) :
    bupd B x t0 t = B t := by
  have hcf : ¬(t = t0 ∧ x ∉ B t) := fun hc => ht hc.1
  exact if_neg hcf

lemma bupd_mem (B : Nat → List Nat) (x t0 : Nat) (hx : x ∈ B t0) :
    bupd B x t0 t0 = B t0 := by
  have hcf : ¬(t0 = t0 ∧ x ∉ B t0) := fun hc => hc.2 hx
  exact if_neg hcf

lemma bupd_new (B : Nat → List Nat) (x t0 : Nat) (hx : x ∉ B t0) :
    bupd B x t0 t0 = B t0 ++ [x] :=
  if_pos ⟨rfl, hx⟩

lemma refStep_spec (n x : Nat) (s : List ObjId × List (Nat × List Nat))
    (B : Nat → List Nat) (t0 : Nat) (ht0 : t0 < n)
    (hlen : s.1.length = n) (hok : stOk s B)
    (hchain : ∀ t, List.Chain' (fun a b => a < b) (B t))
    (hle : ∀ t, ∀ y ∈ B t, y ≤ x) :
    (refStep s x t0).1.length = n ∧
    stOk (refStep s x t0) (bupd B x t0) ∧
    (∀ t, List.Chain' (fun a b => a < b) (bupd B x t0 t)) ∧
    (∀ t, ∀ y ∈ bupd B x t0 t, y ≤ x) := by
  obtain ⟨h1, h2⟩ := hok t0
  have hfin : refStep s x t0 = s → x ∈ B t0 →
      (refStep s x t0).1.length = n ∧
      stOk (refStep s x t0) (bupd B x t0) ∧
      (∀ t, List.Chain' (fun a b => a < b) (bupd B x t0 t)) ∧
      (∀ t, ∀ y ∈ bupd B x t0 t, y ≤ x) := by
    intro hstep hxin
    have hBeq : ∀ t, bupd B x t0 t = B t := by
      intro t
      by_cases ht : t = t0
      · rw [ht]
        exact bupd_mem B x t0 hxin
      · exact bupd_ne B x t0 t ht
    rw [hstep]
    refine ⟨hlen, ?_, ?_, ?_⟩
    · intro t
      rw [hBeq t]
      exact hok t
    · intro t
      rw [hBeq t]
      exact hchain t
    · intro t
      rw [hBeq t]
      exact hle t
  rcases hB0 : B t0 with _ | ⟨y0, ys⟩
  · -- no referrer yet: ref1 gets set to x
    have hr1 : r1get s.1 t0 = .nil := by
      rw [h1, hB0]
      rfl
    have hstep : refStep s x t0 = (s.1.set t0 (.id x), s.2) := by
      rw [refStep, if_pos hr1]
    have hx0 : x ∉ B t0 := by
      rw [hB0]
      exact List.not_mem_nil x
    refine ⟨?_, ?_, ?_, ?_⟩
    · rw [hstep]
      simpa using hlen
    · intro t
      by_cases ht : t = t0
      · rw [ht, bupd_new B x t0 hx0, hstep, hB0]
        constructor
        · show r1get (s.1.set t0 (.id x)) t0 = _
          rw [r1get, List.getElem?_set_eq (by omega)]
          rfl
        · show ref2get s.2 t0 = _
          rw [h2, hB0]
          rfl
      · rw [bupd_ne B x t0 t ht, hstep]
        obtain ⟨g1, g2⟩ := hok t
        refine ⟨?_, g2⟩
        show r1get (s.1.set t0 (.id x)) t = _
        rw [r1get, List.getElem?_set_ne (fun he => ht he.symm)]
        exact g1
    · intro t
      by_cases ht : t = t0
      · rw [ht, bupd_new B x t0 hx0, hB0]
        exact List.chain'_singleton x
      · rw [bupd_ne B x t0 t ht]
        exact hchain t
    · intro t y hy
      by_cases ht : t = t0
      · rw [ht, bupd_new B x t0 hx0, hB0] at hy
        have hyx : y = x := by simpa using hy
        omega
      · rw [bupd_ne B x t0 t ht] at hy
        exact hle t y hy
  · -- ref1 already holds the first source y0
    have hr1 : r1get s.1 t0 = .id y0 := by
      rw [h1, hB0]
      rfl
    have hr1ne : ¬ r1get s.1 t0 = .nil := by
      rw [hr1]
      exact fun h => ObjId.noConfusion h
    have hy0 : y0 ≤ x := hle t0 y0 (by rw [hB0]; exact List.mem_cons_self y0 ys)
    by_cases hxy0 : x = y0
    · -- x is the recorded first source: skipped
      have hC1 : ¬ ObjId.id x ≠ r1get s.1 t0 := by
        rw [hr1, hxy0]
        exact fun h => h rfl
      have hstep : refStep s x t0 = s := by
        rw [refStep, if_neg hr1ne, if_neg hC1]
      exact hfin hstep (by rw [hB0, hxy0]; exact List.mem_cons_self y0 ys)
    · have hC1 : ObjId.id x ≠ r1get s.1 t0 := by
        rw [hr1]
        exact fun h => hxy0 (ObjId.id.inj h)
      have hl2 : ref2get s.2 t0 = ys := by
        rw [h2, hB0]
        rfl
      by_cases hlast : ys.getLast? = some x
      · -- duplicate edge from x: x is already the last entry of ref2
        have hC2 : (ref2get s.2 t0).getLast? = some x := by
          rw [hl2]
          exact hlast
        have hstep : refStep s x t0 = s := by
          rw [refStep, if_neg hr1ne, if_pos hC1, if_pos hC2]
        have hxin : x ∈ B t0 := by
          rw [hB0]
          exact List.mem_cons_of_mem y0 (List.mem_of_mem_getLast? hlast)
        exact hfin hstep hxin
      · -- a genuinely new source: appended to ref2
        have hC2 : ¬ (ref2get s.2 t0).getLast? = some x := by
          rw [hl2]
          exact hlast
        have hstep : refStep s x t0 = (s.1, (t0, ys ++ [x]) :: s.2) := by
          rw [refStep, if_neg hr1ne, if_pos hC1, if_neg hC2, hl2]
        have hch0 : List.Chain' (fun a b => a < b) (y0 :: ys) := by
          have hcbt := hchain t0
          rwa [hB0] at hcbt
        have hxn : x ∉ B t0 := by
          rw [hB0]
          intro hx
          rcases List.mem_cons.mp hx with h | h
          · exact hxy0 h
          · obtain ⟨z, hz, hxz⟩ := mem_le_getLast ys hch0.tail x h
            have hzmem : z ∈ B t0 := by
              rw [hB0]
              exact List.mem_cons_of_mem y0 (List.mem_of_mem_getLast? hz)
            have hzle : z ≤ x := hle t0 z hzmem
            have hzx : z = x := by omega
            subst hzx
            exact hlast hz
        refine ⟨?_, ?_, ?_, ?_⟩
        · rw [hstep]
          exact hlen
        · intro t
          by_cases ht : t = t0
          · rw [ht, bupd_new B x t0 hxn, hstep, hB0]
            constructor
            · show r1get s.1 t0 = _
              rw [hr1]
              rfl
            · show ref2get ((t0, ys ++ [x]) :: s.2) t0 = _
              rw [ref2get, lookupA, if_pos rfl]
              rfl
          · rw [bupd_ne B x t0 t ht, hstep]
            obtain ⟨g1, g2⟩ := hok t
            refine ⟨g1, ?_⟩
            show ref2get ((t0, ys ++ [x]) :: s.2) t = _
            rw [ref2get, lookupA, if_neg (fun he => ht he.symm)]
            exact g2
        · intro t
          by_cases ht : t = t0
          · rw [ht, bupd_new B x t0 hxn, hB0]
            rw [List.chain'_append]
            refine ⟨hch0, List.chain'_singleton x, ?_⟩
            intro z hz w hw
            have hz2 : (y0 :: ys).getLast? = some z := hz
            have hw2 : x = w := by simpa using hw
            subst hw2
            have hzmem : z ∈ y0 :: ys := List.mem_of_mem_getLast? hz2
            have hzle : z ≤ x := by
              refine hle t0 z ?_
              rw [hB0]
              exact hzmem
            rcases Nat.lt_or_ge z x with hlt | hge
            · exact hlt
            · have hzx : z = x := by omega
              subst hzx
              refine absurd ?_ hxn
              rw [hB0]
              exact hzmem
          · rw [bupd_ne B x t0 t ht]
            exact hchain t
        · intro t y hy
          by_cases ht : t = t0
          · rw [ht, bupd_new B x t0 hxn, hB0] at hy
            rcases List.mem_append.mp hy with h | h
            · refine Nat.le_of_lt_succ ?_
              have hyle : y ≤ x := by
                refine hle t0 y ?_
                rw [hB0]
                exact h
              omega
            · have hyx : y = x := by simpa using h
              omega
          · rw [bupd_ne B x t0 t ht] at hy
            exact hle t y hy

/-- The accumulated update of one object's whole edge list. -/
def bupds (B : Nat → List Nat) (x : Nat) (ts : List Nat) : Nat → List Nat :=
  fun t => if t ∈ ts ∧ x ∉ B t then B t ++ [x] else B t

lemma bupds_cons (B : Nat → List Nat) (x t0 : Nat) (rest : List Nat)
    (t : Nat) : bupds (bupd B x t0) x rest t = bupds B x (t0 :: rest) t := by
  by_cases ht : t = t0
  · subst ht
    by_cases hx : x ∈ B t
    · have e1 : bupd B x t t = B t := bupd_mem B x t hx
      have e2 : bupds (bupd B x t) x rest t = bupds B x rest t := by
        simp only [bupds]
        rw [e1]
      rw [e2]
      have c1 : ¬(t ∈ rest ∧ x ∉ B t) := fun hc => hc.2 hx
      have c2 : ¬(t ∈ t :: rest ∧ x ∉ B t) := fun hc => hc.2 hx
      simp only [bupds]
      rw [if_neg c1, if_neg c2]
    · have e1 : bupd B x t t = B t ++ [x] := bupd_new B x t hx
      have hx2 : x ∈ bupd B x t t := by
        rw [e1]
        exact List.mem_append.mpr (Or.inr (List.mem_singleton.mpr rfl))
      have c1 : ¬(t ∈ rest ∧ x ∉ bupd B x t t) := fun hc => hc.2 hx2
      have c2 : t ∈ t :: rest ∧ x ∉ B t := ⟨List.mem_cons_self t rest, hx⟩
      simp only [bupds]
      rw [if_neg c1, if_pos c2, e1]
  · have e1 : bupd B x t0 t = B t := bupd_ne B x t0 t ht
    have hiff : t ∈ rest ∧ x ∉ B t ↔ t ∈ t0 :: rest ∧ x ∉ B t := by
      constructor
      · intro hc
        exact ⟨List.mem_cons_of_mem t0 hc.1, hc.2⟩
      · intro hc
        rcases List.mem_cons.mp hc.1 with h | h
        · exact absurd h ht
        · exact ⟨h, hc.2⟩
    simp only [bupds]
    rw [e1]
    exact if_congr hiff rfl rfl

lemma refObj_spec (n x : Nat) :
    ∀ (ts : List Nat) (s : List ObjId × List (Nat × List Nat))
    (B : Nat → List Nat),
    (∀ t ∈ ts, t < n) → s.1.length = n → stOk s B →
    (∀ t, List.Chain' (fun a b => a < b) (B t)) →
    (∀ t, ∀ y ∈ B t, y ≤ x) →
    (refObj s x ts).1.length = n ∧
    stOk (refObj s x ts) (bupds B x ts) ∧
    (∀ t, List.Chain' (fun a b => a < b) (bupds B x ts t)) ∧
    (∀ t, ∀ y ∈ bupds B x ts t, y ≤ x) := by
  intro ts
  induction ts with
  | nil =>
    intro s B hts hlen hok hch hle
    have hBid : ∀ t, bupds B x [] t = B t := fun t =>
      if_neg (fun hc => List.not_mem_nil t hc.1)
    refine ⟨hlen, ?_, ?_, ?_⟩
    · intro t
      rw [hBid t]
      exact hok t
    · intro t
      rw [hBid t]
      exact hch t
    · intro t
      rw [hBid t]
      exact hle t
  | cons t0 rest ih =>
    intro s B hts hlen hok hch hle
    have h0 := refStep_spec n x s B t0 (hts t0 (List.mem_cons_self t0 rest))
      hlen hok hch hle
    have hrest : ∀ t ∈ rest, t < n :=
      fun t htm => hts t (List.mem_cons_of_mem t0 htm)
    have hmain := ih (refStep s x t0) (bupd B x t0) hrest h0.1 h0.2.1
      h0.2.2.1 h0.2.2.2
    refine ⟨hmain.1, ?_, ?_, ?_⟩
    · intro t
      have hm := hmain.2.1 t
      rw [bupds_cons B x t0 rest t] at hm
      exact hm
    · intro t
      have hm := hmain.2.2.1 t
      rw [bupds_cons B x t0 rest t] at hm
      exact hm
    · intro t y hy
      rw [← bupds_cons B x t0 rest t] at hy
      exact hmain.2.2.2 t y hy

/-- Source lists extended by every object of `xs` that points to `t`. -/
def bext (E : Nat → List Nat) (B : Nat → List Nat) (xs : List Nat) :
    Nat → List Nat :=
  fun t => B t ++ xs.filter (fun y => t ∈ E y)

lemma prepareLoop_spec (E : Nat → List Nat) (n : Nat) :
    ∀ (xs : List Nat) (s : List ObjId × List (Nat × List Nat))
    (B : Nat → List Nat),
    (∀ x ∈ xs, ∀ t ∈ E x, t < n) →
    List.Sorted (fun a b => a < b) xs →
    (∀ t, ∀ y ∈ B t, ∀ x ∈ xs, y < x) →
    s.1.length = n → stOk s B →
    (∀ t, List.Chain' (fun a b => a < b) (B t)) →
    (prepareLoop E s xs).1.length = n ∧
    stOk (prepareLoop E s xs) (bext E B xs) ∧
    (∀ t, List.Chain' (fun a b => a < b) (bext E B xs t)) := by
  intro xs
  induction xs with
  | nil =>
    intro s B hE hsort hlt hlen hok hch
    have hBid : ∀ t, bext E B [] t = B t := by
      intro t
      show B t ++ [] = B t
      exact List.append_nil (B t)
    refine ⟨hlen, ?_, ?_⟩
    · intro t
      rw [hBid t]
      exact hok t
    · intro t
      rw [hBid t]
      exact hch t
  | cons x rest ih =>
    intro s B hE hsort hlt hlen hok hch
    have hle : ∀ t, ∀ y ∈ B t, y ≤ x := by
      intro t y hy
      exact Nat.le_of_lt (hlt t y hy x (List.mem_cons_self x rest))
    have h0 := refObj_spec n x (E x) s B
      (hE x (List.mem_cons_self x rest)) hlen hok hch hle
    have hsc := List.sorted_cons.mp hsort
    have hB1lt : ∀ t, ∀ y ∈ bupds B x (E x) t, ∀ z ∈ rest, y < z := by
      intro t y hy z hz
      by_cases hc : t ∈ E x ∧ x ∉ B t
      · rw [show bupds B x (E x) t = B t ++ [x] from if_pos hc] at hy
        rcases List.mem_append.mp hy with h | h
        · exact Nat.lt_trans (hlt t y h x (List.mem_cons_self x rest)) (hsc.1 z hz)
        · have hyx : y = x := by simpa using h
          rw [hyx]
          exact hsc.1 z hz
      · rw [show bupds B x (E x) t = B t from if_neg hc] at hy
        exact hlt t y hy z (List.mem_cons_of_mem x hz)
    have hmain := ih (refObj s x (E x)) (bupds B x (E x))
      (fun z hz => hE z (List.mem_cons_of_mem x hz)) hsc.2 hB1lt
      h0.1 h0.2.1 h0.2.2.1
    have hstep2 : ∀ t, bext E (bupds B x (E x)) rest t = bext E B (x :: rest) t := by
      intro t
      by_cases htEx : t ∈ E x
      · have hxnB : x ∉ B t := by
          intro hm
          exact absurd (hlt t x hm x (List.mem_cons_self x rest)) (Nat.lt_irrefl x)
        have h1 : bupds B x (E x) t = B t ++ [x] := if_pos ⟨htEx, hxnB⟩
        show bupds B x (E x) t ++ _ = B t ++ _
        rw [h1, List.filter_cons, if_pos (by simpa using htEx), List.append_assoc]
        rfl
      · have h1 : bupds B x (E x) t = B t := if_neg (fun hc => htEx hc.1)
        show bupds B x (E x) t ++ _ = B t ++ _
        rw [h1, List.filter_cons, if_neg (by simpa using htEx)]
    refine ⟨hmain.1, ?_, ?_⟩
    · intro t
      have hm := hmain.2.1 t
      rw [hstep2 t] at hm
      exact hm
    · intro t
      have hm := hmain.2.2 t
      rw [hstep2 t] at hm
      exact hm

/-- The exact content of the referrer index: for every target `t`,
`ref1[t]` holds the least-indexed object with an edge to `t` (or
`ObjNil`), and `ref2[t]` the remaining such objects in increasing
order, each exactly once. -/
lemma prepareRef_spec (E : Nat → List Nat) (n : Nat)
    (hE : ∀ x ∈ List.range n, ∀ t ∈ E x, t < n) (t : Nat) :
    r1get (prepareRef E n).1 t =
      ((srcList E n t).head?.map ObjId.id).getD .nil ∧
    ref2get (prepareRef E n).2 t = (srcList E n t).tail := by
  have hok0 : stOk (List.replicate n ObjId.nil, []) (fun _ => []) := by
    intro u
    constructor
    · show r1get (List.replicate n ObjId.nil) u = ObjId.nil
      rw [r1get, List.getElem?_replicate]
      by_cases hu : u < n
      · rw [if_pos hu]
        rfl
      · rw [if_neg hu]
        rfl
    · rfl
  have h := prepareLoop_spec E n (List.range n)
    (List.replicate n ObjId.nil, []) (fun _ => []) hE
    (List.sorted_lt_range n)
    (fun u y hy => absurd hy (List.not_mem_nil y))
    (by simp) hok0 (fun u => List.chain'_nil)
  exact h.2.1 t

/-- **C5**.  After `prepare`'s referrer pass, for every target `t` the
referrer index is exactly: `ref1[t]` = the least-indexed object with at
least one edge to `t` (`ObjNil` if none), `ref2[t]` = the remaining
such objects in increasing index order.  `srcList E n t` (the objects
with an edge to `t`) has no duplicates, so each source appears at most
once across `ref1[t]` and `ref2[t]` even when it holds several
pointers to `t`. -/
theorem c5_referrer_dedup (E : Nat → List Nat) (n : Nat)
    (hE : ∀ x ∈ List.range n, ∀ t ∈ E x, t < n) (t : Nat) :
    r1get (prepareRef E n).1 t =
      ((srcList E n t).head?.map ObjId.id).getD .nil ∧
    ref2get (prepareRef E n).2 t = (srcList E n t).tail ∧
    (srcList E n t).Nodup := by
  obtain ⟨g1, g2⟩ := prepareRef_spec E n hE t
  exact ⟨g1, g2, List.Nodup.filter _ (List.nodup_range n)⟩

/-- The heap referrers enumerated by `getReferrers(x)`: nothing when
`ref1[x]` is `ObjNil`, otherwise `ref1[x]` followed by all of
`ref2[x]` (the `ref2` loop is inside the `ref1 != ObjNil` branch). -/
def refSources (s : List ObjId × List (Nat × List Nat)) (x : Nat) :
    List ObjId :=
  match r1get s.1 x with
  | .nil => []
  | .id y => ObjId.id y :: (ref2get s.2 x).map ObjId.id

/-- **C10**.  In the state built by `prepare`: a non-empty `ref2[x]`
implies `ref1[x]` is set, the object in `ref1[x]` never also appears
in `ref2[x]`, and every recorded heap referrer (the `ref1[x]` entry
and each `ref2[x]` entry) is enumerated by `getReferrers`, which reads
`ref2[x]` only inside the `ref1[x] != ObjNil` branch — so no recorded
referrer is silently dropped. -/
theorem c10_getReferrers_no_drop (E : Nat → List Nat) (n : Nat)
    (hE : ∀ x ∈ List.range n, ∀ t ∈ E x, t < n) (x : Nat) :
    (ref2get (prepareRef E n).2 x ≠ [] →
      r1get (prepareRef E n).1 x ≠ .nil) ∧
    (∀ y, r1get (prepareRef E n).1 x = .id y →
      y ∉ ref2get (prepareRef E n).2 x ∧
      ObjId.id y ∈ refSources (prepareRef E n) x) ∧
    (∀ y ∈ ref2get (prepareRef E n).2 x,
      ObjId.id y ∈ refSources (prepareRef E n) x) := by
  obtain ⟨g1, g2⟩ := prepareRef_spec E n hE x
  have hnd : (srcList E n x).Nodup := List.Nodup.filter _ (List.nodup_range n)
  refine ⟨?_, ?_, ?_⟩
  · intro h2 h1
    rw [g2] at h2
    rcases hsl : srcList E n x with _ | ⟨a, rest⟩
    · rw [hsl] at h2
      exact h2 rfl
    · rw [hsl] at g1
      rw [g1] at h1
      exact ObjId.noConfusion h1
  · intro y hy
    rcases hsl : srcList E n x with _ | ⟨a, rest⟩
    · rw [hsl] at g1
      rw [g1] at hy
      exact absurd hy (fun h => ObjId.noConfusion h)
    · rw [hsl] at g1 hnd
      have hya : y = a := by
        rw [g1] at hy
        exact (ObjId.id.inj hy).symm
      have hr1 : r1get (prepareRef E n).1 x = .id a := by
        rw [g1]
        rfl
      constructor
      · intro hmem
        rw [g2, hsl, hya] at hmem
        exact (List.nodup_cons.mp hnd).1 hmem
      · rw [refSources, hr1, hya]
        exact List.mem_cons_self _ _
  · intro y hy
    rcases hsl : srcList E n x with _ | ⟨a, rest⟩
    · rw [g2, hsl] at hy
      exact absurd hy (List.not_mem_nil y)
    · rw [hsl] at g1
      have hr1 : r1get (prepareRef E n).1 x = .id a := by
        rw [g1]
        rfl
      rw [refSources, hr1]
      exact List.mem_cons_of_mem _ (List.mem_map_of_mem _ hy)

/-- A concrete 3-object heap: object 0 points twice at 1 and once at
2, objects 1 and 2 each point at 1. -/
def prepE : Nat → List Nat :=
  fun x => if x = 0 then [1, 1, 2] else if x = 1 then [1] else
    if x = 2 then [1] else []

/-- Witness for C5: object 1 has referrers 0 (first), then 1 and 2 in
`ref2`, each once, although object 0 points to it twice. -/
theorem c5_referrer_dedup_witness :
    r1get (prepareRef prepE 3).1 1 = .id 0 ∧
    ref2get (prepareRef prepE 3).2 1 = [1, 2] ∧
    (srcList prepE 3 1).Nodup := by
  obtain ⟨g1, g2, g3⟩ := c5_referrer_dedup prepE 3
    (by intro x hx; fin_cases hx <;> decide) 1
  refine ⟨?_, ?_, g3⟩
  · rw [g1]
    rfl
  · rw [g2]
    rfl

/-! ### C4: the dominator computation `dom()`

`dom()` runs after the referrer pass, on the same abstraction: `n`
objects, edge targets `E x`, object sizes `sizeF x`, and a root list
`rootsL` (the distinct `e.To` values of the data/bss/frame/otherroot
edges, in the order Go's map iteration yields them — the theorems hold
for every order).  The DFS work stack `q` is kept reversed: Go pushes,
reads and pops at the slice's end, the model at the list's head. -/

/-- Reachability from a root through heap edges. -/
inductive Reaches (E : Nat → List Nat) (roots : List Nat) : Nat → Prop
  | root (r : Nat) (h : r ∈ roots) : Reaches E roots r
  | step (y z : Nat) (hy : Reaches E roots y) (hz : z ∈ E y) :
      Reaches E roots z

/-- The DFS state: object states (0 unseen, 1 queued, 2 expanded,
3 in postorder), the postorder list, the postorder numbering, and the
work stack. -/
structure DfsSt where
  stt : List Nat
  postorder : List Nat
  postnum : List Nat
  q : List Nat
deriving DecidableEq, Repr

/-- The child loop of the DFS expansion step: each unseen edge target
is marked queued and pushed. -/
def pushKids (stq : List Nat × List Nat) : List Nat → Option (List Nat × List Nat)
  | [] => some stq
  | z :: rest =>
    match stq.1[z]? with
    | none => none
    | some 0 => pushKids (stq.1.set z 1, z :: stq.2) rest
    | some _ => pushKids stq rest

/-- The DFS work loop for one root: pop expanded nodes into postorder,
expand queued ones. -/
def dfsInner (E : Nat → List Nat) : DfsSt → Nat → Option DfsSt
  | st, 0 => none
  | st, fuel + 1 =>
    match st.q with
    | [] => some st
    | y :: qrest =>
      match st.stt[y]? with
      | some 2 =>
        dfsInner E
          { stt := st.stt.set y 3,
            postorder := st.postorder ++ [y],
            postnum := st.postnum.set y st.postorder.length,
            q := qrest } fuel
      | some 1 =>
        match pushKids (st.stt.set y 2, st.q) (E y) with
        | none => none
        | some (stt2, q2) =>
          dfsInner E { st with stt := stt2, q := q2 } fuel
      | _ => none

/-- The root loop of the DFS: roots already in postorder are skipped,
any other non-fresh state is fatal. -/
def dfsOuter (E : Nat → List Nat) (fuel : Nat) :
    DfsSt → List Nat → Option DfsSt
  | st, [] => some st
  | st, r :: rest =>
    match st.stt[r]? with
    | some 0 =>
      match dfsInner E { st with stt := st.stt.set r 1, q := [r] } fuel with
      | none => none
      | some st2 => dfsOuter E fuel st2 rest
    | some 3 => dfsOuter E fuel st rest
    | _ => none

/-- The whole postorder computation of `dom()`. -/
def dfsRun (E : Nat → List Nat) (n : Nat) (rootsL : List Nat) :
    Option DfsSt :=
  dfsOuter E (2 * n + 2)
    ⟨List.replicate n 0, [], List.replicate (n + 1) 0, []⟩ rootsL

/-- The stack discipline: every stacked node is an edge target of some
expanded (state-2) node deeper in the stack, except the bottom, which
is the root that started the current traversal. -/
def stackOk (stt : List Nat) (E : Nat → List Nat) (roots : List Nat) :
    List Nat → Prop
  | [] => True
  | z :: rest =>
    ((∃ y ∈ rest, stt[y]? = some 2 ∧ z ∈ E y) ∨ (rest = [] ∧ z ∈ roots)) ∧
    stackOk stt E roots rest

lemma stackOk_congr (stt stt2 : List Nat) (E : Nat → List Nat)
    (roots : List Nat) :
    ∀ q, stackOk stt E roots q →
    (∀ w ∈ q, stt[w]? = some 2 → stt2[w]? = some 2) →
    stackOk stt2 E roots q := by
  intro q
  induction q with
  | nil =>
    intro _ _
    trivial
  | cons z rest ih =>
    intro hs hpres
    obtain ⟨hz, hrest⟩ := hs
    refine ⟨?_, ih hrest (fun w hw => hpres w (List.mem_cons_of_mem z hw))⟩
    rcases hz with ⟨y, hy, h2, hzy⟩ | hroot
    · exact Or.inl ⟨y, hy, hpres y (List.mem_cons_of_mem z hy) h2, hzy⟩
    · exact Or.inr hroot

lemma stackOk_prepend (stt : List Nat) (E : Nat → List Nat)
    (roots : List Nat) (y : Nat) (q : List Nat) (hy : y ∈ q)
    (h2 : stt[y]? = some 2) :
    ∀ ks, (∀ z ∈ ks, z ∈ E y) → stackOk stt E roots q →
    stackOk stt E roots (ks ++ q) := by
  intro ks
  induction ks with
  | nil =>
    intro _ hq
    exact hq
  | cons z ks ih =>
    intro hks hq
    refine ⟨?_, ih (fun w hw => hks w (List.mem_cons_of_mem z hw)) hq⟩
    refine Or.inl ⟨y, List.mem_append.mpr (Or.inr hy), h2,
      hks z (List.mem_cons_self z ks)⟩

/-- The DFS loop invariant. -/
structure DfsInv (E : Nat → List Nat) (roots : List Nat) (n : Nat)
    (st : DfsSt) : Prop where
  hlen : st.stt.length = n
  hplen : st.postnum.length = n + 1
  hdom : ∀ (z v : Nat), st.stt[z]? = some v → v ≤ 3
  hpost3 : ∀ z, z ∈ st.postorder ↔ st.stt[z]? = some 3
  hnodup : st.postorder.Nodup
  hpnum : ∀ (i z : Nat), st.postorder[i]? = some z → st.postnum[z]? = some i
  hq12 : ∀ z ∈ st.q, st.stt[z]? = some 1 ∨ st.stt[z]? = some 2
  h12q : ∀ z, (st.stt[z]? = some 1 ∨ st.stt[z]? = some 2) → z ∈ st.q
  hqnodup : st.q.Nodup
  hstack : stackOk st.stt E roots st.q
  hexp : ∀ y, (st.stt[y]? = some 2 ∨ st.stt[y]? = some 3) →
    ∀ z ∈ E y, ¬ st.stt[z]? = some 0
  hreach : ∀ z, ¬ st.stt[z]? = some 0 → z < n → Reaches E roots z
  hparent : ∀ x ∈ st.postorder, x ∈ roots ∨
    ∃ p, x ∈ E p ∧
      ((∃ (i j : Nat), st.postorder[i]? = some x ∧ st.postorder[j]? = some p ∧
        i < j) ∨
       (p ∈ st.q ∧ st.stt[p]? = some 2))

lemma pushKids_spec :
    ∀ (ts : List Nat) (stt0 q0 : List Nat) (out : List Nat × List Nat),
    pushKids (stt0, q0) ts = some out →
    out.1.length = stt0.length ∧
    (∀ (z v : Nat), stt0[z]? = some v → v ≠ 0 → out.1[z]? = some v) ∧
    (∃ ks, out.2 = ks ++ q0 ∧ ks.Nodup ∧
      (∀ z ∈ ks, stt0[z]? = some 0 ∧ z ∈ ts ∧ out.1[z]? = some 1) ∧
      (∀ (z v : Nat), out.1[z]? = some v →
        stt0[z]? = some v ∨ (v = 1 ∧ stt0[z]? = some 0 ∧ z ∈ ks))) ∧
    (∀ z ∈ ts, ¬ out.1[z]? = some 0) := by
  intro ts
  induction ts with
  | nil =>
    intro stt0 q0 out h
    rw [pushKids] at h
    cases h
    refine ⟨rfl, fun z v hv _ => hv,
      ⟨[], rfl, List.nodup_nil, fun z hz => absurd hz (List.not_mem_nil z),
        fun z v hv => Or.inl hv⟩,
      fun z hz => absurd hz (List.not_mem_nil z)⟩
  | cons z0 rest ih =>
    intro stt0 q0 out h
    rw [pushKids] at h
    rcases h0 : stt0[z0]? with _ | v0 <;> simp only [h0] at h
    · exact Option.noConfusion h
    rcases v0 with _ | v1
    · -- fresh kid: marked 1 and pushed
      have hz0lt : z0 < stt0.length := by
        by_contra hge
        rw [List.getElem?_eq_none (by omega)] at h0
        exact Option.noConfusion h0
      obtain ⟨l1, l2, ⟨ks, hks, hksnd, hksall, l3⟩, l5⟩ :=
        ih (stt0.set z0 1) (z0 :: q0) out h
      have hset0 : (stt0.set z0 1)[z0]? = some 1 := by
        rw [List.getElem?_set_eq hz0lt]
      refine ⟨?_, ?_, ?_, ?_⟩
      · rw [l1]
        simp
      · intro z v hv hv0
        by_cases hz : z = z0
        · rw [hz, h0] at hv
          cases hv
          exact absurd rfl hv0
        · refine l2 z v ?_ hv0
          rw [List.getElem?_set_ne (fun he => hz he.symm)]
          exact hv
      · refine ⟨ks ++ [z0], by rw [hks]; simp, ?_, ?_, ?_⟩
        · rw [List.nodup_append]
          refine ⟨hksnd, List.nodup_singleton z0, ?_⟩
          intro w hw hw0
          have hw1 : w = z0 := by simpa using hw0
          subst hw1
          have h9 := (hksall w hw).1
          rw [hset0] at h9
          simp at h9
        · intro w hw
          rcases List.mem_append.mp hw with h1 | h1
          · obtain ⟨a1, a2, a3⟩ := hksall w h1
            refine ⟨?_, List.mem_cons_of_mem z0 a2, a3⟩
            by_cases hz : w = z0
            · subst hz
              rw [hset0] at a1
              simp at a1
            · rw [List.getElem?_set_ne (fun he => hz he.symm)] at a1
              exact a1
          · have hw1 : w = z0 := by simpa using h1
            subst hw1
            refine ⟨h0, List.mem_cons_self w rest, ?_⟩
            exact l2 w 1 hset0 (by omega)
        · intro z v hv
          rcases l3 z v hv with h1 | ⟨h1, h2, h3⟩
          · by_cases hz : z = z0
            · subst hz
              rw [hset0] at h1
              cases h1
              exact Or.inr ⟨rfl, h0, List.mem_append.mpr
                (Or.inr (List.mem_singleton.mpr rfl))⟩
            · rw [List.getElem?_set_ne (fun he => hz he.symm)] at h1
              exact Or.inl h1
          · by_cases hz : z = z0
            · subst hz
              rw [hset0] at h2
              simp at h2
            · rw [List.getElem?_set_ne (fun he => hz he.symm)] at h2
              exact Or.inr ⟨h1, h2, List.mem_append.mpr (Or.inl h3)⟩
      · intro w hw
        rcases List.mem_cons.mp hw with h1 | h1
        · subst h1
          intro hc
          have h9 := l2 w 1 hset0 (by omega)
          rw [h9] at hc
          simp at hc
        · exact l5 w h1
    · -- already seen: skipped
      obtain ⟨l1, l2, ⟨ks, hks, hksnd, hksall, l3⟩, l5⟩ := ih stt0 q0 out h
      refine ⟨l1, l2, ?_, ?_⟩
      · refine ⟨ks, hks, hksnd, ?_, ?_⟩
        · intro w hw
          obtain ⟨a1, a2, a3⟩ := hksall w hw
          exact ⟨a1, List.mem_cons_of_mem z0 a2, a3⟩
        · exact l3
      · intro w hw
        rcases List.mem_cons.mp hw with h1 | h1
        · subst h1
          intro hc
          have h9 := l2 w (v1 + 1) h0 (by omega)
          rw [h9] at hc
          simp at hc
        · exact l5 w h1

lemma lt_of_get (l : List Nat) (i v : Nat) (h : l[i]? = some v) :
    i < l.length := by
  by_contra hge
  rw [List.getElem?_eq_none (Nat.le_of_not_lt hge)] at h
  exact Option.noConfusion h

lemma dfsInner_spec (E : Nat → List Nat) (roots : List Nat) (n : Nat) :
    ∀ (fuel : Nat) (st st' : DfsSt),
    dfsInner E st fuel = some st' → DfsInv E roots n st →
    DfsInv E roots n st' ∧ st'.q = [] ∧
    (∃ Δ, st'.postorder = st.postorder ++ Δ ∧ ∀ z ∈ st.q, z ∈ Δ) ∧
    (∀ (z : Nat), st.stt[z]? = some 3 → st'.stt[z]? = some 3) := by
  intro fuel
  induction fuel with
  | zero =>
    intro st st' h
    exact absurd h (by rw [dfsInner]; exact fun hc => Option.noConfusion hc)
  | succ fuel ih =>
    intro st st' h inv
    rw [dfsInner] at h
    rcases hq : st.q with _ | ⟨y, qrest⟩ <;> simp only [hq] at h
    · cases h
      refine ⟨inv, hq, ⟨[], by simp, ?_⟩, fun z hz => hz⟩
      intro z hz
      exact absurd hz (List.not_mem_nil z)
    rcases hy : st.stt[y]? with _ | v <;> simp only [hy] at h
    · exact Option.noConfusion h
    have hyn : y < n := by
      have hl := lt_of_get st.stt y v hy
      rw [inv.hlen] at hl
      exact hl
    have hyq : y ∈ st.q := by
      rw [hq]
      exact List.mem_cons_self y qrest
    have hqnd := inv.hqnodup
    rw [hq] at hqnd
    have hynotqrest : y ∉ qrest := (List.nodup_cons.mp hqnd).1
    have hqrestnd : qrest.Nodup := (List.nodup_cons.mp hqnd).2
    have hstk := inv.hstack
    rw [hq] at hstk
    have hq12c : ∀ z ∈ y :: qrest,
        st.stt[z]? = some 1 ∨ st.stt[z]? = some 2 := by
      rw [← hq]
      exact inv.hq12
    have h12qc : ∀ (z : Nat),
        (st.stt[z]? = some 1 ∨ st.stt[z]? = some 2) → z ∈ y :: qrest := by
      rw [← hq]
      exact inv.h12q
    have hyqc : y ∈ y :: qrest := List.mem_cons_self y qrest
    rcases v with _ | _ | _ | v3
    · exact Option.noConfusion h
    · -- expand: y goes 1 → 2 and its unseen kids are pushed
      rcases hpk : pushKids (st.stt.set y 2, y :: qrest) (E y)
        with _ | ⟨stt2, q2⟩ <;> simp only [hpk] at h
      · exact Option.noConfusion h
      obtain ⟨l1, l2, ⟨ks, hks, hksnd, hksall, l3⟩, l5⟩ :=
        pushKids_spec (E y) (st.stt.set y 2) (y :: qrest) (stt2, q2) hpk
      dsimp only at l1 l2 hks hksall l3 l5
      have hset2 : (st.stt.set y 2)[y]? = some 2 := by
        rw [List.getElem?_set_eq (by rw [inv.hlen]; exact hyn)]
      have hpres : ∀ (z v2 : Nat), z ≠ y → st.stt[z]? = some v2 → v2 ≠ 0 →
          stt2[z]? = some v2 := by
        intro z v2 hz hv hv0
        refine l2 z v2 ?_ hv0
        rw [List.getElem?_set_ne (fun he => hz he.symm)]
        exact hv
      have hback : ∀ (z v2 : Nat), stt2[z]? = some v2 → z ≠ y →
          st.stt[z]? = some v2 ∨ (v2 = 1 ∧ st.stt[z]? = some 0 ∧ z ∈ ks) := by
        intro z v2 hv hz
        rcases l3 z v2 hv with h1 | ⟨h1, h2, h3⟩
        · rw [List.getElem?_set_ne (fun he => hz he.symm)] at h1
          exact Or.inl h1
        · rw [List.getElem?_set_ne (fun he => hz he.symm)] at h2
          exact Or.inr ⟨h1, h2, h3⟩
      have hy2 : stt2[y]? = some 2 := l2 y 2 hset2 (by omega)
      have hksE : ∀ z ∈ ks, z ∈ E y := fun z hz => (hksall z hz).2.1
      have hks0 : ∀ z ∈ ks, st.stt[z]? = some 0 := by
        intro z hz
        have h1 := (hksall z hz).1
        have hzy : z ≠ y := by
          intro he
          rw [he, hset2] at h1
          simp at h1
        rw [List.getElem?_set_ne (fun he => hzy he.symm)] at h1
        exact h1
      have inv2 : DfsInv E roots n ⟨stt2, st.postorder, st.postnum, q2⟩ := by
        refine ⟨?_, ?_, ?_, ?_, ?_, ?_, ?_, ?_, ?_, ?_, ?_, ?_, ?_⟩
        · show stt2.length = n
          rw [l1]
          simp only [List.length_set]
          exact inv.hlen
        · exact inv.hplen
        · intro z v2 hv
          rcases l3 z v2 hv with h1 | ⟨h1, _, _⟩
          · by_cases hz : z = y
            · subst hz
              rw [hset2] at h1
              cases h1
              omega
            · rw [List.getElem?_set_ne (fun he => hz he.symm)] at h1
              exact inv.hdom z v2 h1
          · omega
        · intro z
          show z ∈ st.postorder ↔ stt2[z]? = some 3
          constructor
          · intro hm
            have h3 := (inv.hpost3 z).mp hm
            have hzy : z ≠ y := by
              intro he
              rw [he, hy] at h3
              simp at h3
            exact hpres z 3 hzy h3 (by omega)
          · intro hm
            have hzy : z ≠ y := by
              intro he
              rw [he, hy2] at hm
              simp at hm
            rcases hback z 3 hm hzy with h1 | ⟨h1, _, _⟩
            · exact (inv.hpost3 z).mpr h1
            · omega
        · exact inv.hnodup
        · exact inv.hpnum
        · intro z hz
          show stt2[z]? = some 1 ∨ stt2[z]? = some 2
          rw [hks] at hz
          rcases List.mem_append.mp hz with h1 | h1
          · exact Or.inl (hksall z h1).2.2
          · by_cases hzy : z = y
            · subst hzy
              exact Or.inr hy2
            · have h12 := hq12c z h1
              rcases h12 with h2 | h2
              · exact Or.inl (hpres z 1 hzy h2 (by omega))
              · exact Or.inr (hpres z 2 hzy h2 (by omega))
        · intro z hz
          show z ∈ q2
          rw [hks]
          by_cases hzy : z = y
          · subst hzy
            exact List.mem_append.mpr (Or.inr (List.mem_cons_self z qrest))
          · rcases hz with h2 | h2
            · rcases hback z 1 h2 hzy with h1 | ⟨_, _, h3⟩
              · exact List.mem_append.mpr (Or.inr (h12qc z (Or.inl h1)))
              · exact List.mem_append.mpr (Or.inl h3)
            · rcases hback z 2 h2 hzy with h1 | ⟨h1, _, _⟩
              · exact List.mem_append.mpr (Or.inr (h12qc z (Or.inr h1)))
              · omega
        · show q2.Nodup
          rw [hks, List.nodup_append]
          refine ⟨hksnd, hqnd, ?_⟩
          intro w hw hw2
          have h0 := hks0 w hw
          rcases hq12c w hw2 with h2 | h2 <;> rw [h0] at h2 <;> simp at h2
        · show stackOk stt2 E roots q2
          rw [hks]
          have hsk2 : stackOk stt2 E roots (y :: qrest) := by
            refine stackOk_congr st.stt stt2 E roots (y :: qrest) hstk ?_
            intro w hw h2
            have hwy : w ≠ y := by
              intro he
              rw [he, hy] at h2
              simp at h2
            exact hpres w 2 hwy h2 (by omega)
          exact stackOk_prepend stt2 E roots y (y :: qrest) hyqc hy2 ks hksE hsk2
        · intro y2 hy2c z hz
          show ¬ stt2[z]? = some 0
          intro hz0
          by_cases hy2y : y2 = y
          · subst hy2y
            exact l5 z hz hz0
          have hzy : z ≠ y := by
            intro he
            rw [he, hy2] at hz0
            simp at hz0
          have hz0old : st.stt[z]? = some 0 := by
            rcases hback z 0 hz0 hzy with h1 | ⟨h1, _, _⟩
            · exact h1
            · omega
          have hy2old : st.stt[y2]? = some 2 ∨ st.stt[y2]? = some 3 := by
            rcases hy2c with h2 | h2
            · rcases hback y2 2 h2 hy2y with h1 | ⟨h1, _, _⟩
              · exact Or.inl h1
              · omega
            · rcases hback y2 3 h2 hy2y with h1 | ⟨h1, _, _⟩
              · exact Or.inr h1
              · omega
          exact inv.hexp y2 hy2old z hz hz0old
        · intro z hz0 hzn
          show Reaches E roots z
          by_cases hzy : z = y
          · subst hzy
            exact inv.hreach z (by rw [hy]; exact fun hc => by simp at hc) hzn
          · by_cases hold : st.stt[z]? = some 0
            · -- freshly pushed kid of y
              rcases hstt2z : stt2[z]? with _ | v2
              · have hlen2 : stt2.length = n := by
                  rw [l1]
                  simp only [List.length_set]
                  exact inv.hlen
                have hge := List.getElem?_eq_none_iff.mp hstt2z
                omega
              · rcases hback z v2 hstt2z hzy with h1 | ⟨h1, h2, h3⟩
                · rw [hold] at h1
                  cases h1
                  exact absurd hstt2z hz0
                · subst h1
                  exact Reaches.step y z
                    (inv.hreach y (by rw [hy]; simp) hyn) (hksE z h3)
            · exact inv.hreach z hold hzn
        · intro x hx
          rcases inv.hparent x hx with hroot | ⟨p, hxp, hwit⟩
          · exact Or.inl hroot
          · refine Or.inr ⟨p, hxp, ?_⟩
            rcases hwit with hpost | ⟨hpq, hp2⟩
            · exact Or.inl hpost
            · have hpy : p ≠ y := by
                intro he
                rw [he, hy] at hp2
                simp at hp2
              refine Or.inr ⟨?_, hpres p 2 hpy hp2 (by omega)⟩
              show p ∈ q2
              rw [hks]
              exact List.mem_append.mpr (Or.inr (hq ▸ hpq))
      obtain ⟨inv3, hq3, ⟨Δ, hΔ, hcov⟩, hm3⟩ :=
        ih ⟨stt2, st.postorder, st.postnum, q2⟩ st' h inv2
      refine ⟨inv3, hq3, ⟨Δ, hΔ, ?_⟩, ?_⟩
      · intro z hz
        refine hcov z ?_
        show z ∈ q2
        rw [hks]
        exact List.mem_append.mpr (Or.inr hz)
      · intro z hz3
        refine hm3 z ?_
        have hzy : z ≠ y := by
          intro he
          rw [he, hy] at hz3
          simp at hz3
        exact hpres z 3 hzy hz3 (by omega)
    · -- pop: y goes 2 → 3 and is appended to postorder
      have hynotpost : y ∉ st.postorder := by
        intro hm
        have h3 := (inv.hpost3 y).mp hm
        rw [hy] at h3
        simp at h3
      have inv2 : DfsInv E roots n ⟨st.stt.set y 3,
          st.postorder ++ [y], st.postnum.set y st.postorder.length,
          qrest⟩ := by
        refine ⟨?_, ?_, ?_, ?_, ?_, ?_, ?_, ?_, ?_, ?_, ?_, ?_, ?_⟩
        · show (st.stt.set y 3).length = n
          simp only [List.length_set]
          exact inv.hlen
        · show (st.postnum.set y st.postorder.length).length = n + 1
          simp only [List.length_set]
          exact inv.hplen
        · intro z v2 hv
          by_cases hz : z = y
          · subst hz
            rw [List.getElem?_set_eq (by rw [inv.hlen]; exact hyn)] at hv
            cases hv
            omega
          · rw [List.getElem?_set_ne (fun he => hz he.symm)] at hv
            exact inv.hdom z v2 hv
        · intro z
          show z ∈ st.postorder ++ [y] ↔ (st.stt.set y 3)[z]? = some 3
          constructor
          · intro hm
            rcases List.mem_append.mp hm with h1 | h1
            · have h3 := (inv.hpost3 z).mp h1
              have hzy : z ≠ y := fun he => hynotpost (he ▸ h1)
              rw [List.getElem?_set_ne (fun he => hzy he.symm)]
              exact h3
            · have hzy : z = y := by simpa using h1
              subst hzy
              rw [List.getElem?_set_eq (by rw [inv.hlen]; exact hyn)]
          · intro hm
            by_cases hzy : z = y
            · subst hzy
              exact List.mem_append.mpr (Or.inr (List.mem_singleton.mpr rfl))
            · rw [List.getElem?_set_ne (fun he => hzy he.symm)] at hm
              exact List.mem_append.mpr (Or.inl ((inv.hpost3 z).mpr hm))
        · show (st.postorder ++ [y]).Nodup
          rw [List.nodup_append]
          exact ⟨inv.hnodup, List.nodup_singleton y, by
            intro w hw hwy
            have : w = y := by simpa using hwy
            subst this
            exact hynotpost hw⟩
        · intro i z hi
          show (st.postnum.set y st.postorder.length)[z]? = some i
          by_cases hilen : i < st.postorder.length
          · rw [List.getElem?_append_left hilen] at hi
            have hz : z ∈ st.postorder := List.getElem?_mem hi
            have hzy : z ≠ y := fun he => hynotpost (he ▸ hz)
            rw [List.getElem?_set_ne (fun he => hzy he.symm)]
            exact inv.hpnum i z hi
          · have hlen2 : i < st.postorder.length + 1 := by
              have := lt_of_get (st.postorder ++ [y]) i z hi
              simp only [List.length_append, List.length_singleton] at this
              omega
            have hieq : i = st.postorder.length := by omega
            subst hieq
            rw [List.getElem?_append_right (Nat.le_refl _)] at hi
            simp only [Nat.sub_self] at hi
            have hzy : y = z := by simpa using hi
            subst hzy
            rw [List.getElem?_set_eq (by rw [inv.hplen]; omega)]
        · intro z hz
          show (st.stt.set y 3)[z]? = some 1 ∨ (st.stt.set y 3)[z]? = some 2
          have hzy : z ≠ y := fun he => hynotqrest (he ▸ hz)
          rw [List.getElem?_set_ne (fun he => hzy he.symm)]
          exact inv.hq12 z (by rw [hq]; exact List.mem_cons_of_mem y hz)
        · intro z hz
          show z ∈ qrest
          by_cases hzy : z = y
          · subst hzy
            rw [List.getElem?_set_eq (by rw [inv.hlen]; exact hyn)] at hz
            rcases hz with h1 | h1 <;> simp at h1
          · rw [List.getElem?_set_ne (fun he => hzy he.symm)] at hz
            have := inv.h12q z hz
            rw [hq] at this
            rcases List.mem_cons.mp this with h1 | h1
            · exact absurd h1 hzy
            · exact h1
        · exact hqrestnd
        · show stackOk (st.stt.set y 3) E roots qrest
          refine stackOk_congr st.stt _ E roots qrest hstk.2 ?_
          intro w hw h2
          have hwy : w ≠ y := fun he => hynotqrest (he ▸ hw)
          rw [List.getElem?_set_ne (fun he => hwy he.symm)]
          exact h2
        · intro y2 hy2c z hz
          show ¬ (st.stt.set y 3)[z]? = some 0
          intro hz0
          have hzy : z ≠ y := by
            intro he
            subst he
            rw [List.getElem?_set_eq (by rw [inv.hlen]; exact hyn)] at hz0
            simp at hz0
          rw [List.getElem?_set_ne (fun he => hzy he.symm)] at hz0
          have hy2old : st.stt[y2]? = some 2 ∨ st.stt[y2]? = some 3 := by
            by_cases hy2y : y2 = y
            · subst hy2y
              exact Or.inl hy
            · rcases hy2c with h2 | h2 <;>
                rw [List.getElem?_set_ne (fun he => hy2y he.symm)] at h2
              · exact Or.inl h2
              · exact Or.inr h2
          exact inv.hexp y2 hy2old z hz hz0
        · intro z hz0 hzn
          show Reaches E roots z
          by_cases hzy : z = y
          · subst hzy
            exact inv.hreach z (by rw [hy]; simp) hzn
          · refine inv.hreach z ?_ hzn
            intro hc
            refine hz0 ?_
            rw [List.getElem?_set_ne (fun he => hzy he.symm)]
            exact hc
        · intro x hx
          rcases List.mem_append.mp hx with h1 | h1
          · rcases inv.hparent x h1 with hroot | ⟨p, hxp, hwit⟩
            · exact Or.inl hroot
            · refine Or.inr ⟨p, hxp, ?_⟩
              rcases hwit with ⟨i, j, hi, hj, hij⟩ | ⟨hpq, hp2⟩
              · refine Or.inl ⟨i, j, ?_, ?_, hij⟩
                · rw [List.getElem?_append_left (lt_of_get _ i x hi)]
                  exact hi
                · rw [List.getElem?_append_left (lt_of_get _ j p hj)]
                  exact hj
              · rw [hq] at hpq
                rcases List.mem_cons.mp hpq with hpy | hpq2
                · subst hpy
                  obtain ⟨i, hi⟩ := List.getElem?_of_mem h1
                  refine Or.inl ⟨i, st.postorder.length, ?_, ?_, ?_⟩
                  · rw [List.getElem?_append_left (lt_of_get _ i x hi)]
                    exact hi
                  · rw [List.getElem?_append_right (Nat.le_refl _)]
                    simp
                  · exact lt_of_get _ i x hi
                · refine Or.inr ⟨hpq2, ?_⟩
                  have hpy : p ≠ y := fun he => hynotqrest (he ▸ hpq2)
                  rw [List.getElem?_set_ne (fun he => hpy he.symm)]
                  exact hp2
          · have hxy : y = x := by
              have h9 : x = y := by simpa using h1
              exact h9.symm
            subst hxy
            rcases hstk.1 with ⟨w, hw, hw2, hxw⟩ | ⟨_, hroot⟩
            · refine Or.inr ⟨w, hxw, Or.inr ⟨hw, ?_⟩⟩
              have hwy : w ≠ y := fun he => hynotqrest (he ▸ hw)
              rw [List.getElem?_set_ne (fun he => hwy he.symm)]
              exact hw2
            · exact Or.inl hroot
      obtain ⟨inv3, hq3, ⟨Δ, hΔ, hcov⟩, hm3⟩ :=
        ih ⟨st.stt.set y 3, st.postorder ++ [y],
          st.postnum.set y st.postorder.length, qrest⟩ st' h inv2
      refine ⟨inv3, hq3, ⟨y :: Δ, ?_, ?_⟩, ?_⟩
      · rw [hΔ]
        simp
      · intro z hz
        have hz2 : z ∈ y :: qrest := hq ▸ hz
        rcases List.mem_cons.mp hz2 with h1 | h1
        · subst h1
          exact List.mem_cons_self z Δ
        · exact List.mem_cons_of_mem y (hcov z h1)
      · intro z hz3
        refine hm3 z ?_
        show (st.stt.set y 3)[z]? = some 3
        by_cases hzy : z = y
        · subst hzy
          rw [List.getElem?_set_eq (by rw [inv.hlen]; exact hyn)]
        · rw [List.getElem?_set_ne (fun he => hzy he.symm)]
          exact hz3
    · exact Option.noConfusion h

lemma dfsOuter_spec (E : Nat → List Nat) (roots : List Nat) (n fuel : Nat) :
    ∀ (rem : List Nat) (st st' : DfsSt),
    dfsOuter E fuel st rem = some st' →
    DfsInv E roots n st → st.q = [] → (∀ r ∈ rem, r ∈ roots) →
    DfsInv E roots n st' ∧ st'.q = [] ∧
    (∃ Δ, st'.postorder = st.postorder ++ Δ) ∧
    (∀ r ∈ rem, st'.stt[r]? = some 3) ∧
    (∀ (z : Nat), st.stt[z]? = some 3 → st'.stt[z]? = some 3) := by
  intro rem
  induction rem with
  | nil =>
    intro st st' h inv hq0 _
    rw [dfsOuter] at h
    cases h
    exact ⟨inv, hq0, ⟨[], by simp⟩,
      fun r hr => absurd hr (List.not_mem_nil r), fun z hz => hz⟩
  | cons r rest ih =>
    intro st st' h inv hq0 hrem
    rw [dfsOuter] at h
    rcases hr : st.stt[r]? with _ | v <;> simp only [hr] at h
    · exact Option.noConfusion h
    have hrn : r < n := by
      have hl := lt_of_get st.stt r v hr
      rw [inv.hlen] at hl
      exact hl
    rcases v with _ | _ | _ | _ | v4
    · -- fresh root: run the inner DFS from r
      rcases hin : dfsInner E { st with stt := st.stt.set r 1, q := [r] }
          fuel with _ | st2 <;> simp only [hin] at h
      · exact Option.noConfusion h
      have hrroots : r ∈ roots := hrem r (List.mem_cons_self r rest)
      have hrnotpost : r ∉ st.postorder := by
        intro hm
        have h3 := (inv.hpost3 r).mp hm
        rw [hr] at h3
        simp at h3
      have inv1 : DfsInv E roots n
          { st with stt := st.stt.set r 1, q := [r] } := by
        refine ⟨?_, ?_, ?_, ?_, ?_, ?_, ?_, ?_, ?_, ?_, ?_, ?_, ?_⟩
        · show (st.stt.set r 1).length = n
          simp only [List.length_set]
          exact inv.hlen
        · exact inv.hplen
        · intro z v2 hv
          by_cases hz : z = r
          · subst hz
            rw [List.getElem?_set_eq (by rw [inv.hlen]; exact hrn)] at hv
            cases hv
            omega
          · rw [List.getElem?_set_ne (fun he => hz he.symm)] at hv
            exact inv.hdom z v2 hv
        · intro z
          show z ∈ st.postorder ↔ (st.stt.set r 1)[z]? = some 3
          by_cases hz : z = r
          · subst hz
            rw [List.getElem?_set_eq (by rw [inv.hlen]; exact hrn)]
            constructor
            · intro hm
              exact absurd hm hrnotpost
            · intro hm
              simp at hm
          · rw [List.getElem?_set_ne (fun he => hz he.symm)]
            exact inv.hpost3 z
        · exact inv.hnodup
        · exact inv.hpnum
        · intro z hz
          have hzr : z = r := by simpa using hz
          subst hzr
          show (st.stt.set z 1)[z]? = some 1 ∨ _
          exact Or.inl (by
            rw [List.getElem?_set_eq (by rw [inv.hlen]; exact hrn)])
        · intro z hz
          show z ∈ [r]
          by_cases hzr : z = r
          · subst hzr
            exact List.mem_singleton.mpr rfl
          · rcases hz with h2 | h2 <;>
              rw [List.getElem?_set_ne (fun he => hzr he.symm)] at h2
            · have := inv.h12q z (Or.inl h2)
              rw [hq0] at this
              exact absurd this (List.not_mem_nil z)
            · have := inv.h12q z (Or.inr h2)
              rw [hq0] at this
              exact absurd this (List.not_mem_nil z)
        · exact List.nodup_singleton r
        · exact ⟨Or.inr ⟨rfl, hrroots⟩, trivial⟩
        · intro y2 hy2c z hz
          show ¬ (st.stt.set r 1)[z]? = some 0
          intro hz0
          have hy2r : y2 ≠ r := by
            intro he
            subst he
            rcases hy2c with h2 | h2 <;>
              rw [List.getElem?_set_eq (by rw [inv.hlen]; exact hrn)] at h2 <;>
              simp at h2
          have hzr : z ≠ r := by
            intro he
            subst he
            rw [List.getElem?_set_eq (by rw [inv.hlen]; exact hrn)] at hz0
            simp at hz0
          rw [List.getElem?_set_ne (fun he => hzr he.symm)] at hz0
          rcases hy2c with h2 | h2 <;>
            rw [List.getElem?_set_ne (fun he => hy2r he.symm)] at h2
          · exact inv.hexp y2 (Or.inl h2) z hz hz0
          · exact inv.hexp y2 (Or.inr h2) z hz hz0
        · intro z hz0 hzn
          by_cases hzr : z = r
          · subst hzr
            exact Reaches.root z hrroots
          · refine inv.hreach z ?_ hzn
            intro hc
            refine hz0 ?_
            rw [List.getElem?_set_ne (fun he => hzr he.symm)]
            exact hc
        · intro x hx
          rcases inv.hparent x hx with hroot | ⟨p, hxp, hwit⟩
          · exact Or.inl hroot
          · refine Or.inr ⟨p, hxp, ?_⟩
            rcases hwit with hpost | ⟨hpq, _⟩
            · exact Or.inl hpost
            · rw [hq0] at hpq
              exact absurd hpq (List.not_mem_nil p)
      obtain ⟨inv2, hq2, ⟨Δ1, hΔ1, hcov1⟩, hm1⟩ :=
        dfsInner_spec E roots n fuel _ st2 hin inv1
      have hr3 : st2.stt[r]? = some 3 := by
        have hrpost : r ∈ st2.postorder := by
          rw [hΔ1]
          refine List.mem_append.mpr (Or.inr ?_)
          exact hcov1 r (List.mem_singleton.mpr rfl)
        exact (inv2.hpost3 r).mp hrpost
      obtain ⟨inv3, hq3, ⟨Δ2, hΔ2⟩, hrest3, hm2⟩ :=
        ih st2 st' h inv2 hq2
          (fun r2 hr2 => hrem r2 (List.mem_cons_of_mem r hr2))
      refine ⟨inv3, hq3, ⟨Δ1 ++ Δ2, ?_⟩, ?_, ?_⟩
      · rw [hΔ2, hΔ1]
        dsimp only
        exact List.append_assoc _ _ _
      · intro r2 hr2
        rcases List.mem_cons.mp hr2 with h1 | h1
        · subst h1
          exact hm2 r2 hr3
        · exact hrest3 r2 h1
      · intro z hz
        refine hm2 z ?_
        have hzr : z ≠ r := by
          intro he
          subst he
          rw [hr] at hz
          simp at hz
        refine hm1 z ?_
        show (st.stt.set r 1)[z]? = some 3
        rw [List.getElem?_set_ne (fun he => hzr he.symm)]
        exact hz
    · exact Option.noConfusion h
    · exact Option.noConfusion h
    · -- root already in postorder: skipped
      obtain ⟨inv3, hq3, hΔ, hrest3, hm2⟩ := ih st st' h inv hq0
        (fun r2 hr2 => hrem r2 (List.mem_cons_of_mem r hr2))
      refine ⟨inv3, hq3, hΔ, ?_, hm2⟩
      intro r2 hr2
      rcases List.mem_cons.mp hr2 with h1 | h1
      · subst h1
        exact hm2 r2 hr
      · exact hrest3 r2 h1
    · exact Option.noConfusion h

/-- The DFS output: `postorder` is exactly the set of objects reachable
from the roots, without duplicates, `postnum` is the postorder index,
and every non-root entry has an incoming edge from a later entry. -/
lemma dfsRun_spec (E : Nat → List Nat) (n : Nat) (rootsL : List Nat)
    (st' : DfsSt) (h : dfsRun E n rootsL = some st')
    (hE : ∀ x, x < n → ∀ t ∈ E x, t < n)
    (hroots : ∀ r ∈ rootsL, r < n) :
    (∀ z, z ∈ st'.postorder ↔ (z < n ∧ Reaches E rootsL z)) ∧
    st'.postorder.Nodup ∧
    (∀ (i z : Nat), st'.postorder[i]? = some z → st'.postnum[z]? = some i) ∧
    st'.postnum.length = n + 1 ∧
    (∀ x ∈ st'.postorder, x ∉ rootsL →
      ∃ p, x ∈ E p ∧ ∃ (i j : Nat), st'.postorder[i]? = some x ∧
        st'.postorder[j]? = some p ∧ i < j) := by
  have inv0 : DfsInv E rootsL n
      ⟨List.replicate n 0, [], List.replicate (n + 1) 0, []⟩ := by
    have hst0 : ∀ (z v : Nat),
        (List.replicate n (0 : Nat))[z]? = some v → v = 0 := by
      intro z v hv
      rw [List.getElem?_replicate] at hv
      by_cases hz : z < n
      · rw [if_pos hz] at hv
        cases hv
        rfl
      · rw [if_neg hz] at hv
        exact Option.noConfusion hv
    refine ⟨?_, ?_, ?_, ?_, ?_, ?_, ?_, ?_, ?_, ?_, ?_, ?_, ?_⟩
    · simp
    · simp
    · intro z v hv
      have := hst0 z v hv
      omega
    · intro z
      constructor
      · intro hm
        exact absurd hm (List.not_mem_nil z)
      · intro hm
        have := hst0 z 3 hm
        omega
    · exact List.nodup_nil
    · intro i z hi
      exact absurd hi (by rw [List.getElem?_eq_none (by simp)]; simp)
    · intro z hz
      exact absurd hz (List.not_mem_nil z)
    · intro z hz
      rcases hz with h2 | h2
      · have := hst0 z 1 h2
        omega
      · have := hst0 z 2 h2
        omega
    · exact List.nodup_nil
    · trivial
    · intro y2 hy2 z hz
      rcases hy2 with h2 | h2
      · have := hst0 y2 2 h2
        omega
      · have := hst0 y2 3 h2
        omega
    · intro z hz0 hzn
      exact absurd (by
        rw [List.getElem?_replicate, if_pos hzn] : (List.replicate n (0 : Nat))[z]? = some 0) hz0
    · intro x hx
      exact absurd hx (List.not_mem_nil x)
  obtain ⟨inv', hq', _, hroots3, _⟩ :=
    dfsOuter_spec E rootsL n (2 * n + 2) rootsL _ st' h inv0 rfl
      (fun r hr => hr)
  have hlen' : st'.stt.length = n := inv'.hlen
  have hpostlt : ∀ z ∈ st'.postorder, z < n := by
    intro z hz
    have h3 := (inv'.hpost3 z).mp hz
    have := lt_of_get st'.stt z 3 h3
    omega
  have hs : ∀ w, Reaches E rootsL w → w < n ∧ w ∈ st'.postorder := by
    intro w hw
    induction hw with
    | root r hr =>
      exact ⟨hroots r hr, (inv'.hpost3 r).mpr (hroots3 r hr)⟩
    | step y z2 hy hz2 ihy =>
      obtain ⟨hyn, hypost⟩ := ihy
      have hzn2 : z2 < n := hE y hyn z2 hz2
      have h3y := (inv'.hpost3 y).mp hypost
      have hnz0 := inv'.hexp y (Or.inr h3y) z2 hz2
      rcases hv : st'.stt[z2]? with _ | v
      · rw [List.getElem?_eq_none_iff] at hv
        omega
      · have hdomv := inv'.hdom z2 v hv
        have hvne : v ≠ 0 := by
          intro he
          subst he
          exact hnz0 hv
        have hv12 : ¬(v = 1 ∨ v = 2) := by
          intro hc
          have hzq : z2 ∈ st'.q := by
            refine inv'.h12q z2 ?_
            rcases hc with hc | hc <;> subst hc
            · exact Or.inl hv
            · exact Or.inr hv
          rw [hq'] at hzq
          exact absurd hzq (List.not_mem_nil z2)
        have hv3 : v = 3 := by omega
        subst hv3
        exact ⟨hzn2, (inv'.hpost3 z2).mpr hv⟩
  refine ⟨?_, inv'.hnodup, inv'.hpnum, inv'.hplen, ?_⟩
  · intro z
    constructor
    · intro hz
      refine ⟨hpostlt z hz, ?_⟩
      have h3 := (inv'.hpost3 z).mp hz
      refine inv'.hreach z ?_ (hpostlt z hz)
      rw [h3]
      simp
    · intro hzr
      exact (hs z hzr.2).2
  · intro x hx hxroot
    rcases inv'.hparent x hx with hroot | ⟨p, hxp, hwit⟩
    · exact absurd hroot hxroot
    · refine ⟨p, hxp, ?_⟩
      rcases hwit with hpost | ⟨hpq, _⟩
      · exact hpost
      · rw [hq'] at hpq
        exact absurd hpq (List.not_mem_nil p)

/-- The intersect walk of the CHK dominator algorithm: the side with
the smaller postorder number moves to its immediate dominator until
the sides meet.  `postnum[ObjNil]` (index `-1`) is a panic, hence
`none`; fuel exhaustion models the non-terminating walks reached from
corrupted idom chains. -/
def intersectW (idomA : List ObjId) (pnum : List Nat) :
    ObjId → ObjId → Nat → Option ObjId
  | _, _, 0 => none
  | a, b, fuel + 1 =>
    if a = b then some a
    else
      match a, b with
      | .id ia, .id ib =>
        match pnum[ia]?, pnum[ib]? with
        | some pa, some pb =>
          if pa < pb then
            match idomA[ia]? with
            | some a2 => intersectW idomA pnum a2 b fuel
            | none => none
          else
            match idomA[ib]? with
            | some b2 => intersectW idomA pnum a b2 fuel
            | none => none
        | _, _ => none
      | _, _ => none

/-- The fold over a node's incoming edges: referrers without an
assigned idom are skipped, the rest are intersected. -/
def interFold (idomA : List ObjId) (pnum : List Nat) (ifuel : Nat) :
    ObjId → List Nat → Option ObjId
  | a, [] => some a
  | a, b :: rest =>
    match idomA[b]? with
    | none => none
    | some .nil => interFold idomA pnum ifuel a rest
    | some _ =>
      if a = ObjId.nil then interFold idomA pnum ifuel (.id b) rest
      else
        match intersectW idomA pnum a (.id b) ifuel with
        | none => none
        | some a2 => interFold idomA pnum ifuel a2 rest

/-- The incoming-edge list `redges` rebuilt from the referrer index. -/
def redgesOf (r1 : List ObjId) (r2m : List (Nat × List Nat)) (x : Nat) :
    List Nat :=
  match r1get r1 x with
  | .nil => []
  | .id y => y :: ref2get r2m x

/-- One node of the fixpoint sweep: intersect the incoming edges,
override with the virtual start for roots, record a change. -/
def chkNode (rootsL : List Nat) (n : Nat) (r1 : List ObjId)
    (r2m : List (Nat × List Nat)) (pnum : List Nat) (ifuel : Nat)
    (st : List ObjId × Bool) (x : Nat) : Option (List ObjId × Bool) :=
  match interFold st.1 pnum ifuel .nil (redgesOf r1 r2m x) with
  | none => none
  | some a0 =>
    let a := if x ∈ rootsL then ObjId.id n else a0
    match st.1[x]? with
    | none => none
    | some cur =>
      if a ≠ cur then some (st.1.set x a, true) else some st

/-- One sweep over the postorder in reverse. -/
def chkSweep (rootsL : List Nat) (n : Nat) (r1 : List ObjId)
    (r2m : List (Nat × List Nat)) (pnum : List Nat) (ifuel : Nat) :
    List Nat → List ObjId × Bool → Option (List ObjId × Bool)
  | [], st => some st
  | x :: rest, st =>
    match chkNode rootsL n r1 r2m pnum ifuel st x with
    | none => none
    | some st2 => chkSweep rootsL n r1 r2m pnum ifuel rest st2

/-- Sweeps repeat until no idom entry changes. -/
def chkLoop (rootsL : List Nat) (n : Nat) (r1 : List ObjId)
    (r2m : List (Nat × List Nat)) (pnum : List Nat) (ifuel : Nat)
    (rev : List Nat) : List ObjId → Nat → Option (List ObjId)
  | _, 0 => none
  | idomA, fuel + 1 =>
    match chkSweep rootsL n r1 r2m pnum ifuel rev (idomA, false) with
    | none => none
    | some (idomA2, change) =>
      if change then chkLoop rootsL n r1 r2m pnum ifuel rev idomA2 fuel
      else some idomA2

/-- The final accumulation: in postorder, add each object's size to
its own slot, then its slot into its immediate dominator's slot, with
`uint64` wrap-around.  An `ObjNil` idom is a Go slice-index panic. -/
def domAccum (sizeF : Nat → Nat) (idomA : List ObjId) :
    List Nat → List Nat → Option (List Nat)
  | D, [] => some D
  | D, x :: rest =>
    match D[x]? with
    | none => none
    | some dx =>
      let D1 := D.set x ((dx + sizeF x) % 2 ^ 64)
      match idomA[x]? with
      | some (.id w) =>
        match D1[w]?, D1[x]? with
        | some dw, some dx1 =>
          domAccum sizeF idomA (D1.set w ((dw + dx1) % 2 ^ 64)) rest
        | _, _ => none
      | _ => none

/-- The whole of `dom()`: DFS postorder, virtual-start postorder
number, idom initialisation (`ObjNil` everywhere, the virtual start
for itself and every root), the CHK fixpoint, the size accumulation.
Runs on the referrer index built by `prepare`. -/
def domCompute (E : Nat → List Nat) (sizeF : Nat → Nat) (n : Nat)
    (rootsL : List Nat) : Option (List Nat) :=
  match dfsRun E n rootsL with
  | none => none
  | some st =>
    match chkLoop rootsL n (prepareRef E n).1 (prepareRef E n).2
        (st.postnum.set n n) (2 * n + 4) st.postorder.reverse
        (rootsL.foldl (fun A r => A.set r (ObjId.id n))
          (List.replicate n ObjId.nil ++ [ObjId.id n])) (n + 2) with
    | none => none
    | some A => domAccum sizeF A (List.replicate (n + 1) 0) st.postorder

/-- Postorder number of a walk value. -/
def pvO (pnum : List Nat) : ObjId → Option Nat
  | .nil => none
  | .id i => pnum[i]?

/-- A walk value is the virtual start or a postorder node. -/
def inP (P : List Nat) (n : Nat) : ObjId → Prop
  | .nil => False
  | .id i => i = n ∨ i ∈ P

/-- The idom-array invariant maintained by the fixpoint loop: correct
length, the virtual start its own dominator, unreachable objects
unassigned, and every assigned idom strictly later in postorder. -/
def idomInv (P pnum : List Nat) (n : Nat) (A : List ObjId) : Prop :=
  A.length = n + 1 ∧
  A[n]? = some (ObjId.id n) ∧
  (∀ (z : Nat), z < n → z ∉ P → A[z]? = some ObjId.nil) ∧
  (∀ (z iw : Nat), z < n → A[z]? = some (ObjId.id iw) →
    iw = n ∨ (iw ∈ P ∧ ∃ (pz pw : Nat), pnum[z]? = some pz ∧
      pnum[iw]? = some pw ∧ pz < pw))

lemma intersectW_nil_left (A : List ObjId) (pnum : List Nat) (ib : Nat) :
    ∀ fuel, intersectW A pnum .nil (.id ib) fuel = none := by
  intro fuel
  cases fuel with
  | zero => rfl
  | succ fuel =>
    rw [intersectW, if_neg (fun hc => ObjId.noConfusion hc)]
    intro ia2 ib2 hc _
    exact ObjId.noConfusion hc

lemma intersectW_nil_right (A : List ObjId) (pnum : List Nat) (ia : Nat) :
    ∀ fuel, intersectW A pnum (.id ia) .nil fuel = none := by
  intro fuel
  cases fuel with
  | zero => rfl
  | succ fuel =>
    rw [intersectW, if_neg (fun hc => ObjId.noConfusion hc)]
    intro ia2 ib2 _ hc
    exact ObjId.noConfusion hc

lemma intersectW_spec (P pnum : List Nat) (n : Nat) (A : List ObjId)
    (hinv : idomInv P pnum n A)
    (hpn : pnum[n]? = some n)
    (hPlt : ∀ z ∈ P, z < n)
    (hplt : ∀ z ∈ P, ∀ (pz : Nat), pnum[z]? = some pz → pz < n)
    (hpm : ∀ z ∈ P, ∃ (pz : Nat), pnum[z]? = some pz) :
    ∀ (fuel : Nat) (a b r : ObjId),
    intersectW A pnum a b fuel = some r →
    inP P n a → inP P n b →
    inP P n r ∧
    ∀ (pa pb : Nat), pvO pnum a = some pa → pvO pnum b = some pb →
    ∃ pr, pvO pnum r = some pr ∧ pa ≤ pr ∧ pb ≤ pr := by
  intro fuel
  induction fuel with
  | zero =>
    intro a b r h
    exact absurd h (fun hc => Option.noConfusion hc)
  | succ fuel ih =>
    intro a b r h ha hb
    rcases a with _ | ia
    · exact ha.elim
    rcases b with _ | ib
    · exact hb.elim
    rw [intersectW] at h
    by_cases hab : ObjId.id ia = ObjId.id ib
    · rw [if_pos hab] at h
      cases h
      refine ⟨ha, ?_⟩
      intro pa pb hpa hpb
      have hiab : ia = ib := ObjId.id.inj hab
      subst hiab
      have hpa2 : pnum[ia]? = some pa := hpa
      have hpb2 : pnum[ia]? = some pb := hpb
      rw [hpa2] at hpb2
      cases hpb2
      exact ⟨pa, hpa, Nat.le_refl pa, Nat.le_refl pa⟩
    · rw [if_neg hab] at h
      have hpa0 : ∃ pa0, pnum[ia]? = some pa0 := by
        rcases ha with h1 | h1
        · exact ⟨n, h1 ▸ hpn⟩
        · exact hpm ia h1
      have hpb0 : ∃ pb0, pnum[ib]? = some pb0 := by
        rcases hb with h1 | h1
        · exact ⟨n, h1 ▸ hpn⟩
        · exact hpm ib h1
      obtain ⟨pa0, hpa0⟩ := hpa0
      obtain ⟨pb0, hpb0⟩ := hpb0
      simp only [hpa0, hpb0] at h
      by_cases hcmp : pa0 < pb0
      · rw [if_pos hcmp] at h
        rcases hA : A[ia]? with _ | a2 <;> simp only [hA] at h
        · exact Option.noConfusion h
        rcases a2 with _ | ja
        · rw [intersectW_nil_left] at h
          exact Option.noConfusion h
        have hian : ia ∈ P := by
          rcases ha with h1 | h1
          · exfalso
            rw [h1, hpn] at hpa0
            cases hpa0
            rcases hb with h2 | h2
            · rw [h1, h2] at hab
              exact hab rfl
            · have := hplt ib h2 pb0 hpb0
              omega
          · exact h1
        have hja := hinv.2.2.2 ia ja (hPlt ia hian) hA
        have hjafacts : (ja = n ∨ ja ∈ P) ∧
            ∃ pja, pnum[ja]? = some pja ∧ pa0 < pja := by
          rcases hja with h1 | ⟨h1, pz, pw, hpz, hpw, hlt⟩
          · exact ⟨Or.inl h1, n, by rw [h1]; exact hpn,
              hplt ia hian pa0 hpa0⟩
          · rw [hpz] at hpa0
            cases hpa0
            exact ⟨Or.inr h1, pw, hpw, hlt⟩
        obtain ⟨hjain, pja, hpja, hpalt⟩ := hjafacts
        obtain ⟨hrin, hge⟩ := ih (.id ja) (.id ib) r h hjain hb
        refine ⟨hrin, ?_⟩
        intro pa pb hpa hpb
        have hpaeq : pa = pa0 := by
          have hpa2 : pnum[ia]? = some pa := hpa
          rw [hpa0] at hpa2
          cases hpa2
          rfl
        obtain ⟨pr, hpr, h1, h2⟩ := hge pja pb hpja hpb
        exact ⟨pr, hpr, by omega, h2⟩
      · rw [if_neg hcmp] at h
        rcases hA : A[ib]? with _ | b2 <;> simp only [hA] at h
        · exact Option.noConfusion h
        rcases b2 with _ | jb
        · rw [intersectW_nil_right] at h
          exact Option.noConfusion h
        have hibn : ib ∈ P := by
          rcases hb with h1 | h1
          · exfalso
            rw [h1, hpn] at hpb0
            cases hpb0
            rcases ha with h2 | h2
            · rw [h2, h1] at hab
              exact hab rfl
            · have := hplt ia h2 pa0 hpa0
              omega
          · exact h1
        have hjb := hinv.2.2.2 ib jb (hPlt ib hibn) hA
        have hjbfacts : (jb = n ∨ jb ∈ P) ∧
            ∃ pjb, pnum[jb]? = some pjb ∧ pb0 < pjb := by
          rcases hjb with h1 | ⟨h1, pz, pw, hpz, hpw, hlt⟩
          · exact ⟨Or.inl h1, n, by rw [h1]; exact hpn,
              hplt ib hibn pb0 hpb0⟩
          · rw [hpz] at hpb0
            cases hpb0
            exact ⟨Or.inr h1, pw, hpw, hlt⟩
        obtain ⟨hjbin, pjb, hpjb, hpblt⟩ := hjbfacts
        obtain ⟨hrin, hge⟩ := ih (.id ia) (.id jb) r h ha hjbin
        refine ⟨hrin, ?_⟩
        intro pa pb hpa hpb
        have hpbeq : pb = pb0 := by
          have hpb2 : pnum[ib]? = some pb := hpb
          rw [hpb0] at hpb2
          cases hpb2
          rfl
        obtain ⟨pr, hpr, h1, h2⟩ := hge pa pjb hpa hpjb
        exact ⟨pr, hpr, h1, by omega⟩

lemma interFold_spec (P pnum : List Nat) (n : Nat) (A : List ObjId)
    (hinv : idomInv P pnum n A)
    (hpn : pnum[n]? = some n)
    (hPlt : ∀ z ∈ P, z < n)
    (hplt : ∀ z ∈ P, ∀ (pz : Nat), pnum[z]? = some pz → pz < n)
    (hpm : ∀ z ∈ P, ∃ (pz : Nat), pnum[z]? = some pz)
    (ifuel : Nat) :
    ∀ (rest : List Nat) (a r : ObjId),
    interFold A pnum ifuel a rest = some r →
    (a = .nil ∨ inP P n a) →
    (∀ b ∈ rest, b < n) →
    (r = .nil ∨ inP P n r) ∧
    (∀ (pa : Nat), pvO pnum a = some pa →
      ∃ pr, pvO pnum r = some pr ∧ pa ≤ pr) ∧
    (∀ b ∈ rest, ¬ A[b]? = some ObjId.nil → ∀ (pb : Nat),
      pnum[b]? = some pb → ∃ pr, pvO pnum r = some pr ∧ pb ≤ pr) := by
  intro rest
  induction rest with
  | nil =>
    intro a r h ha _
    rw [interFold] at h
    cases h
    exact ⟨ha, fun pa hpa => ⟨pa, hpa, Nat.le_refl pa⟩,
      fun b hb => absurd hb (List.not_mem_nil b)⟩
  | cons b rest ih =>
    intro a r h ha hblt
    rw [interFold] at h
    rcases hAb : A[b]? with _ | w <;> simp only [hAb] at h
    · exact Option.noConfusion h
    rcases w with _ | iw
    · -- referrer without idom: skipped
      obtain ⟨i1, i2, i3⟩ := ih a r h ha
        (fun z hz => hblt z (List.mem_cons_of_mem b hz))
      refine ⟨i1, i2, ?_⟩
      intro b2 hb2 hnb2
      rcases List.mem_cons.mp hb2 with h1 | h1
      · subst h1
        exact absurd hAb hnb2
      · exact i3 b2 h1 hnb2
    · have hbP : b ∈ P := by
        by_contra hbP
        have h9 := hinv.2.2.1 b (hblt b (List.mem_cons_self b rest)) hbP
        rw [hAb] at h9
        cases h9
      obtain ⟨pb0, hpb0⟩ := hpm b hbP
      rcases a with _ | ia
      · -- first valid referrer: a := b
        rw [if_pos rfl] at h
        obtain ⟨i1, i2, i3⟩ := ih (.id b) r h (Or.inr (Or.inr hbP))
          (fun z hz => hblt z (List.mem_cons_of_mem b hz))
        refine ⟨i1, ?_, ?_⟩
        · intro pa hpa
          exact Option.noConfusion hpa
        · intro b2 hb2 hnb2
          rcases List.mem_cons.mp hb2 with h1 | h1
          · subst h1
            intro pb hpb
            have hpbeq : pb = pb0 := by
              rw [hpb0] at hpb
              cases hpb
              rfl
            subst hpbeq
            exact i2 pb hpb0
          · exact i3 b2 h1 hnb2
      · -- intersect the accumulated idom candidate with b
        rw [if_neg (fun hc => ObjId.noConfusion hc)] at h
        rcases hw : intersectW A pnum (.id ia) (.id b) ifuel with _ | a2 <;>
          simp only [hw] at h
        · exact Option.noConfusion h
        have hain : inP P n (ObjId.id ia) := by
          rcases ha with h1 | h1
          · exact absurd h1 (fun hc => ObjId.noConfusion hc)
          · exact h1
        have hpa0e : ∃ pa0, pnum[ia]? = some pa0 := by
          rcases hain with h1 | h1
          · exact ⟨n, h1 ▸ hpn⟩
          · exact hpm ia h1
        obtain ⟨pa0, hpa0⟩ := hpa0e
        obtain ⟨ha2in, hge2⟩ :=
          intersectW_spec P pnum n A hinv hpn hPlt hplt hpm ifuel
            (.id ia) (.id b) a2 hw hain (Or.inr hbP)
        obtain ⟨pr2, hpr2, hgea, hgeb⟩ := hge2 pa0 pb0 hpa0 hpb0
        obtain ⟨i1, i2, i3⟩ := ih a2 r h (Or.inr ha2in)
          (fun z hz => hblt z (List.mem_cons_of_mem b hz))
        refine ⟨i1, ?_, ?_⟩
        · intro pa hpa
          have hpaeq : pa = pa0 := by
            have hpa2 : pnum[ia]? = some pa := hpa
            rw [hpa0] at hpa2
            cases hpa2
            rfl
          obtain ⟨pr, hpr, hge⟩ := i2 pr2 hpr2
          exact ⟨pr, hpr, by omega⟩
        · intro b2 hb2 hnb2
          rcases List.mem_cons.mp hb2 with h1 | h1
          · subst h1
            intro pb hpb
            have hpbeq : pb = pb0 := by
              rw [hpb0] at hpb
              cases hpb
              rfl
            subst hpbeq
            obtain ⟨pr, hpr, hge⟩ := i2 pr2 hpr2
            exact ⟨pr, hpr, by omega⟩
          · exact i3 b2 h1 hnb2

lemma chkNode_spec (P pnum : List Nat) (n : Nat) (rootsL : List Nat)
    (r1 : List ObjId) (r2m : List (Nat × List Nat)) (ifuel : Nat)
    (hpn : pnum[n]? = some n)
    (hPlt : ∀ z ∈ P, z < n)
    (hplt : ∀ z ∈ P, ∀ (pz : Nat), pnum[z]? = some pz → pz < n)
    (hpm : ∀ z ∈ P, ∃ (pz : Nat), pnum[z]? = some pz)
    (hredb : ∀ (x : Nat), ∀ b ∈ redgesOf r1 r2m x, b < n)
    (x : Nat) (hxP : x ∈ P) (A : List ObjId) (chg : Bool)
    (out : List ObjId × Bool)
    (h : chkNode rootsL n r1 r2m pnum ifuel (A, chg) x = some out)
    (hinv : idomInv P pnum n A)
    (hpar : x ∉ rootsL → ∃ p, p ∈ redgesOf r1 r2m x ∧
      ¬ A[p]? = some ObjId.nil ∧ ∃ (px pp : Nat), pnum[x]? = some px ∧
      pnum[p]? = some pp ∧ px < pp) :
    idomInv P pnum n out.1 ∧ ¬ out.1[x]? = some ObjId.nil ∧
    ∀ (z : Nat), z ≠ x → out.1[z]? = A[z]? := by
  have hxlt : x < n := hPlt x hxP
  have hxlen : x < A.length := by
    rw [hinv.1]
    omega
  rw [chkNode] at h
  rcases hf : interFold A pnum ifuel .nil (redgesOf r1 r2m x)
    with _ | a0 <;> simp only [hf] at h
  · exact Option.noConfusion h
  rcases hAx : A[x]? with _ | cur <;> simp only [hAx] at h
  · rw [List.getElem?_eq_none_iff] at hAx
    omega
  have havP : ∃ iv, (if x ∈ rootsL then ObjId.id n else a0) = ObjId.id iv ∧
      (iv = n ∨ (iv ∈ P ∧ ∃ (pz pw : Nat), pnum[x]? = some pz ∧
        pnum[iv]? = some pw ∧ pz < pw)) := by
    by_cases hroot : x ∈ rootsL
    · exact ⟨n, by rw [if_pos hroot], Or.inl rfl⟩
    · obtain ⟨p, hpmem, hpnn, px, pp, hpx, hpp, hplt2⟩ := hpar hroot
      obtain ⟨i1, i2, i3⟩ := interFold_spec P pnum n A hinv hpn hPlt hplt
        hpm ifuel (redgesOf r1 r2m x) .nil a0 hf (Or.inl rfl) (hredb x)
      obtain ⟨pr, hpr, hgepr⟩ := i3 p hpmem hpnn pp hpp
      rcases a0 with _ | i0
      · exact Option.noConfusion hpr
      rcases i1 with h1 | h1
      · exact ObjId.noConfusion h1
      refine ⟨i0, by rw [if_neg hroot], ?_⟩
      rcases h1 with h2 | h2
      · exact Or.inl h2
      · exact Or.inr ⟨h2, px, pr, hpx, hpr, by omega⟩
  obtain ⟨iv, hiv, hivP⟩ := havP
  rw [hiv] at h
  by_cases hne : ObjId.id iv ≠ cur
  · rw [if_pos hne] at h
    cases h
    have hsetx : (A.set x (ObjId.id iv))[x]? = some (ObjId.id iv) :=
      List.getElem?_set_eq hxlen
    refine ⟨⟨?_, ?_, ?_, ?_⟩, ?_, ?_⟩
    · show (A.set x (ObjId.id iv)).length = n + 1
      simp only [List.length_set]
      exact hinv.1
    · show (A.set x (ObjId.id iv))[n]? = some (ObjId.id n)
      rw [List.getElem?_set_ne (by omega)]
      exact hinv.2.1
    · intro z hzn hzP
      show (A.set x (ObjId.id iv))[z]? = some ObjId.nil
      have hzx : z ≠ x := fun he => hzP (he ▸ hxP)
      rw [List.getElem?_set_ne (fun he => hzx he.symm)]
      exact hinv.2.2.1 z hzn hzP
    · intro z iw hzn hz
      by_cases hzx : z = x
      · subst hzx
        rw [hsetx] at hz
        cases hz
        exact hivP
      · rw [List.getElem?_set_ne (fun he => hzx he.symm)] at hz
        exact hinv.2.2.2 z iw hzn hz
    · show ¬ (A.set x (ObjId.id iv))[x]? = some ObjId.nil
      rw [hsetx]
      intro hc
      cases hc
    · intro z hz
      show (A.set x (ObjId.id iv))[z]? = A[z]?
      rw [List.getElem?_set_ne (fun he => hz he.symm)]
  · rw [if_neg hne] at h
    cases h
    have hcur : ObjId.id iv = cur := not_not.mp hne
    refine ⟨hinv, ?_, fun z _ => rfl⟩
    show ¬ A[x]? = some ObjId.nil
    rw [hAx, ← hcur]
    intro hc
    cases hc

lemma chkSweep_spec (P pnum : List Nat) (n : Nat) (rootsL : List Nat)
    (r1 : List ObjId) (r2m : List (Nat × List Nat)) (ifuel : Nat)
    (hpn : pnum[n]? = some n)
    (hPlt : ∀ z ∈ P, z < n)
    (hplt : ∀ z ∈ P, ∀ (pz : Nat), pnum[z]? = some pz → pz < n)
    (hpm : ∀ z ∈ P, ∃ (pz : Nat), pnum[z]? = some pz)
    (hredb : ∀ (x : Nat), ∀ b ∈ redgesOf r1 r2m x, b < n)
    (hpar : ∀ x ∈ P, x ∉ rootsL → ∃ p, p ∈ redgesOf r1 r2m x ∧ p ∈ P ∧
      ∃ (px pp : Nat), pnum[x]? = some px ∧ pnum[p]? = some pp ∧ px < pp) :
    ∀ (rem : List Nat) (A : List ObjId) (chg : Bool)
    (out : List ObjId × Bool),
    chkSweep rootsL n r1 r2m pnum ifuel rem (A, chg) = some out →
    idomInv P pnum n A →
    (∀ z ∈ rem, z ∈ P) →
    List.Pairwise (fun a b => ∀ (pa pb : Nat), pnum[a]? = some pa →
      pnum[b]? = some pb → pb < pa) rem →
    (∀ z ∈ P, z ∈ rem ∨ ¬ A[z]? = some ObjId.nil) →
    idomInv P pnum n out.1 ∧ (∀ z ∈ P, ¬ out.1[z]? = some ObjId.nil) := by
  intro rem
  induction rem with
  | nil =>
    intro A chg out h hinv _ _ hcov
    rw [chkSweep] at h
    cases h
    refine ⟨hinv, ?_⟩
    intro z hz
    rcases hcov z hz with h1 | h1
    · exact absurd h1 (List.not_mem_nil z)
    · exact h1
  | cons x rem ih =>
    intro A chg out h hinv hremP hdesc hcov
    rw [chkSweep] at h
    rcases hn : chkNode rootsL n r1 r2m pnum ifuel (A, chg) x
      with _ | st2 <;> simp only [hn] at h
    · exact Option.noConfusion h
    have hxP : x ∈ P := hremP x (List.mem_cons_self x rem)
    have hparx : x ∉ rootsL → ∃ p, p ∈ redgesOf r1 r2m x ∧
        ¬ A[p]? = some ObjId.nil ∧ ∃ (px pp : Nat), pnum[x]? = some px ∧
        pnum[p]? = some pp ∧ px < pp := by
      intro hroot
      obtain ⟨p, hpmem, hpP, px, pp, hpx, hpp, hlt⟩ := hpar x hxP hroot
      refine ⟨p, hpmem, ?_, px, pp, hpx, hpp, hlt⟩
      rcases hcov p hpP with h1 | h1
      · rcases List.mem_cons.mp h1 with h2 | h2
        · subst h2
          rw [hpx] at hpp
          cases hpp
          omega
        · have := (List.pairwise_cons.mp hdesc).1 p h2 px pp hpx hpp
          omega
      · exact h1
    obtain ⟨hinv2, hxnn, hunch⟩ := chkNode_spec P pnum n rootsL r1 r2m
      ifuel hpn hPlt hplt hpm hredb x hxP A chg st2 hn hinv hparx
    rcases st2 with ⟨A2, chg2⟩
    refine ih A2 chg2 out h hinv2
      (fun z hz => hremP z (List.mem_cons_of_mem x hz))
      (List.pairwise_cons.mp hdesc).2 ?_
    intro z hz
    rcases hcov z hz with h1 | h1
    · rcases List.mem_cons.mp h1 with h2 | h2
      · subst h2
        exact Or.inr hxnn
      · exact Or.inl h2
    · by_cases hzx : z = x
      · subst hzx
        exact Or.inr hxnn
      · refine Or.inr ?_
        rw [hunch z hzx]
        exact h1

lemma chkLoop_spec (P pnum : List Nat) (n : Nat) (rootsL : List Nat)
    (r1 : List ObjId) (r2m : List (Nat × List Nat)) (ifuel : Nat)
    (rev : List Nat)
    (hpn : pnum[n]? = some n)
    (hPlt : ∀ z ∈ P, z < n)
    (hplt : ∀ z ∈ P, ∀ (pz : Nat), pnum[z]? = some pz → pz < n)
    (hpm : ∀ z ∈ P, ∃ (pz : Nat), pnum[z]? = some pz)
    (hredb : ∀ (x : Nat), ∀ b ∈ redgesOf r1 r2m x, b < n)
    (hpar : ∀ x ∈ P, x ∉ rootsL → ∃ p, p ∈ redgesOf r1 r2m x ∧ p ∈ P ∧
      ∃ (px pp : Nat), pnum[x]? = some px ∧ pnum[p]? = some pp ∧ px < pp)
    (hrevP : ∀ z ∈ rev, z ∈ P)
    (hdesc : List.Pairwise (fun a b => ∀ (pa pb : Nat),
      pnum[a]? = some pa → pnum[b]? = some pb → pb < pa) rev)
    (hfull : ∀ z ∈ P, z ∈ rev) :
    ∀ (fuel : Nat) (A A' : List ObjId),
    chkLoop rootsL n r1 r2m pnum ifuel rev A fuel = some A' →
    idomInv P pnum n A →
    idomInv P pnum n A' ∧ (∀ z ∈ P, ¬ A'[z]? = some ObjId.nil) := by
  intro fuel
  induction fuel with
  | zero =>
    intro A A' h
    exact absurd h (fun hc => Option.noConfusion hc)
  | succ fuel ih =>
    intro A A' h hinv
    rw [chkLoop] at h
    rcases hs : chkSweep rootsL n r1 r2m pnum ifuel rev (A, false)
      with _ | ⟨A2, chg⟩ <;> simp only [hs] at h
    · exact Option.noConfusion h
    obtain ⟨hinv2, hnn2⟩ := chkSweep_spec P pnum n rootsL r1 r2m ifuel
      hpn hPlt hplt hpm hredb hpar rev A false (A2, chg) hs hinv hrevP
      hdesc (fun z hz => Or.inl (hfull z hz))
    rcases chg with _ | _
    · rw [if_neg (by intro hc; cases hc)] at h
      cases h
      exact ⟨hinv2, hnn2⟩
    · rw [if_pos rfl] at h
      exact ih A2 A' h hinv2

/-- The ordering needed by the accumulation loop: every processed
node's idom is either the virtual start or processed later. -/
def accOrd (A : List ObjId) (n : Nat) : List Nat → Prop
  | [] => True
  | x :: rest =>
    (∀ (w : Nat), A[x]? = some (ObjId.id w) → w = n ∨ w ∈ rest) ∧
    accOrd A n rest

lemma sum_map_split (f : Nat → Nat) (l1 l2 : List Nat) (w : Nat) :
    ((l1 ++ w :: l2).map f).sum = (l1.map f).sum + f w + (l2.map f).sum := by
  rw [List.map_append, List.sum_append, List.map_cons, List.sum_cons]
  omega

lemma domAccum_spec (sizeF : Nat → Nat) (A : List ObjId) (n T : Nat)
    (hT : T < 2 ^ 64) :
    ∀ (L : List Nat) (D D' : List Nat),
    domAccum sizeF A D L = some D' →
    D.length = n + 1 →
    L.Nodup → (∀ x ∈ L, x < n) →
    accOrd A n L →
    ((D[n]?).getD 0 + (L.map (fun z => sizeF z + (D[z]?).getD 0)).sum = T) →
    D'.length = n + 1 ∧
    (D'[n]?).getD 0 = T ∧
    (∀ (v : Nat), (D[v]?).getD 0 ≤ (D'[v]?).getD 0) ∧
    (∀ y ∈ L, sizeF y + (D[y]?).getD 0 ≤ (D'[y]?).getD 0) ∧
    (∀ (v : Nat), v ∉ L → v ≠ n → D'[v]? = D[v]?) := by
  intro L
  induction L with
  | nil =>
    intro D D' h hlen _ _ _ hcons
    rw [domAccum] at h
    cases h
    simp only [List.map_nil, List.sum_nil] at hcons
    exact ⟨hlen, by omega, fun v => Nat.le_refl _,
      fun y hy => absurd hy (List.not_mem_nil y),
      fun v _ _ => rfl⟩
  | cons x rest ihL =>
    intro D D' h hlen hnd hltn hacc hcons
    have hxn : x < n := hltn x (List.mem_cons_self x rest)
    have hxrest : x ∉ rest := (List.nodup_cons.mp hnd).1
    have hnns : n ∉ rest := by
      intro hc
      have := hltn n (List.mem_cons_of_mem x hc)
      omega
    rw [domAccum] at h
    rcases hDx : D[x]? with _ | dx <;> simp only [hDx] at h
    · exact Option.noConfusion h
    rcases hA : A[x]? with _ | w0 <;> simp only [hA] at h
    · exact Option.noConfusion h
    rcases w0 with _ | w
    · exact Option.noConfusion h
    have hw := hacc.1 w hA
    have hwn : w ≤ n := by
      rcases hw with h1 | h1
      · omega
      · have := hltn w (List.mem_cons_of_mem x h1)
        omega
    have hwx : w ≠ x := by
      rcases hw with h1 | h1
      · omega
      · intro he
        exact hxrest (he ▸ h1)
    simp only [List.map_cons, List.sum_cons, hDx, Option.getD_some] at hcons
    have hdgx : (D[x]?).getD 0 = dx := by
      rw [hDx]
      rfl
    have hw1lt : dx + sizeF x ≤ T := by omega
    have hw1mod : (dx + sizeF x) % 2 ^ 64 = dx + sizeF x :=
      Nat.mod_eq_of_lt (by omega)
    rw [hw1mod] at h
    have hxlen : x < D.length := by omega
    have hD1x : (D.set x (dx + sizeF x))[x]? = some (dx + sizeF x) :=
      List.getElem?_set_eq hxlen
    have hD1ne : ∀ (v : Nat), v ≠ x →
        (D.set x (dx + sizeF x))[v]? = D[v]? := by
      intro v hv
      rw [List.getElem?_set_ne (fun he => hv he.symm)]
    have hwlen : w < (D.set x (dx + sizeF x)).length := by
      simp only [List.length_set]
      omega
    rcases hD1w : (D.set x (dx + sizeF x))[w]? with _ | dw <;>
      simp only [hD1w] at h
    · rw [List.getElem?_eq_none_iff] at hD1w
      simp only [List.length_set] at hD1w
      omega
    simp only [hD1x] at h
    -- the second write also stays below the total
    have hdw : (D[w]?).getD 0 = dw := by
      rw [← hD1ne w hwx, hD1w]
      rfl
    have hw2lt : dw + (dx + sizeF x) ≤ T := by
      rcases hw with h1 | h1
      · subst h1
        omega
      · obtain ⟨l1, l2, hsplit⟩ := List.append_of_mem h1
        rw [hsplit, sum_map_split] at hcons
        have := hdw
        omega
    have hw2mod : (dw + (dx + sizeF x)) % 2 ^ 64 = dw + (dx + sizeF x) :=
      Nat.mod_eq_of_lt (by omega)
    rw [hw2mod] at h
    have hD2len : ((D.set x (dx + sizeF x)).set w (dw + (dx + sizeF x))).length
        = n + 1 := by
      simp only [List.length_set]
      omega
    have hD2w : ((D.set x (dx + sizeF x)).set w (dw + (dx + sizeF x)))[w]? =
        some (dw + (dx + sizeF x)) :=
      List.getElem?_set_eq hwlen
    have hD2ne : ∀ (v : Nat), v ≠ w →
        ((D.set x (dx + sizeF x)).set w (dw + (dx + sizeF x)))[v]? =
        (D.set x (dx + sizeF x))[v]? := by
      intro v hv
      rw [List.getElem?_set_ne (fun he => hv he.symm)]
    have hD2restD : ∀ z ∈ rest, z ≠ w →
        (((D.set x (dx + sizeF x)).set w (dw + (dx + sizeF x)))[z]?).getD 0 =
        (D[z]?).getD 0 := by
      intro z hz hzw
      rw [hD2ne z hzw, hD1ne z (fun he => hxrest (he ▸ hz))]
    have hcons2 : ((((D.set x (dx + sizeF x)).set w
        (dw + (dx + sizeF x)))[n]?).getD 0 +
        (rest.map (fun z => sizeF z +
          ((((D.set x (dx + sizeF x)).set w (dw + (dx + sizeF x)))[z]?).getD 0))).sum)
        = T := by
      rcases hw with h1 | h1
      · subst h1
        have hrest_eq : (rest.map (fun z => sizeF z +
            ((((D.set x (dx + sizeF x)).set w (dw + (dx + sizeF x)))[z]?).getD 0))).sum =
            (rest.map (fun z => sizeF z + ((D[z]?).getD 0))).sum := by
          refine congrArg List.sum (List.map_eq_map_iff.mpr ?_)
          intro z hz
          rw [hD2restD z hz (fun he => hnns (he ▸ hz))]
        rw [hrest_eq, hD2w]
        simp only [Option.getD_some]
        omega
      · have hnw : n ≠ w := by
          intro he
          exact hnns (he ▸ h1)
        rw [hD2ne n hnw, hD1ne n (by omega)]
        obtain ⟨l1, l2, hsplit⟩ := List.append_of_mem h1
        have hwl1 : w ∉ l1 := by
          intro hc
          have hnd2 := (List.nodup_cons.mp hnd).2
          rw [hsplit] at hnd2
          rcases List.nodup_append.mp hnd2 with ⟨_, _, hdisj⟩
          exact hdisj hc (List.mem_cons_self w l2)
        have hwl2 : w ∉ l2 := by
          have hnd2 := (List.nodup_cons.mp hnd).2
          rw [hsplit] at hnd2
          rcases List.nodup_append.mp hnd2 with ⟨_, hnd3, _⟩
          exact (List.nodup_cons.mp hnd3).1
        rw [hsplit] at hcons ⊢
        rw [sum_map_split] at hcons
        rw [sum_map_split]
        have he1 : (l1.map (fun z => sizeF z +
            ((((D.set x (dx + sizeF x)).set w (dw + (dx + sizeF x)))[z]?).getD 0))).sum =
            (l1.map (fun z => sizeF z + ((D[z]?).getD 0))).sum := by
          refine congrArg List.sum (List.map_eq_map_iff.mpr ?_)
          intro z hz
          rw [hD2restD z (by rw [hsplit]; exact List.mem_append.mpr (Or.inl hz))
            (fun he => hwl1 (he ▸ hz))]
        have he2 : (l2.map (fun z => sizeF z +
            ((((D.set x (dx + sizeF x)).set w (dw + (dx + sizeF x)))[z]?).getD 0))).sum =
            (l2.map (fun z => sizeF z + ((D[z]?).getD 0))).sum := by
          refine congrArg List.sum (List.map_eq_map_iff.mpr ?_)
          intro z hz
          rw [hD2restD z
            (by rw [hsplit]
                exact List.mem_append.mpr (Or.inr (List.mem_cons_of_mem w hz)))
            (fun he => hwl2 (he ▸ hz))]
        rw [he1, he2, hD2w]
        simp only [Option.getD_some]
        omega
    obtain ⟨f1, f2, f3, f4, f5⟩ := ihL _ D' h hD2len
      (List.nodup_cons.mp hnd).2
      (fun z hz => hltn z (List.mem_cons_of_mem x hz)) hacc.2 hcons2
    refine ⟨f1, f2, ?_, ?_, ?_⟩
    · intro v
      refine Nat.le_trans ?_ (f3 v)
      by_cases hvw : v = w
      · subst hvw
        rw [hD2w, hdw]
        simp only [Option.getD_some]
        omega
      · rw [hD2ne v hvw]
        by_cases hvx : v = x
        · subst hvx
          rw [hD1x, hDx]
          simp only [Option.getD_some]
          omega
        · rw [hD1ne v hvx]
    · intro y hy
      rcases List.mem_cons.mp hy with h1 | h1
      · subst h1
        refine Nat.le_trans ?_ (f3 y)
        rw [hD2ne y (fun he => hwx he.symm), hD1x, hDx]
        simp only [Option.getD_some]
        omega
      · refine Nat.le_trans ?_ (f4 y h1)
        by_cases hyw : y = w
        · subst hyw
          rw [hD2w, hdw]
          simp only [Option.getD_some]
          omega
        · rw [hD2restD y h1 hyw]
    · intro v hv hvn
      have hvx : v ≠ x := fun he => hv (he ▸ List.mem_cons_self x rest)
      have hvrest : v ∉ rest := fun hc => hv (List.mem_cons_of_mem x hc)
      have hvw : v ≠ w := by
        rcases hw with h1 | h1
        · intro he
          exact hvn (he.trans h1)
        · intro he
          exact hvrest (he ▸ h1)
      rw [f5 v hvrest hvn, hD2ne v hvw, hD1ne v hvx]

lemma sublist_sum_le (l1 l2 : List Nat) (hs : l1.Sublist l2) :
    l1.sum ≤ l2.sum := by
  induction hs with
  | slnil => exact Nat.le_refl _
  | cons a h ih =>
    simp only [List.sum_cons]
    omega
  | cons₂ a h ih =>
    simp only [List.sum_cons]
    omega

/-- `dom()`'s `redges` lists (rebuilt from `prepare`'s referrer index)
are exactly the source lists. -/
lemma redgesOf_prepare (E : Nat → List Nat) (n : Nat)
    (hE : ∀ x ∈ List.range n, ∀ t ∈ E x, t < n) (x : Nat) :
    redgesOf (prepareRef E n).1 (prepareRef E n).2 x = srcList E n x := by
  obtain ⟨g1, g2⟩ := prepareRef_spec E n hE x
  rw [redgesOf]
  rcases hsl : srcList E n x with _ | ⟨a, t⟩
  · rw [hsl] at g1
    rw [g1]
    rfl
  · rw [hsl] at g1 g2
    rw [g1, g2]
    rfl

lemma srcList_mem (E : Nat → List Nat) (n t b : Nat) :
    b ∈ srcList E n t ↔ (b < n ∧ t ∈ E b) := by
  rw [srcList, List.mem_filter, List.mem_range]
  constructor
  · rintro ⟨h1, h2⟩
    exact ⟨h1, of_decide_eq_true h2⟩
  · rintro ⟨h1, h2⟩
    exact ⟨h1, decide_eq_true h2⟩

/-- In the reversed postorder, postorder numbers strictly descend. -/
lemma desc_of_postidx (P pnum : List Nat)
    (hIdx : ∀ (i : Nat) (hi : i < P.length), pnum[P[i]]? = some i) :
    List.Pairwise (fun a b => ∀ (pa pb : Nat), pnum[a]? = some pa →
      pnum[b]? = some pb → pb < pa) P.reverse := by
  rw [List.pairwise_reverse, List.pairwise_iff_getElem]
  intro i j hi hj hij pa pb hpa hpb
  rw [hIdx j hj] at hpa
  rw [hIdx i hi] at hpb
  injection hpa with h1
  injection hpb with h2
  subst h1
  subst h2
  exact hij

/-- The idom invariant makes the postorder a valid accumulation order:
every node's idom is the virtual start or comes later in the list. -/
lemma accOrd_of_inv (A : List ObjId) (P pnum : List Nat) (n : Nat)
    (hinv : idomInv P pnum n A)
    (hPlt : ∀ z ∈ P, z < n)
    (hIdx : ∀ (i : Nat) (hi : i < P.length), pnum[P[i]]? = some i) :
    ∀ (m k : Nat), P.length - k ≤ m → accOrd A n (P.drop k) := by
  intro m
  induction m with
  | zero =>
    intro k hk
    rw [List.drop_eq_nil_of_le (by omega)]
    trivial
  | succ m ih =>
    intro k hk
    by_cases hkl : k < P.length
    · rw [List.drop_eq_getElem_cons hkl]
      refine ⟨?_, ih (k + 1) (by omega)⟩
      intro w hw
      have hxP : P[k] ∈ P := List.getElem_mem hkl
      have hxlt : P[k] < n := hPlt _ hxP
      rcases hinv.2.2.2 (P[k]) w hxlt hw with h1 | ⟨hwP, pz, pw, hpz, hpw, hlt⟩
      · exact Or.inl h1
      · refine Or.inr ?_
        rw [hIdx k hkl] at hpz
        injection hpz with hpz2
        subst hpz2
        obtain ⟨j, hj, hjw⟩ := List.mem_iff_getElem.mp hwP
        have hj2 := hIdx j hj
        rw [hjw] at hj2
        rw [hj2] at hpw
        injection hpw with hpw2
        subst hpw2
        have hmem : (P.drop (k + 1))[j - (k + 1)]? = some w := by
          rw [List.getElem?_drop]
          have he : k + 1 + (j - (k + 1)) = j := by omega
          rw [he, List.getElem?_eq_getElem hj, hjw]
        exact List.getElem?_mem hmem
    · rw [List.drop_eq_nil_of_le (by omega)]
      trivial

/-- The idom initialisation: `ObjNil` everywhere except the virtual
start's own slot and the roots, which get the virtual start. -/
lemma idomInit_fold (n : Nat) (rootsL : List Nat)
    (hrlt : ∀ r ∈ rootsL, r < n) :
    ∀ (rs : List Nat) (A : List ObjId),
    A.length = n + 1 →
    A[n]? = some (ObjId.id n) →
    (∀ (z : Nat), z < n → A[z]? = some ObjId.nil ∨
      (A[z]? = some (ObjId.id n) ∧ z ∈ rootsL)) →
    rs ⊆ rootsL →
    (rs.foldl (fun A r => A.set r (ObjId.id n)) A).length = n + 1 ∧
    (rs.foldl (fun A r => A.set r (ObjId.id n)) A)[n]? = some (ObjId.id n) ∧
    (∀ (z : Nat), z < n →
      (rs.foldl (fun A r => A.set r (ObjId.id n)) A)[z]? = some ObjId.nil ∨
      ((rs.foldl (fun A r => A.set r (ObjId.id n)) A)[z]? =
        some (ObjId.id n) ∧ z ∈ rootsL)) := by
  intro rs
  induction rs with
  | nil =>
    intro A h1 h2 h3 _
    exact ⟨h1, h2, h3⟩
  | cons r rs ih =>
    intro A h1 h2 h3 hsub
    have hr : r ∈ rootsL := hsub (List.mem_cons_self r rs)
    have hrn : r < n := hrlt r hr
    rw [List.foldl_cons]
    refine ih (A.set r (ObjId.id n)) ?_ ?_ ?_
      (fun z hz => hsub (List.mem_cons_of_mem r hz))
    · rw [List.length_set]
      exact h1
    · rw [List.getElem?_set_ne (by omega)]
      exact h2
    · intro z hz
      by_cases hzr : z = r
      · subst hzr
        exact Or.inr ⟨List.getElem?_set_eq (by omega), hr⟩
      · rw [List.getElem?_set_ne (fun he => hzr he.symm)]
        exact h3 z hz

/-- **C4**.  After `dom()`'s computation — DFS postorder over the
objects reachable from the roots, CHK dominator fixpoint on the
referrer index, bottom-up size accumulation — every object `y`
reachable from a root has `domsize[y] ≥ size(y)`, the virtual start's
slot holds the total size of exactly the reachable objects, and every
unreachable object keeps `domsize = 0`.  (The accumulator adds with
`uint64` wrap-around, so the total heap size is assumed to fit in
`uint64`, as it does for any real dump.) -/
theorem c4_domsize (E : Nat → List Nat) (sizeF : Nat → Nat) (n : Nat)
    (rootsL : List Nat) (D : List Nat)
    (h : domCompute E sizeF n rootsL = some D)
    (hE : ∀ (x : Nat), x < n → ∀ t ∈ E x, t < n)
    (hroots : ∀ r ∈ rootsL, r < n)
    (htot : (((List.range n).map sizeF)).sum < 2 ^ 64) :
    (∀ (y : Nat), y < n → Reaches E rootsL y →
      ∃ (v : Nat), D[y]? = some v ∧ sizeF y ≤ v) ∧
    (∃ (P : List Nat), (∀ (z : Nat), z ∈ P ↔ (z < n ∧ Reaches E rootsL z)) ∧
      P.Nodup ∧ D[n]? = some ((P.map sizeF).sum)) ∧
    (∀ (y : Nat), y < n → ¬ Reaches E rootsL y → D[y]? = some 0) := by
  rw [domCompute] at h
  rcases hst : dfsRun E n rootsL with _ | st <;> simp only [hst] at h
  · exact Option.noConfusion h
  rcases hAo : chkLoop rootsL n (prepareRef E n).1 (prepareRef E n).2
      (st.postnum.set n n) (2 * n + 4) st.postorder.reverse
      (rootsL.foldl (fun A r => A.set r (ObjId.id n))
        (List.replicate n ObjId.nil ++ [ObjId.id n])) (n + 2)
      with _ | A <;> simp only [hAo] at h
  · exact Option.noConfusion h
  obtain ⟨hiff, hnodup, hpnum0, hplen, hpar5⟩ :=
    dfsRun_spec E n rootsL st hst hE hroots
  have hPlt : ∀ z ∈ st.postorder, z < n := fun z hz => ((hiff z).mp hz).1
  have hPsub : st.postorder ⊆ List.range n :=
    fun z hz => List.mem_range.mpr (hPlt z hz)
  have hPlen : st.postorder.length ≤ n := by
    have := (List.subperm_of_subset hnodup hPsub).length_le
    simpa using this
  have hIdx : ∀ (i : Nat) (hi : i < st.postorder.length),
      (st.postnum.set n n)[st.postorder[i]]? = some i := by
    intro i hi
    have hmem : st.postorder[i] ∈ st.postorder := List.getElem_mem hi
    have hlt : st.postorder[i] < n := hPlt _ hmem
    rw [List.getElem?_set_ne (by omega)]
    exact hpnum0 i (st.postorder[i]) (List.getElem?_eq_getElem hi)
  have hpn : (st.postnum.set n n)[n]? = some n :=
    List.getElem?_set_eq (by omega)
  have hpm : ∀ z ∈ st.postorder, ∃ (pz : Nat),
      (st.postnum.set n n)[z]? = some pz := by
    intro z hz
    obtain ⟨i, hi, hiz⟩ := List.mem_iff_getElem.mp hz
    refine ⟨i, ?_⟩
    rw [← hiz]
    exact hIdx i hi
  have hplt : ∀ z ∈ st.postorder, ∀ (pz : Nat),
      (st.postnum.set n n)[z]? = some pz → pz < n := by
    intro z hz pz hpz
    obtain ⟨i, hi, hiz⟩ := List.mem_iff_getElem.mp hz
    have h2 := hIdx i hi
    rw [hiz] at h2
    rw [h2] at hpz
    injection hpz with h3
    omega
  have hEr : ∀ x ∈ List.range n, ∀ t ∈ E x, t < n :=
    fun x hx => hE x (List.mem_range.mp hx)
  have hredb : ∀ (x : Nat),
      ∀ b ∈ redgesOf (prepareRef E n).1 (prepareRef E n).2 x, b < n := by
    intro x b hb
    rw [redgesOf_prepare E n hEr x] at hb
    exact ((srcList_mem E n x b).mp hb).1
  have hpar : ∀ x ∈ st.postorder, x ∉ rootsL →
      ∃ p, p ∈ redgesOf (prepareRef E n).1 (prepareRef E n).2 x ∧
      p ∈ st.postorder ∧ ∃ (px pp : Nat),
      (st.postnum.set n n)[x]? = some px ∧
      (st.postnum.set n n)[p]? = some pp ∧ px < pp := by
    intro x hx hxr
    obtain ⟨p, hxEp, i, j, hPi, hPj, hij⟩ := hpar5 x hx hxr
    have hpP : p ∈ st.postorder := List.getElem?_mem hPj
    have hpltn : p < n := hPlt p hpP
    have hxn : x < n := hPlt x hx
    refine ⟨p, ?_, hpP, i, j, ?_, ?_, hij⟩
    · rw [redgesOf_prepare E n hEr x]
      exact (srcList_mem E n x p).mpr ⟨hpltn, hxEp⟩
    · rw [List.getElem?_set_ne (by omega)]
      exact hpnum0 i x hPi
    · rw [List.getElem?_set_ne (by omega)]
      exact hpnum0 j p hPj
  have hrootP : ∀ r ∈ rootsL, r ∈ st.postorder :=
    fun r hr => (hiff r).mpr ⟨hroots r hr, .root r hr⟩
  obtain ⟨hi0len, hi0n, hi0z⟩ := idomInit_fold n rootsL hroots rootsL
    (List.replicate n ObjId.nil ++ [ObjId.id n])
    (by simp)
    (by
      rw [List.getElem?_append_right (by simp)]
      simp)
    (by
      intro z hz
      refine Or.inl ?_
      rw [List.getElem?_append_left (by simp [hz]), List.getElem?_replicate,
        if_pos hz])
    (fun z hz => hz)
  have hinv0 : idomInv st.postorder (st.postnum.set n n) n
      (rootsL.foldl (fun A r => A.set r (ObjId.id n))
        (List.replicate n ObjId.nil ++ [ObjId.id n])) := by
    refine ⟨hi0len, hi0n, ?_, ?_⟩
    · intro z hzn hzP
      rcases hi0z z hzn with h1 | ⟨_, h2⟩
      · exact h1
      · exact absurd (hrootP z h2) hzP
    · intro z iw hzn hz
      rcases hi0z z hzn with h1 | ⟨h1, _⟩
      · rw [h1] at hz
        simp at hz
      · rw [h1] at hz
        injection hz with h2
        injection h2 with h3
        exact Or.inl h3.symm
  obtain ⟨hinvA, hnnA⟩ := chkLoop_spec st.postorder (st.postnum.set n n) n
    rootsL (prepareRef E n).1 (prepareRef E n).2 (2 * n + 4)
    st.postorder.reverse hpn hPlt hplt hpm hredb hpar
    (fun z hz => List.mem_reverse.mp hz)
    (desc_of_postidx st.postorder (st.postnum.set n n) hIdx)
    (fun z hz => List.mem_reverse.mpr hz)
    (n + 2)
    (rootsL.foldl (fun A r => A.set r (ObjId.id n))
      (List.replicate n ObjId.nil ++ [ObjId.id n]))
    A hAo hinv0
  have hacc : accOrd A n st.postorder := by
    have h0 := accOrd_of_inv A st.postorder (st.postnum.set n n) n hinvA
      hPlt hIdx st.postorder.length 0 (by omega)
    simpa using h0
  have hT : (st.postorder.map sizeF).sum < 2 ^ 64 := by
    obtain ⟨l, hperm, hsubl⟩ := List.subperm_of_subset hnodup hPsub
    have h1 : (st.postorder.map sizeF).sum = (l.map sizeF).sum :=
      ((hperm.map sizeF).sum_eq).symm
    have h2 : (l.map sizeF).sum ≤ ((List.range n).map sizeF).sum :=
      sublist_sum_le _ _ (hsubl.map sizeF)
    omega
  have hD0cons : (((List.replicate (n + 1) (0 : Nat))[n]?).getD 0) +
      (st.postorder.map (fun z => sizeF z +
        (((List.replicate (n + 1) (0 : Nat))[z]?).getD 0))).sum =
      (st.postorder.map sizeF).sum := by
    have e1 : ((List.replicate (n + 1) (0 : Nat))[n]?).getD 0 = 0 := by
      rw [List.getElem?_replicate, if_pos (by omega)]
      rfl
    have e2 : st.postorder.map (fun z => sizeF z +
        (((List.replicate (n + 1) (0 : Nat))[z]?).getD 0)) =
        st.postorder.map sizeF := by
      refine List.map_eq_map_iff.mpr ?_
      intro z hz
      have hzlt : z < n + 1 := by
        have := hPlt z hz
        omega
      simp only [List.getElem?_replicate, if_pos hzlt, Option.getD_some,
        Nat.add_zero]
    rw [e1, e2]
    omega
  obtain ⟨f1, f2, f3, f4, f5⟩ := domAccum_spec sizeF A n
    ((st.postorder.map sizeF).sum) hT st.postorder
    (List.replicate (n + 1) 0) D h (by simp) hnodup hPlt hacc hD0cons
  refine ⟨?_, ⟨st.postorder, hiff, hnodup, ?_⟩, ?_⟩
  · intro y hy hr
    have hyP : y ∈ st.postorder := (hiff y).mpr ⟨hy, hr⟩
    have h4 := f4 y hyP
    have hylt : y < n + 1 := by omega
    simp only [List.getElem?_replicate, if_pos hylt, Option.getD_some] at h4
    rcases hv : D[y]? with _ | v
    · rw [List.getElem?_eq_none_iff] at hv
      omega
    · refine ⟨v, rfl, ?_⟩
      rw [hv] at h4
      simp only [Option.getD_some] at h4
      omega
  · rcases hv : D[n]? with _ | v
    · rw [List.getElem?_eq_none_iff] at hv
      omega
    · rw [hv] at f2
      simp only [Option.getD_some] at f2
      rw [f2]
  · intro y hy hnr
    have hyP : y ∉ st.postorder := fun hc => hnr ((hiff y).mp hc).2
    have h5 := f5 y hyP (by omega)
    rw [h5, List.getElem?_replicate, if_pos (show y < n + 1 by omega)]

/-- The concrete heap for the C4 witness: three objects with edges
`0 → 1`, `0 → 2`, `2 → 1`, sizes `8 + index`, root object `0`. -/
def c4E : Nat → List Nat :=
  fun x => if x = 0 then [1, 2] else if x = 2 then [1] else []

/-- Object sizes for the C4 witness. -/
def c4S : Nat → Nat := fun x => 8 + x

/-- Witness for C4: on the three-object heap the computed `domsize`
array is `[27, 9, 10, 27]` — every slot at least the object's size and
the virtual start (slot 3) holding the total `8 + 9 + 10 = 27`. -/
theorem c4_domsize_witness :
    (∀ (y : Nat), y < 3 → Reaches c4E [0] y →
      ∃ (v : Nat), ([27, 9, 10, 27] : List Nat)[y]? = some v ∧ c4S y ≤ v) ∧
    (∃ (P : List Nat), (∀ (z : Nat), z ∈ P ↔ (z < 3 ∧ Reaches c4E [0] z)) ∧
      P.Nodup ∧ ([27, 9, 10, 27] : List Nat)[3]? = some ((P.map c4S).sum)) ∧
    (∀ (y : Nat), y < 3 → ¬ Reaches c4E [0] y →
      ([27, 9, 10, 27] : List Nat)[y]? = some 0) :=
  c4_domsize c4E c4S 3 [0] [27, 9, 10, 27] (by rfl)
    (by decide) (by decide) (by decide)

/-- Witness for C10 on the same concrete heap. -/
theorem c10_getReferrers_no_drop_witness :
    (ref2get (prepareRef prepE 3).2 1 ≠ [] →
      r1get (prepareRef prepE 3).1 1 ≠ .nil) ∧
    (∀ y, r1get (prepareRef prepE 3).1 1 = .id y →
      y ∉ ref2get (prepareRef prepE 3).2 1 ∧
      ObjId.id y ∈ refSources (prepareRef prepE 3) 1) ∧
    (∀ y ∈ ref2get (prepareRef prepE 3).2 1,
      ObjId.id y ∈ refSources (prepareRef prepE 3) 1) :=
  c10_getReferrers_no_drop prepE 3 (by intro x hx; fin_cases hx <;> decide) 1

end hview
